import Mathlib

/-!
image8bit: a shallow embedding of the pixel-buffer engine.

Source: `src/image8bit.c`.

Modelling conventions.

* C `int` values (coordinates, sizes, loop counters) are mathematical integers (`Int`).
  Signed overflow is undefined behaviour in C.  In `ImageBlur` and in the direct filter, where
  `int` results depend on the caller's `dx` and `dy`, every such result goes through `intOf`
  and an overflow is an abort, as is a read outside the local table; in the other operations
  signed overflow lies outside the model.
* `uint8` values are naturals; a conversion to `uint8` is written `% 256` where the source
  converts.  `uint32_t` arithmetic is written `% 2 ^ 32`.
* A failed `assert` aborts the program: every operation that can reach an `assert` returns an
  `Option`, and `none` is the abort.  An access outside the pixel array and an integer division
  by zero are treated as aborts too.
* `double` values are rationals (`ℚ`) and `double` arithmetic is exact.  In the window mean
  of `ImageBlur` the operands are integers below `2 ^ 53`: sums, differences and the
  conversions from integers are exact in IEEE binary64, and the correctly rounded quotient of
  two such integers has the same integer part as the exact quotient.  In `ImageBrighten` and
  `ImageBlend` the model is exact for the factors whose products with a pixel are
  representable (such as `2` or `1/2`); the rounding of other products is not modelled.
  A conversion to `uint8` of a `double` whose integer part is not a `uint8` is undefined
  behaviour in C; the compiled program stores a byte and goes on, and `doubleToUint8` gives
  the byte that the x86-64 conversion stores.
* A C `Image` is a pointer that may be `NULL`; a function returning `Image` returns an
  `Option Image` inside the abort `Option`, the inner `none` being `NULL`.
* `malloc` succeeding or not is an input (`alloc : Bool`) of `ImageCreate` and of the
  operations that call it.
* The instrumentation counters (`PIXMEM`, `CountLocate`, `CountBlur`, `SumBlur`) have no effect
  on results and are left out.
-/

namespace Image8bit

/-! ## Data structure -/

/-- The `struct image` of the source: `width`, `height`, `maxval` and the raster-scan
pixel array. -/
structure Image where
  width : Int
  height : Int
  maxval : Int
  pixel : List Nat
  deriving DecidableEq, Repr

/-- Maximum value that can be stored in a pixel: `const uint8 PixMax = 255`. -/
def PixMax : Nat := 255

/-- The representation invariant of images built by `ImageCreate` and `ImageLoad`:
non-negative dimensions, `0 < maxval <= PixMax`, a pixel array of exactly `width*height`
entries, each a `uint8`. -/
def Image.WF (img : Image) : Prop :=
  0 ≤ img.width ∧ 0 ≤ img.height ∧ 0 < img.maxval ∧ img.maxval ≤ PixMax ∧
  (img.pixel.length : Int) = img.width * img.height ∧ ∀ p ∈ img.pixel, p < 256

instance (img : Image) : Decidable img.WF := by
  unfold Image.WF; infer_instance

/-- The raw array read `img->pixel[x + y*width]`, without any check (specification helper). -/
def Image.pix (img : Image) (x y : Int) : Nat :=
  img.pixel.getD (x + y * img.width).toNat 0

/-! ## Loops -/

/-- Run `body` on the counters `i, i+1, ...`, `fuel` times, threading the state; an abort in
the body aborts the loop. -/
def loopFrom {σ : Type} (body : Int → σ → Option σ) : Nat → Int → σ → Option σ
  | 0, _, s => some s
  | fuel + 1, i, s =>
    match body i s with
    | none => none
    | some s' => loopFrom body fuel (i + 1) s'

/-- The C loop `for (int i = 0; i < n; i++) body`. -/
def forLoop {σ : Type} (n : Int) (body : Int → σ → Option σ) (s : σ) : Option σ :=
  loopFrom body n.toNat 0 s

/-- A loop whose body may `return`: the body yields `none` on abort, `some none` to go on
and `some (some r)` to return `r` from the enclosing function. -/
def loopRetFrom {ρ : Type} (body : Int → Option (Option ρ)) : Nat → Int → Option (Option ρ)
  | 0, _ => some none
  | fuel + 1, i =>
    match body i with
    | none => none
    | some (some r) => some (some r)
    | some none => loopRetFrom body fuel (i + 1)

/-- The C loop `for (int i = 0; i < n; i++) body` for a body that may `return`. -/
def forLoopRet {ρ : Type} (n : Int) (body : Int → Option (Option ρ)) : Option (Option ρ) :=
  loopRetFrom body n.toNat 0

/-! ## Image management -/

/-- `ImageCreate(width, height, maxval)`: asserts `width >= 0`, `height >= 0` and
`0 < maxval <= PixMax`; returns `NULL` when allocation fails, otherwise a black image. -/
def ImageCreate (alloc : Bool) (width height : Int) (maxval : Nat) : Option (Option Image) :=
  if 0 ≤ width ∧ 0 ≤ height ∧ (0 < maxval ∧ maxval ≤ PixMax) then
    if alloc then
      some (some { width := width, height := height, maxval := maxval,
                   pixel := List.replicate (width * height).toNat 0 })
    else some none
  else none

/-- `ImageMaxval(img)`: the maximum gray level of the image. -/
def ImageMaxval (img : Image) : Int := img.maxval

/-! ## Geometry predicates and pixel access -/

/-- `ImageValidPos(img, x, y)`. -/
def ImageValidPos (img : Image) (x y : Int) : Bool :=
  (0 ≤ x && x < img.width) && (0 ≤ y && y < img.height)

/-- `ImageValidRect(img, x, y, w, h)`: asserts `ImageValidPos(img, x, y)`, then returns
`(0 <= w && w < img->width-x) && (0 <= h && h < img->height-y)`. -/
def ImageValidRect (img : Image) (x y w h : Int) : Option Bool :=
  if ImageValidPos img x y then
    some ((0 ≤ w && w < img.width - x) && (0 ≤ h && h < img.height - y))
  else none

/-- `G(img, x, y)`: the linear index `x + y*width`, asserted to lie in
`[0, width*height)`. -/
def G (img : Image) (x y : Int) : Option Int :=
  let index := x + y * img.width
  if 0 ≤ index ∧ index < img.width * img.height then some index else none

/-- `ImageGetPixel(img, x, y)`: asserts a valid position, then reads
`img->pixel[G(img, x, y)]`. -/
def ImageGetPixel (img : Image) (x y : Int) : Option Nat :=
  if ImageValidPos img x y then
    match G img x y with
    | none => none
    | some index => img.pixel[index.toNat]?
  else none

/-- `ImageSetPixel(img, x, y, level)`: asserts a valid position, then writes the `uint8`
`level` to `img->pixel[G(img, x, y)]`. -/
def ImageSetPixel (img : Image) (x y : Int) (level : Nat) : Option Image :=
  if ImageValidPos img x y then
    match G img x y with
    | none => none
    | some index =>
      if index.toNat < img.pixel.length then
        some { img with pixel := img.pixel.set index.toNat (level % 256) }
      else none
  else none

/-! ## Information queries -/

/-- `ImageStats(img, min, max)`: for `x` outer and `y` inner, a pixel below `*min` replaces
`*min`, otherwise a pixel above `*max` replaces `*max`.  `min` and `max` are the contents of
`*min` and `*max` on entry (the function does not initialise them); the result is their
contents on return. -/
def ImageStats (img : Image) (min max : Nat) : Option (Nat × Nat) :=
  forLoop img.width (fun x st =>
    forLoop img.height (fun y st =>
      match ImageGetPixel img x y with
      | none => none
      | some pixelColor =>
        if st.1 > pixelColor then some (pixelColor, st.2)
        else if st.2 < pixelColor then some (st.1, pixelColor)
        else some st) st) (min, max)

/-- The conversion `(uint8) d` of a `double`: the integer part (toward zero) whenever it is a
`uint8`.  For the other values the conversion is undefined in C and the program stores a byte
all the same; the byte is the one of the x86-64 conversion, which truncates to a 32-bit `int`
(giving `INT_MIN` when the integer part does not fit) and keeps the low byte. -/
def doubleToUint8 (d : ℚ) : Nat :=
  let t := Int.tdiv d.num d.den
  if -2 ^ 31 ≤ t ∧ t < 2 ^ 31 then (t % 256).toNat else 0

/-! ## Pixel transformations -/

/-- `ImageNegative(img)`: for `x` outer and `y` inner, the pixel read at `(x, y)` is replaced
by `(uint8)(PixMax - pixel)`.  The result is the new content of `img`. -/
def ImageNegative (img : Image) : Option Image :=
  forLoop img.width (fun x img =>
    forLoop img.height (fun y img =>
      match ImageGetPixel img x y with
      | none => none
      | some p => ImageSetPixel img x y (((PixMax : Int) - (p : Int)) % 256).toNat) img) img

/-- `ImageThreshold(img, thr)`: the pixel at `(x, y)` is set to 0 when it is below the
`uint8` `thr`, and to `ImageMaxval(img)` otherwise. -/
def ImageThreshold (img : Image) (thr : Nat) : Option Image :=
  forLoop img.width (fun x img =>
    forLoop img.height (fun y img =>
      match ImageGetPixel img x y with
      | none => none
      | some p =>
        if p < thr then ImageSetPixel img x y 0
        else ImageSetPixel img x y (ImageMaxval img % 256).toNat) img) img

/-- `ImageBrighten(img, factor)`: asserts `factor >= 0.0`; the pixel at `(x, y)` is replaced
by `(uint8)(pixel * factor + 0.5)`.  No comparison with `maxval` is made. -/
def ImageBrighten (img : Image) (factor : ℚ) : Option Image :=
  if 0 ≤ factor then
    forLoop img.width (fun x img =>
      forLoop img.height (fun y img =>
        match ImageGetPixel img x y with
        | none => none
        | some p => ImageSetPixel img x y (doubleToUint8 ((p : ℚ) * factor + 1 / 2))) img) img
  else none

/-! ## Geometric transformations -/

/-- `ImageRotate(img)`: a new `height x width` image; the pixel read at `(y, i)` is written
at `(i, img->width-1-y)`. -/
def ImageRotate (alloc : Bool) (img : Image) : Option (Option Image) :=
  let nWidth := img.height
  let nHeight := img.width
  let maxValue := (img.maxval % 256).toNat
  match ImageCreate alloc nWidth nHeight maxValue with
  | none => none
  | some none => some none
  | some (some nImg) =>
    (forLoop nWidth (fun i nImg =>
      forLoop nHeight (fun y nImg =>
        match ImageGetPixel img y i with
        | none => none
        | some p => ImageSetPixel nImg i (img.width - 1 - y) p) nImg) nImg).map some

/-- `ImageMirror(img)`: a new image of the same size; the pixel read at `(i, y)` is written
at `(nWidth-1-i, y)`. -/
def ImageMirror (alloc : Bool) (img : Image) : Option (Option Image) :=
  let nHeight := img.height
  let nWidth := img.width
  let maxValue := (img.maxval % 256).toNat
  match ImageCreate alloc nWidth nHeight maxValue with
  | none => none
  | some none => some none
  | some (some nImg) =>
    (forLoop nWidth (fun i nImg =>
      forLoop nHeight (fun y nImg =>
        match ImageGetPixel img i y with
        | none => none
        | some p => ImageSetPixel nImg (nWidth - 1 - i) y p) nImg) nImg).map some

/-- `ImageCrop(img, x, y, w, h)`: asserts `ImageValidRect(img, x, y, w, h)`, creates a
`w x h` image and copies the pixel at `(x+i, y+j)` to `(i, j)`. -/
def ImageCrop (alloc : Bool) (img : Image) (x y w h : Int) : Option (Option Image) :=
  match ImageValidRect img x y w h with
  | some true =>
    let maxValue := (img.maxval % 256).toNat
    match ImageCreate alloc w h maxValue with
    | none => none
    | some none => some none
    | some (some nImg) =>
      (forLoop w (fun i nImg =>
        forLoop h (fun j nImg =>
          match ImageGetPixel img (x + i) (y + j) with
          | none => none
          | some p => ImageSetPixel nImg i j p) nImg) nImg).map some
  | _ => none

/-! ## Operations on two images -/

/-- `ImagePaste(img1, x, y, img2)`: asserts `ImageValidRect(img1, x, y, img2->width,
img2->height)` and copies every pixel `(i, j)` of `img2` to `(i+x, j+y)` of `img1`.
The result is the new content of `img1`. -/
def ImagePaste (img1 : Image) (x y : Int) (img2 : Image) : Option Image :=
  match ImageValidRect img1 x y img2.width img2.height with
  | some true =>
    forLoop img2.width (fun i img1 =>
      forLoop img2.height (fun j img1 =>
        match ImageGetPixel img2 i j with
        | none => none
        | some p => ImageSetPixel img1 (i + x) (j + y) p) img1) img1
  | _ => none

/-- `ImageBlend(img1, x, y, img2, alpha)`: asserts `ImageValidRect(img1, x, y, img2->width,
img2->height)`; the pixel `(i+x, j+y)` of `img1` is replaced by
`(uint8)((1-alpha) * pixel1 + alpha * pixel2 + 0.5)`, `pixel2` being the pixel `(i, j)` of
`img2`.  The result is the new content of `img1`. -/
def ImageBlend (img1 : Image) (x y : Int) (img2 : Image) (alpha : ℚ) : Option Image :=
  match ImageValidRect img1 x y img2.width img2.height with
  | some true =>
    forLoop img2.width (fun i img1 =>
      forLoop img2.height (fun j img1 =>
        match ImageGetPixel img1 (i + x) (j + y), ImageGetPixel img2 i j with
        | some p1, some p2 =>
          ImageSetPixel img1 (i + x) (j + y)
            (doubleToUint8 ((1 - alpha) * (p1 : ℚ) + alpha * (p2 : ℚ) + 1 / 2))
        | _, _ => none) img1) img1
  | _ => none

/-- `ImageMatchSubImage(img1, x, y, img2)`: asserts `ImageValidPos(img1, x, y)`; scans
`img2` with `i` outer and `j` inner and returns 0 at the first differing pixel, 1 when
there is none. -/
def ImageMatchSubImage (img1 : Image) (x y : Int) (img2 : Image) : Option Int :=
  if ImageValidPos img1 x y then
    let mWidth := img2.width
    let mHeight := img2.height
    match forLoopRet mWidth (fun i =>
        forLoopRet mHeight (fun j =>
          match ImageGetPixel img1 (x + i) (y + j), ImageGetPixel img2 i j with
          | some p1, some p2 => if p1 ≠ p2 then some (some (0 : Int)) else some none
          | _, _ => none)) with
    | none => none
    | some (some r) => some r
    | some none => some 1
  else none

/-- `ImageLocateSubImage(img1, px, py, img2)`: the loops `for (i = 0; i <= w1-w2; i++)`,
`for (j = 0; j <= h1-h2; j++)` call `ImageMatchSubImage(img1, i, j, img2)` and return 1
with `(*px, *py) = (i, j)` at the first success; 0 with `(*px, *py)` as on entry when the
loops end.  The result is `(returned value, *px, *py)`; `px`, `py` are the values on entry. -/
def ImageLocateSubImage (img1 : Image) (px py : Int) (img2 : Image) :
    Option (Int × Int × Int) :=
  match forLoopRet (img1.width - img2.width + 1) (fun i =>
      forLoopRet (img1.height - img2.height + 1) (fun j =>
        match ImageMatchSubImage img1 i j img2 with
        | none => none
        | some r => if r ≠ 0 then some (some ((1 : Int), i, j)) else some none)) with
  | none => none
  | some (some r) => some r
  | some none => some (0, px, py)

/-- The assignment `sum[j][i] = v` on the local table `uint32_t sum[h][w]`. -/
def tabSet (sum : Int → Int → Nat) (j i : Int) (v : Nat) : Int → Int → Nat :=
  fun j' i' => if j' = j ∧ i' = i then v else sum j' i'

/-- The value of an integer expression in `uint32_t` arithmetic. -/
def wrap32 (z : Int) : Nat := (z % 2 ^ 32).toNat

/-- The body of the first pass of `ImageBlur` at `(i, j)`: the assignment to `sum[j][i]`
by the four-case recurrence, in `uint32_t` arithmetic. -/
def blurTableStep (img : Image) (i j : Int) (sum : Int → Int → Nat) :
    Option (Int → Int → Nat) :=
  if i = 0 ∧ j = 0 then
    (ImageGetPixel img i j).map (fun (p : Nat) => tabSet sum j i (wrap32 (p : Int)))
  else if i = 0 then
    (ImageGetPixel img i j).map (fun (p : Nat) =>
      tabSet sum j i (wrap32 ((p : Int) + sum (j - 1) i)))
  else if j = 0 then
    (ImageGetPixel img i j).map (fun (p : Nat) =>
      tabSet sum j i (wrap32 ((p : Int) + sum j (i - 1))))
  else
    (ImageGetPixel img i j).map (fun (p : Nat) =>
      tabSet sum j i (wrap32 ((p : Int) + sum j (i - 1) + sum (j - 1) i - sum (j - 1) (i - 1))))

/-- First pass of `ImageBlur`: fills `sum[j][i]` for `i` outer, `j` inner.  `init` is the
content of the uninitialised table `uint32_t sum[h][w]`. -/
def blurTable (img : Image) (init : Int → Int → Nat) : Option (Int → Int → Nat) :=
  let h := img.height
  let w := img.width
  forLoop w (fun i sum => forLoop h (fun j sum => blurTableStep img i j sum) sum) init

/-- The value of an `int` expression whose mathematical value is `z`: `z` when it is
representable in 32 bits; otherwise the computation overflows, which is an abort. -/
def intOf (z : Int) : Option Int :=
  if -2 ^ 31 ≤ z ∧ z < 2 ^ 31 then some z else none

/-- The read `sum[j][i]` of the local table `uint32_t sum[h][w]`; an index outside the table
is an abort. -/
def tabGet (sum : Int → Int → Nat) (w h j i : Int) : Option Nat :=
  if 0 ≤ j ∧ j < h ∧ 0 ≤ i ∧ i < w then some (sum j i) else none

/-- The body of the second pass of `ImageBlur` at `(x, y)`: the `int` values `x+dx`, `x-dx`,
`y+dy`, `y-dy`, the clamped window `[xm, xM] x [ym, yM]`, its `int` `count`, the four table
entries `a`, `b`, `c`, `d`, `soma = (double) d-b-c+a` and the level
`(uint8)((soma+count/2)/count)`. -/
def blurLevel (sum : Int → Int → Nat) (w h x y dx dy : Int) : Option Nat :=
  match intOf (x + dx), intOf (x - dx), intOf (y + dy), intOf (y - dy) with
  | some xpd, some xmd, some ypd, some ymd =>
    let xM := if xpd < w - 1 then xpd else w - 1
    let xm := if xmd > 0 then xmd else 0
    let yM := if ypd < h - 1 then ypd else h - 1
    let ym := if ymd > 0 then ymd else 0
    match intOf ((xM - xm + 1) * (yM - ym + 1)),
      (if ym < 1 ∨ xm < 1 then some 0 else tabGet sum w h (ym - 1) (xm - 1)),
      (if ym < 1 then some 0 else tabGet sum w h (ym - 1) xM),
      (if xm < 1 then some 0 else tabGet sum w h yM (xm - 1)),
      tabGet sum w h yM xM with
    | some count, some a, some b, some c, some d =>
      let soma : ℚ := (d : ℚ) - (b : ℚ) - (c : ℚ) + (a : ℚ)
      some (doubleToUint8 ((soma + ((Int.tdiv count 2 : Int) : ℚ)) / ((count : Int) : ℚ)))
    | _, _, _, _, _ => none
  | _, _, _, _ => none

/-- `ImageBlur(img, dx, dy)`, the summed-area-table version that the source compiles:
the table is built from the image, then every pixel is overwritten, `x` outer, `y` inner.
The result is the new content of `img`. -/
def ImageBlur (img : Image) (dx dy : Int) : Option Image :=
  let h := img.height
  let w := img.width
  match blurTable img (fun _ _ => 0) with
  | none => none
  | some sum =>
    forLoop w (fun x img =>
      forLoop h (fun y img =>
        match blurLevel sum w h x y dx dy with
        | none => none
        | some level => ImageSetPixel img x y level) img) img

/-- The loop `for (int k = lo; k <= hi; k++) body` on an `int` counter: when the loop runs,
its last `k++` computes `hi + 1`. -/
def forRange {σ : Type} (lo hi : Int) (body : Int → σ → Option σ) (s : σ) : Option σ :=
  if lo ≤ hi then
    match intOf (hi + 1) with
    | none => none
    | some _ => loopFrom body (hi - lo + 1).toNat lo s
  else some s

/-- The body `if (ImageValidPos(img, k, l)) { sum += ImageGetPixel(imgAuxiliar, k, l);
count++; }` of the direct filter, on the `int` accumulators `acc = (sum, count)`. -/
def directStep (img imgAuxiliar : Image) (k l : Int) (acc : Int × Int) : Option (Int × Int) :=
  if ImageValidPos img k l then
    match ImageGetPixel imgAuxiliar k l with
    | none => none
    | some p =>
      match intOf (acc.1 + (p : Int)), intOf (acc.2 + 1) with
      | some sum, some count => some (sum, count)
      | _, _ => none
  else some acc

/-- The inner loop `for (int l = j - dy; l <= j + dy; l++)` of the direct filter in column
`k`, on the accumulators `acc = (sum, count)`. -/
def directRow (img imgAuxiliar : Image) (j dy k : Int) (acc : Int × Int) : Option (Int × Int) :=
  match intOf (j - dy), intOf (j + dy) with
  | some llo, some lhi => forRange llo lhi (fun l acc => directStep img imgAuxiliar k l acc) acc
  | _, _ => none

/-- The body of the direct filter at `(i, j)`: `sum` and `count` start at 0, the loop
`for (int k = i - dx; k <= i + dx; k++)` runs the inner loop, and the level is
`(uint8)((sum+count/2)/count)`, all in `int` arithmetic. -/
def directLevel (img imgAuxiliar : Image) (i j dx dy : Int) : Option Nat :=
  match intOf (i - dx), intOf (i + dx) with
  | some klo, some khi =>
    match forRange klo khi (fun k acc => directRow img imgAuxiliar j dy k acc)
        ((0 : Int), (0 : Int)) with
    | none => none
    | some (sum, count) =>
      if count = 0 then none
      else
        match intOf (sum + Int.tdiv count 2) with
        | none => none
        | some t => some ((Int.tdiv t count) % 256).toNat
  | _, _ => none

/-- The direct mean filter that the source keeps in a comment above the compiled version:
it copies the image into `imgAuxiliar`, and for every `(i, j)`, `i` outer and `j` inner,
writes the level that `directLevel` computes from the copy. -/
def ImageBlurDirect (alloc : Bool) (img : Image) (dx dy : Int) : Option Image :=
  match ImageCreate alloc img.width img.height (img.maxval % 256).toNat with
  | some (some aux) =>
    let n := (img.width * img.height).toNat
    let imgAuxiliar : Image := { aux with pixel := img.pixel.take n ++ aux.pixel.drop n }
    forLoop img.width (fun i img =>
      forLoop img.height (fun j img =>
        match directLevel img imgAuxiliar i j dx dy with
        | none => none
        | some level => ImageSetPixel img i j level) img) img
  | _ => none

/-! ## Specification-level definitions -/

/-- Specification: the sum of the pixels of `img` that lie in the window
`[x-dx, x+dx] x [y-dy, y+dy]` (the window clipped to the image). -/
def windowSum (img : Image) (x y dx dy : Int) : Nat :=
  ∑ k in Finset.range img.width.toNat, ∑ l in Finset.range img.height.toNat,
    if x - dx ≤ (k : Int) ∧ (k : Int) ≤ x + dx ∧ y - dy ≤ (l : Int) ∧ (l : Int) ≤ y + dy
    then img.pix k l else 0

/-- Specification: the number of pixels of `img` that lie in the window
`[x-dx, x+dx] x [y-dy, y+dy]`. -/
def windowCount (img : Image) (x y dx dy : Int) : Nat :=
  ∑ k in Finset.range img.width.toNat, ∑ l in Finset.range img.height.toNat,
    if x - dx ≤ (k : Int) ∧ (k : Int) ≤ x + dx ∧ y - dy ≤ (l : Int) ∧ (l : Int) ≤ y + dy
    then 1 else 0

/-- Specification: the rounded mean `(sum + count/2) / count` of the window, in integer
division. -/
def windowMean (img : Image) (x y dx dy : Int) : Nat :=
  (windowSum img x y dx dy + windowCount img x y dx dy / 2) / windowCount img x y dx dy

/-- Specification: `img2` matches `img1` at offset `(x, y)`: every pixel `(i, j)` of
`img2` equals the pixel `(x+i, y+j)` of `img1`. -/
def MatchesAt (img1 : Image) (x y : Int) (img2 : Image) : Prop :=
  ∀ i j : Int, 0 ≤ i → i < img2.width → 0 ≤ j → j < img2.height →
    img1.pix (x + i) (y + j) = img2.pix i j

/-- Specification: position `(i', j')` has been handled when a loop nest `i` outer, `j` inner
with `m` inner iterations stands at `(i, j)`. -/
def Visited (m i j i' j' : Int) : Prop :=
  0 ≤ i' ∧ 0 ≤ j' ∧ j' < m ∧ (i' < i ∨ (i' = i ∧ j' < j))

/-- Specification: the state of a loop nest at `(i, j)` that writes level `f i' j'` at
position `(tx i' j', ty i' j')` of `img0`: same header, visited targets hold their level,
the other positions hold the pixel of `img0`. -/
def FillInv (img0 : Image) (m : Int) (tx ty : Int → Int → Int) (f : Int → Int → Nat)
    (i j : Int) (s : Image) : Prop :=
  s.WF ∧ s.width = img0.width ∧ s.height = img0.height ∧ s.maxval = img0.maxval ∧
  (∀ i' j', Visited m i j i' j' → s.pix (tx i' j') (ty i' j') = f i' j' % 256) ∧
  (∀ x y, ImageValidPos img0 x y = true →
    (∀ i' j', Visited m i j i' j' → ¬ (tx i' j' = x ∧ ty i' j' = y)) →
    s.pix x y = img0.pix x y)

/-- Specification: the sum of `f` over the columns `[a, b)` and the rows `[c, d)`. -/
def rectSum (f : Nat → Nat → Nat) (a b c d : Nat) : Nat :=
  ∑ k in Finset.Ico a b, ∑ l in Finset.Ico c d, f k l

/-- Specification: the sum of `f` over the columns below `a` and the rows below `b`; the
entry `sum[j][i]` of a summed-area table is meant to hold `areaSum f (i+1) (j+1)`. -/
def areaSum (f : Nat → Nat → Nat) (a b : Nat) : Nat :=
  ∑ k in Finset.range a, ∑ l in Finset.range b, f k l

/-- Specification: the state of the table while the first pass of `ImageBlur` stands at
`(i, j)`: every entry already written holds the exact area sum of the pixels. -/
def TableInv (img : Image) (i j : Int) (sum : Int → Int → Nat) : Prop :=
  ∀ i' j', Visited img.height i j i' j' →
    sum j' i' = areaSum (fun k l => img.pix k l) (i'.toNat + 1) (j'.toNat + 1)

/-- Specification: every stored pixel is at most the image's `maxval`. -/
def Image.Bounded (img : Image) : Prop := ∀ p ∈ img.pixel, (p : Int) ≤ img.maxval

/-- A one-row image of 16843010 pixels, all 255: the sum of its pixels is `2^32 + 254`. -/
def wideImage : Image := ⟨16843010, 1, 255, List.replicate 16843010 255⟩

/-- A one-row image of 8421504 pixels, all 255: the sum of its pixels, 2147483520, is an `int`,
and adding half of the pixel count to it overflows an `int`. -/
def brightRow : Image := ⟨8421504, 1, 255, List.replicate 8421504 255⟩

/-- A two-row image of 33752330 columns with maxval 254: the first 16909321 pixels of row 0
and the first pixel of row 1 are 254, every other pixel is 0.  The pixels of row 0 left of
column 16909320 add up to `2^32 - 16`. -/
def tallImage : Image :=
  ⟨33752330, 2, 254,
    List.replicate 16909321 254 ++ (List.replicate 16843009 0 ++
      (254 :: List.replicate 33752329 0))⟩

/-- Specification: the state of the table while the first pass of `ImageBlur` stands at
`(i, j)`: every entry already written holds the area sum of the pixels modulo `2^32`. -/
def TableInvMod (img : Image) (i j : Int) (sum : Int → Int → Nat) : Prop :=
  ∀ i' j', Visited img.height i j i' j' →
    sum j' i' = areaSum (fun k l => img.pix k l) (i'.toNat + 1) (j'.toNat + 1) % 2 ^ 32

/-- Specification: the levels of the pixels of `img` that lie in the window
`[x-dx, x+dx] x [y-dy, y+dy]`. -/
def windowVals (img : Image) (x y dx dy : Int) : Finset Nat :=
  ((Finset.range img.width.toNat ×ˢ Finset.range img.height.toNat).filter
    (fun p : Nat × Nat => x - dx ≤ (p.1 : Int) ∧ (p.1 : Int) ≤ x + dx ∧
      y - dy ≤ (p.2 : Int) ∧ (p.2 : Int) ≤ y + dy)).image (fun p => img.pix p.1 p.2)

/-! ## Basic facts -/

theorem validPos_iff (img : Image) (x y : Int) :
    ImageValidPos img x y = true ↔ 0 ≤ x ∧ x < img.width ∧ 0 ≤ y ∧ y < img.height := by
  simp [ImageValidPos]; tauto

theorem index_bounds {w h x y : Int} (hx0 : 0 ≤ x) (hx : x < w) (hy0 : 0 ≤ y) (hy : y < h) :
    0 ≤ x + y * w ∧ x + y * w < w * h := by
  have hw : 0 ≤ w := by omega
  constructor
  · have := mul_nonneg hy0 hw
    omega
  · have h1 : (y + 1) * w ≤ h * w := mul_le_mul_of_nonneg_right (by omega) hw
    nlinarith

theorem index_inj {w x y x' y' : Int} (hx0 : 0 ≤ x) (hx : x < w) (hx0' : 0 ≤ x') (hx' : x' < w)
    (h : x + y * w = x' + y' * w) : x = x' ∧ y = y' := by
  have hy : y = y' := by
    by_contra hne
    rcases lt_or_gt_of_ne hne with hlt | hgt
    · have : (y + 1) * w ≤ y' * w := mul_le_mul_of_nonneg_right (by omega) (by omega)
      nlinarith
    · have : (y' + 1) * w ≤ y * w := mul_le_mul_of_nonneg_right (by omega) (by omega)
      nlinarith
  subst hy
  exact ⟨by omega, rfl⟩

theorem G_eq (img : Image) {x y : Int} (hv : ImageValidPos img x y = true) :
    G img x y = some (x + y * img.width) := by
  obtain ⟨hx0, hx, hy0, hy⟩ := (validPos_iff img x y).1 hv
  have hb := index_bounds hx0 hx hy0 hy
  simp [G, hb.1, hb.2]

theorem index_lt_length (img : Image) (hlen : (img.pixel.length : Int) = img.width * img.height)
    {x y : Int} (hv : ImageValidPos img x y = true) :
    (x + y * img.width).toNat < img.pixel.length := by
  obtain ⟨hx0, hx, hy0, hy⟩ := (validPos_iff img x y).1 hv
  have hb := index_bounds hx0 hx hy0 hy
  omega

theorem getPixel_eq (img : Image) (hlen : (img.pixel.length : Int) = img.width * img.height)
    {x y : Int} (hv : ImageValidPos img x y = true) :
    ImageGetPixel img x y = some (img.pix x y) := by
  have hi := index_lt_length img hlen hv
  simp [ImageGetPixel, hv, G_eq img hv, Image.pix, List.getD_eq_getElem?_getD,
    List.getElem?_eq_getElem hi]

theorem pix_lt (img : Image) (hwf : img.WF) {x y : Int} (hv : ImageValidPos img x y = true) :
    img.pix x y < 256 := by
  have hi := index_lt_length img hwf.2.2.2.2.1 hv
  have : img.pix x y = img.pixel[(x + y * img.width).toNat] := by
    simp [Image.pix, List.getD_eq_getElem?_getD, List.getElem?_eq_getElem hi]
  rw [this]
  exact hwf.2.2.2.2.2 _ (List.getElem_mem _)

theorem setPixel_spec (img : Image) (hwf : img.WF) {x y : Int}
    (hv : ImageValidPos img x y = true) (level : Nat) :
    ∃ out, ImageSetPixel img x y level = some out ∧ out.WF ∧
      out.width = img.width ∧ out.height = img.height ∧ out.maxval = img.maxval ∧
      out.pix x y = level % 256 ∧
      ∀ x' y', ImageValidPos img x' y' = true → ¬ (x' = x ∧ y' = y) →
        out.pix x' y' = img.pix x' y' := by
  obtain ⟨hw0, hh0, hm0, hm, hlen, hpx⟩ := hwf
  have hi := index_lt_length img hlen hv
  obtain ⟨hx0, hx, hy0, hy⟩ := (validPos_iff img x y).1 hv
  have hb := index_bounds hx0 hx hy0 hy
  refine ⟨{ img with pixel := img.pixel.set (x + y * img.width).toNat (level % 256) }, ?_,
    ⟨hw0, hh0, hm0, hm, ?_, ?_⟩, rfl, rfl, rfl, ?_, ?_⟩
  · simp [ImageSetPixel, hv, G_eq img hv, hi]
  · simpa using hlen
  · intro p hp
    rcases List.mem_or_eq_of_mem_set hp with h | h
    · exact hpx p h
    · rw [h]; exact Nat.mod_lt _ (by norm_num)
  · simp [Image.pix, List.getD_eq_getElem?_getD, List.getElem?_set, hi]
  · intro x' y' hv' hne
    obtain ⟨hx0', hx', hy0', hy'⟩ := (validPos_iff img x' y').1 hv'
    have hb' := index_bounds hx0' hx' hy0' hy'
    have hidx : (x + y * img.width).toNat ≠ (x' + y' * img.width).toNat := by
      intro heq
      have : x + y * img.width = x' + y' * img.width := by omega
      have := index_inj hx0 hx hx0' hx' this
      exact hne ⟨this.1.symm, this.2.symm⟩
    simp [Image.pix, List.getD_eq_getElem?_getD, List.getElem?_set, hidx]

/-! ## Loop rules -/

theorem loopFrom_inv {σ : Type} (body : Int → σ → Option σ) (Inv : Int → σ → Prop) :
    ∀ (fuel : Nat) (i : Int) (s : σ), Inv i s →
      (∀ k st, i ≤ k → k < i + fuel → Inv k st →
        ∃ st', body k st = some st' ∧ Inv (k + 1) st') →
      ∃ s', loopFrom body fuel i s = some s' ∧ Inv (i + fuel) s' := by
  intro fuel
  induction fuel with
  | zero =>
    intro i s h0 _
    exact ⟨s, rfl, by simpa using h0⟩
  | succ n ih =>
    intro i s h0 hstep
    obtain ⟨s1, hb, h1⟩ := hstep i s (le_refl _) (by push_cast; omega) h0
    obtain ⟨s2, hl, h2⟩ := ih (i + 1) s1 h1 (fun k st hk hk2 hI =>
      hstep k st (by omega) (by push_cast; omega) hI)
    refine ⟨s2, ?_, ?_⟩
    · simp [loopFrom, hb, hl]
    · have : i + ((n + 1 : Nat) : Int) = i + 1 + (n : Int) := by push_cast; ring
      rw [this]; exact h2

theorem forLoop_inv {σ : Type} (n : Int) (hn : 0 ≤ n) (body : Int → σ → Option σ)
    (Inv : Int → σ → Prop) (s : σ) (h0 : Inv 0 s)
    (hstep : ∀ k st, 0 ≤ k → k < n → Inv k st →
      ∃ st', body k st = some st' ∧ Inv (k + 1) st') :
    ∃ s', forLoop n body s = some s' ∧ Inv n s' := by
  obtain ⟨s', hl, hI⟩ := loopFrom_inv body Inv n.toNat 0 s h0 (fun k st hk hk2 hI =>
    hstep k st hk (by omega) hI)
  refine ⟨s', hl, ?_⟩
  have : (0 : Int) + (n.toNat : Int) = n := by omega
  rw [this] at hI; exact hI

theorem loopRetFrom_first {ρ : Type} (body : Int → Option (Option ρ)) (P : Int → Prop)
    (Q : Int → ρ → Prop) :
    ∀ (fuel : Nat) (i : Int),
      (∀ k, i ≤ k → k < i + fuel → (∀ k', i ≤ k' → k' < k → ¬ P k') →
        (P k → ∃ r, body k = some (some r) ∧ Q k r) ∧ (¬ P k → body k = some none)) →
      (loopRetFrom body fuel i = some none ∧ ∀ k, i ≤ k → k < i + fuel → ¬ P k) ∨
      (∃ k r, i ≤ k ∧ k < i + fuel ∧ loopRetFrom body fuel i = some (some r) ∧ P k ∧ Q k r ∧
        ∀ k', i ≤ k' → k' < k → ¬ P k') := by
  intro fuel
  induction fuel with
  | zero =>
    intro i _
    left
    exact ⟨rfl, fun k hk hk2 => by simp at hk2; omega⟩
  | succ n ih =>
    intro i hbody
    have hi := hbody i (le_refl _) (by push_cast; omega) (fun k' h1 h2 => by omega)
    by_cases hP : P i
    · obtain ⟨r, hr, hq⟩ := hi.1 hP
      right
      exact ⟨i, r, le_refl _, by push_cast; omega, by simp [loopRetFrom, hr], hP, hq,
        fun k' h1 h2 => by omega⟩
    · have hnone := hi.2 hP
      have hrest := ih (i + 1) (fun k hk hk2 hprev =>
        hbody k (by omega) (by push_cast; omega) (fun k' h1 h2 => by
          by_cases hk' : k' = i
          · rw [hk']; exact hP
          · exact hprev k' (by omega) h2))
      rcases hrest with ⟨hl, hall⟩ | ⟨k, r, hk, hk2, hl, hPk, hq, hprev⟩
      · left
        refine ⟨by simp [loopRetFrom, hnone, hl], fun k hk hk2 => ?_⟩
        by_cases hki : k = i
        · rw [hki]; exact hP
        · exact hall k (by omega) (by push_cast at hk2; omega)
      · right
        refine ⟨k, r, by omega, by push_cast; omega, by simp [loopRetFrom, hnone, hl], hPk, hq,
          fun k' h1 h2 => ?_⟩
        by_cases hk' : k' = i
        · rw [hk']; exact hP
        · exact hprev k' (by omega) h2

theorem forLoopRet_first {ρ : Type} (n : Int) (body : Int → Option (Option ρ))
    (P : Int → Prop) (Q : Int → ρ → Prop)
    (hbody : ∀ k, 0 ≤ k → k < n → (∀ k', 0 ≤ k' → k' < k → ¬ P k') →
      (P k → ∃ r, body k = some (some r) ∧ Q k r) ∧ (¬ P k → body k = some none)) :
    (forLoopRet n body = some none ∧ ∀ k, 0 ≤ k → k < n → ¬ P k) ∨
    (∃ k r, 0 ≤ k ∧ k < n ∧ forLoopRet n body = some (some r) ∧ P k ∧ Q k r ∧
      ∀ k', 0 ≤ k' → k' < k → ¬ P k') := by
  rcases loopRetFrom_first body P Q n.toNat 0 (fun k hk hk2 hprev =>
    hbody k hk (by omega) hprev) with ⟨hl, hall⟩ | ⟨k, r, hk, hk2, hl, hPk, hq, hprev⟩
  · left
    exact ⟨hl, fun k hk hk2 => hall k hk (by omega)⟩
  · right
    exact ⟨k, r, hk, by omega, hl, hPk, hq, hprev⟩

theorem validPos_congr {s img : Image} (hw : s.width = img.width) (hh : s.height = img.height)
    (x y : Int) : ImageValidPos s x y = ImageValidPos img x y := by
  simp [ImageValidPos, hw, hh]

theorem fillInv_step (img0 : Image) (n m : Int) (tx ty : Int → Int → Int) (f : Int → Int → Nat)
    (hpos : ∀ i j, 0 ≤ i → i < n → 0 ≤ j → j < m → ImageValidPos img0 (tx i j) (ty i j) = true)
    (hinj : ∀ i j i' j', 0 ≤ i → i < n → 0 ≤ j → j < m → 0 ≤ i' → i' < n → 0 ≤ j' → j' < m →
      tx i j = tx i' j' → ty i j = ty i' j' → i = i' ∧ j = j')
    (i j : Int) (hi0 : 0 ≤ i) (hi : i < n) (hj0 : 0 ≤ j) (hj : j < m) (s : Image)
    (hI : FillInv img0 m tx ty f i j s) :
    ∃ out, ImageSetPixel s (tx i j) (ty i j) (f i j) = some out ∧
      FillInv img0 m tx ty f i (j + 1) out := by
  obtain ⟨hwf, hw, hh, hmv, hdone, hframe⟩ := hI
  have hv : ImageValidPos s (tx i j) (ty i j) = true := by
    rw [validPos_congr hw hh]; exact hpos i j hi0 hi hj0 hj
  obtain ⟨out, hset, hwf', hw', hh', hmv', hnew, hold⟩ := setPixel_spec s hwf hv (f i j)
  refine ⟨out, hset, hwf', hw'.trans hw, hh'.trans hh, hmv'.trans hmv, ?_, ?_⟩
  · intro i' j' hvis
    obtain ⟨h1, h2, h3, h4⟩ := hvis
    by_cases hcur : i' = i ∧ j' = j
    · rw [hcur.1, hcur.2]; exact hnew
    · have hvis' : Visited m i j i' j' := ⟨h1, h2, h3, by omega⟩
      have hi' : i' < n := by omega
      have hne : ¬ (tx i' j' = tx i j ∧ ty i' j' = ty i j) := fun hc =>
        hcur (hinj i' j' i j h1 hi' h2 h3 hi0 hi hj0 hj hc.1 hc.2)
      have hv' : ImageValidPos s (tx i' j') (ty i' j') = true := by
        rw [validPos_congr hw hh]; exact hpos i' j' h1 hi' h2 h3
      rw [hold _ _ hv' hne]
      exact hdone i' j' hvis'
  · intro x y hxy hfree
    have hne : ¬ (x = tx i j ∧ y = ty i j) := fun hc =>
      hfree i j ⟨hi0, hj0, hj, Or.inr ⟨rfl, by omega⟩⟩ ⟨hc.1.symm, hc.2.symm⟩
    have hv' : ImageValidPos s x y = true := by rw [validPos_congr hw hh]; exact hxy
    rw [hold x y hv' hne]
    exact hframe x y hxy (fun i' j' hvis =>
      hfree i' j' ⟨hvis.1, hvis.2.1, hvis.2.2.1, by have := hvis.2.2.2; omega⟩)

theorem fill_spec_dyn (img0 : Image) (hwf : img0.WF) (n m : Int) (hn : 0 ≤ n) (hm : 0 ≤ m)
    (tx ty : Int → Int → Int) (f : Int → Int → Nat) (bound : Image → Int)
    (body : Int → Int → Image → Option Image)
    (hpos : ∀ i j, 0 ≤ i → i < n → 0 ≤ j → j < m → ImageValidPos img0 (tx i j) (ty i j) = true)
    (hinj : ∀ i j i' j', 0 ≤ i → i < n → 0 ≤ j → j < m → 0 ≤ i' → i' < n → 0 ≤ j' → j' < m →
      tx i j = tx i' j' → ty i j = ty i' j' → i = i' ∧ j = j')
    (hbound : ∀ i s, FillInv img0 m tx ty f i 0 s → bound s = m)
    (hbody : ∀ i j s, 0 ≤ i → i < n → 0 ≤ j → j < m → FillInv img0 m tx ty f i j s →
      body i j s = ImageSetPixel s (tx i j) (ty i j) (f i j)) :
    ∃ out, forLoop n (fun i s => forLoop (bound s) (fun j s => body i j s) s) img0 = some out ∧
      FillInv img0 m tx ty f n 0 out := by
  apply forLoop_inv n hn _ (fun i s => FillInv img0 m tx ty f i 0 s)
  · refine ⟨hwf, rfl, rfl, rfl, ?_, ?_⟩
    · intro i' j' hvis
      obtain ⟨h1, h2, _, h4⟩ := hvis
      omega
    · intro x y _ _
      rfl
  · intro i s hi0 hi hI
    show ∃ st', forLoop (bound s) (fun j s => body i j s) s = some st' ∧
      FillInv img0 m tx ty f (i + 1) 0 st'
    rw [hbound i s hI]
    obtain ⟨s', hl, hI'⟩ := forLoop_inv m hm (fun j s => body i j s)
      (fun j s => FillInv img0 m tx ty f i j s) s hI (fun j st hj0 hj hIj => by
        show ∃ st', body i j st = some st' ∧ FillInv img0 m tx ty f i (j + 1) st'
        rw [hbody i j st hi0 hi hj0 hj hIj]
        exact fillInv_step img0 n m tx ty f hpos hinj i j hi0 hi hj0 hj st hIj)
    refine ⟨s', hl, ?_⟩
    obtain ⟨hwf', hw, hh, hmv, hdone, hframe⟩ := hI'
    refine ⟨hwf', hw, hh, hmv, ?_, ?_⟩
    · intro i' j' hvis
      obtain ⟨h1, h2, h3, h4⟩ := hvis
      exact hdone i' j' ⟨h1, h2, h3, by omega⟩
    · intro x y hxy hfree
      refine hframe x y hxy (fun i' j' hvis => ?_)
      obtain ⟨h1, h2, h3, h4⟩ := hvis
      exact hfree i' j' ⟨h1, h2, h3, by omega⟩

theorem fill_spec (img0 : Image) (hwf : img0.WF) (n m : Int) (hn : 0 ≤ n) (hm : 0 ≤ m)
    (tx ty : Int → Int → Int) (f : Int → Int → Nat)
    (body : Int → Int → Image → Option Image)
    (hpos : ∀ i j, 0 ≤ i → i < n → 0 ≤ j → j < m → ImageValidPos img0 (tx i j) (ty i j) = true)
    (hinj : ∀ i j i' j', 0 ≤ i → i < n → 0 ≤ j → j < m → 0 ≤ i' → i' < n → 0 ≤ j' → j' < m →
      tx i j = tx i' j' → ty i j = ty i' j' → i = i' ∧ j = j')
    (hbody : ∀ i j s, 0 ≤ i → i < n → 0 ≤ j → j < m → FillInv img0 m tx ty f i j s →
      body i j s = ImageSetPixel s (tx i j) (ty i j) (f i j)) :
    ∃ out, forLoop n (fun i s => forLoop m (fun j s => body i j s) s) img0 = some out ∧
      FillInv img0 m tx ty f n 0 out :=
  fill_spec_dyn img0 hwf n m hn hm tx ty f (fun _ => m) body hpos hinj (fun _ _ _ => rfl) hbody

theorem create_ok (w h : Int) (hw : 0 ≤ w) (hh : 0 ≤ h) (mv : Int) (h0 : 0 < mv)
    (h1 : mv ≤ PixMax) :
    ∃ nImg, ImageCreate true w h (mv % 256).toNat = some (some nImg) ∧ nImg.WF ∧
      nImg.width = w ∧ nImg.height = h ∧ nImg.maxval = mv := by
  have hP : (PixMax : Int) = 255 := rfl
  have hmv : ((mv % 256).toNat : Int) = mv := by omega
  have hmv0 : 0 < (mv % 256).toNat := by omega
  have hmv1 : (mv % 256).toNat ≤ PixMax := by
    have : ((mv % 256).toNat : Int) ≤ (PixMax : Int) := by omega
    exact_mod_cast this
  refine ⟨{ width := w, height := h, maxval := ((mv % 256).toNat : Int),
            pixel := List.replicate (w * h).toNat 0 }, ?_, ⟨hw, hh, ?_, ?_, ?_, ?_⟩,
          rfl, rfl, hmv⟩
  · simp [ImageCreate, hw, hh, hmv0, hmv1]
  · show (0 : Int) < ((mv % 256).toNat : Int)
    omega
  · show ((mv % 256).toNat : Int) ≤ (PixMax : Int)
    omega
  · have := mul_nonneg hw hh
    simp only [List.length_replicate]
    omega
  · intro p hp
    rw [List.eq_of_mem_replicate hp]
    norm_num

/-! ## Pixel access (C1, C2) -/

/-- C1: on every image, at every valid position `(x, y)` and for every level `v` in
`[0, 255]`, `ImageSetPixel` succeeds and `ImageGetPixel` at the same position then returns
`v`; the image's `maxval` plays no part. -/
theorem setPixel_getPixel (img : Image) (hwf : img.WF) (x y : Int) (v : Nat)
    (hx0 : 0 ≤ x) (hx : x < img.width) (hy0 : 0 ≤ y) (hy : y < img.height) (hv : v ≤ 255) :
    ∃ out, ImageSetPixel img x y v = some out ∧ ImageGetPixel out x y = some v := by
  have hpos : ImageValidPos img x y = true := (validPos_iff img x y).2 ⟨hx0, hx, hy0, hy⟩
  obtain ⟨out, hset, hwf', hw, hh, _, hnew, _⟩ := setPixel_spec img hwf hpos v
  refine ⟨out, hset, ?_⟩
  have hpos' : ImageValidPos out x y = true := by rw [validPos_congr hw hh]; exact hpos
  rw [getPixel_eq out hwf'.2.2.2.2.1 hpos', hnew, Nat.mod_eq_of_lt (by omega)]

theorem setPixel_getPixel_witness :
    ∃ out, ImageSetPixel ⟨2, 2, 100, [1, 2, 3, 4]⟩ 1 1 200 = some out ∧
      ImageGetPixel out 1 1 = some 200 :=
  setPixel_getPixel ⟨2, 2, 100, [1, 2, 3, 4]⟩ (by decide) 1 1 200 (by decide) (by decide)
    (by decide) (by decide) (by decide)

/-- C2: at every valid position `(x, y)` the index function `G` returns `x + y*width`
(its assertion holds), and that index lies in `[0, width*height)`. -/
theorem G_valid (img : Image) (x y : Int) (hv : ImageValidPos img x y = true) :
    G img x y = some (x + y * img.width) ∧
      0 ≤ x + y * img.width ∧ x + y * img.width < img.width * img.height := by
  obtain ⟨hx0, hx, hy0, hy⟩ := (validPos_iff img x y).1 hv
  exact ⟨G_eq img hv, index_bounds hx0 hx hy0 hy⟩

theorem G_valid_witness :
    G ⟨3, 2, 255, [10, 20, 30, 40, 50, 61]⟩ 2 1 =
        some (2 + 1 * (Image.mk 3 2 255 [10, 20, 30, 40, 50, 61]).width) ∧
      0 ≤ 2 + 1 * (Image.mk 3 2 255 [10, 20, 30, 40, 50, 61]).width ∧
      2 + 1 * (Image.mk 3 2 255 [10, 20, 30, 40, 50, 61]).width <
        (Image.mk 3 2 255 [10, 20, 30, 40, 50, 61]).width *
          (Image.mk 3 2 255 [10, 20, 30, 40, 50, 61]).height :=
  G_valid ⟨3, 2, 255, [10, 20, 30, 40, 50, 61]⟩ 2 1 (by decide)

/-! ## Rectangles and cropping (C6, C7, C8) -/

/-- C6 (failing input): on a 2x2 image the rectangle `(0, 0, 2, 2)` is the whole image, so it
is completely inside it (`w >= 0`, `h >= 0`, `x+w <= width`, `y+h <= height`), yet
`ImageValidRect` returns false. -/
theorem validRect_rejects_full_image :
    ((0 : Int) ≤ 2 ∧ (0 : Int) + 2 ≤ (Image.mk 2 2 255 [1, 2, 3, 4]).width ∧
      (0 : Int) + 2 ≤ (Image.mk 2 2 255 [1, 2, 3, 4]).height) ∧
    ImageValidRect ⟨2, 2, 255, [1, 2, 3, 4]⟩ 0 0 2 2 = some false := by
  decide

/-- C8 (failing input): cropping the whole of a 2x2 image, `ImageCrop(img, 0, 0, 2, 2)`,
fails the assertion on `ImageValidRect` instead of returning a copy. -/
theorem crop_full_image_aborts :
    ImageCrop true ⟨2, 2, 255, [1, 2, 3, 4]⟩ 0 0 2 2 = none := by
  decide

theorem validRect_iff (img : Image) (x y w h : Int) :
    ImageValidRect img x y w h = some true ↔
      ImageValidPos img x y = true ∧ 0 ≤ w ∧ w < img.width - x ∧ 0 ≤ h ∧ h < img.height - y := by
  unfold ImageValidRect
  by_cases hv : ImageValidPos img x y = true
  · simp [hv]; tauto
  · simp [hv]

/-- C7: when `ImageValidRect(img, x, y, w, h)` holds and allocation succeeds, `ImageCrop`
runs without a failed assertion (every access is at a valid position) and returns an image
of width `w`, height `h` and the same `maxval` whose pixel `(i, j)` is the pixel
`(x+i, y+j)` of `img`. -/
theorem crop_spec (img : Image) (hwf : img.WF) (x y w h : Int)
    (hr : ImageValidRect img x y w h = some true) :
    ∃ out, ImageCrop true img x y w h = some (some out) ∧
      out.width = w ∧ out.height = h ∧ out.maxval = img.maxval ∧
      ∀ i j, 0 ≤ i → i < w → 0 ≤ j → j < h →
        ∃ p, ImageGetPixel img (x + i) (y + j) = some p ∧ ImageGetPixel out i j = some p := by
  obtain ⟨hv, hw0, hw, hh0, hh⟩ := (validRect_iff img x y w h).1 hr
  obtain ⟨hx0, hx, hy0, hy⟩ := (validPos_iff img x y).1 hv
  obtain ⟨nImg, hcr, hnwf, hnw, hnh, hnm⟩ :=
    create_ok w h hw0 hh0 img.maxval hwf.2.2.1 hwf.2.2.2.1
  have hsrc : ∀ i j, 0 ≤ i → i < w → 0 ≤ j → j < h →
      ImageValidPos img (x + i) (y + j) = true := fun i j h1 h2 h3 h4 =>
    (validPos_iff img _ _).2 ⟨by omega, by omega, by omega, by omega⟩
  have hdst : ∀ i j, 0 ≤ i → i < w → 0 ≤ j → j < h → ImageValidPos nImg i j = true :=
    fun i j h1 h2 h3 h4 => (validPos_iff nImg _ _).2 ⟨h1, by omega, h3, by omega⟩
  obtain ⟨out, hloop, howf, how, hoh, hom, hdone, _⟩ :=
    fill_spec nImg hnwf w h hw0 hh0 (fun i _ => i) (fun _ j => j)
      (fun i j => img.pix (x + i) (y + j))
      (fun i j s => match ImageGetPixel img (x + i) (y + j) with
        | none => none
        | some p => ImageSetPixel s i j p)
      hdst
      (fun i j i' j' _ _ _ _ _ _ _ _ e1 e2 => ⟨e1, e2⟩)
      (fun i j s h1 h2 h3 h4 _ => by
        simp only [getPixel_eq img hwf.2.2.2.2.1 (hsrc i j h1 h2 h3 h4)])
  refine ⟨out, ?_, how.trans hnw, hoh.trans hnh, hom.trans hnm, ?_⟩
  · simp only [ImageCrop, hr, hcr]
    rw [hloop]; rfl
  · intro i j h1 h2 h3 h4
    refine ⟨img.pix (x + i) (y + j), getPixel_eq img hwf.2.2.2.2.1 (hsrc i j h1 h2 h3 h4), ?_⟩
    have hvo : ImageValidPos out i j = true :=
      (validPos_iff out _ _).2 ⟨h1, by omega, h3, by omega⟩
    rw [getPixel_eq out howf.2.2.2.2.1 hvo]
    have := hdone i j ⟨h1, h3, h4, Or.inl h2⟩
    simp only at this
    rw [this, Nat.mod_eq_of_lt (pix_lt img hwf (hsrc i j h1 h2 h3 h4))]

theorem crop_spec_witness :
    ∃ out, ImageCrop true ⟨3, 3, 255, [1, 2, 3, 4, 5, 6, 7, 8, 9]⟩ 1 1 1 1 = some (some out) ∧
      out.width = 1 ∧ out.height = 1 ∧
      out.maxval = (Image.mk 3 3 255 [1, 2, 3, 4, 5, 6, 7, 8, 9]).maxval ∧
      ∀ i j, 0 ≤ i → i < 1 → 0 ≤ j → j < 1 →
        ∃ p, ImageGetPixel ⟨3, 3, 255, [1, 2, 3, 4, 5, 6, 7, 8, 9]⟩ (1 + i) (1 + j) = some p ∧
          ImageGetPixel out i j = some p :=
  crop_spec ⟨3, 3, 255, [1, 2, 3, 4, 5, 6, 7, 8, 9]⟩ (by decide) 1 1 1 1 (by decide)

/-! ## Paste (C9) -/

/-- C9: when `ImageValidRect(dest, x, y, src.width, src.height)` holds, `ImagePaste` runs
without a failed assertion; afterwards the pixel `(x+i, y+j)` of `dest` is the pixel `(i, j)`
of `src` for every position `(i, j)` of `src`, every other pixel of `dest` and its width,
height and maxval are as before.  `src` is only read: the precondition excludes
`dest` and `src` being the same image. -/
theorem paste_spec (dest src : Image) (hd : dest.WF) (hs : src.WF) (x y : Int)
    (hr : ImageValidRect dest x y src.width src.height = some true) :
    dest ≠ src ∧
    ∃ out, ImagePaste dest x y src = some out ∧
      out.width = dest.width ∧ out.height = dest.height ∧ out.maxval = dest.maxval ∧
      (∀ i j, 0 ≤ i → i < src.width → 0 ≤ j → j < src.height →
        ∃ p, ImageGetPixel src i j = some p ∧ ImageGetPixel out (x + i) (y + j) = some p) ∧
      (∀ x' y', ImageValidPos dest x' y' = true →
        ¬ (x ≤ x' ∧ x' < x + src.width ∧ y ≤ y' ∧ y' < y + src.height) →
        ∃ p, ImageGetPixel dest x' y' = some p ∧ ImageGetPixel out x' y' = some p) := by
  obtain ⟨hv, hw0, hw, hh0, hh⟩ := (validRect_iff dest x y _ _).1 hr
  obtain ⟨hx0, hx, hy0, hy⟩ := (validPos_iff dest x y).1 hv
  refine ⟨fun he => by rw [he] at hw; omega, ?_⟩
  have hsrc : ∀ i j, 0 ≤ i → i < src.width → 0 ≤ j → j < src.height →
      ImageValidPos src i j = true := fun i j h1 h2 h3 h4 =>
    (validPos_iff src _ _).2 ⟨h1, h2, h3, h4⟩
  have hdst : ∀ i j, 0 ≤ i → i < src.width → 0 ≤ j → j < src.height →
      ImageValidPos dest (i + x) (j + y) = true := fun i j h1 h2 h3 h4 =>
    (validPos_iff dest _ _).2 ⟨by omega, by omega, by omega, by omega⟩
  obtain ⟨out, hloop, howf, how, hoh, hom, hdone, hframe⟩ :=
    fill_spec dest hd src.width src.height hw0 hh0 (fun i _ => i + x) (fun _ j => j + y)
      (fun i j => src.pix i j)
      (fun i j s => match ImageGetPixel src i j with
        | none => none
        | some p => ImageSetPixel s (i + x) (j + y) p)
      hdst
      (fun i j i' j' _ _ _ _ _ _ _ _ e1 e2 => ⟨by simp only at e1; omega,
        by simp only at e2; omega⟩)
      (fun i j s h1 h2 h3 h4 _ => by
        simp only [getPixel_eq src hs.2.2.2.2.1 (hsrc i j h1 h2 h3 h4)])
  refine ⟨out, ?_, how, hoh, hom, ?_, ?_⟩
  · simp only [ImagePaste, hr]
    exact hloop
  · intro i j h1 h2 h3 h4
    refine ⟨src.pix i j, getPixel_eq src hs.2.2.2.2.1 (hsrc i j h1 h2 h3 h4), ?_⟩
    have hvo : ImageValidPos out (x + i) (y + j) = true :=
      (validPos_iff out _ _).2 ⟨by omega, by omega, by omega, by omega⟩
    rw [getPixel_eq out howf.2.2.2.2.1 hvo]
    have := hdone i j ⟨h1, h3, h4, Or.inl h2⟩
    simp only at this
    rw [add_comm x i, add_comm y j, this,
      Nat.mod_eq_of_lt (pix_lt src hs (hsrc i j h1 h2 h3 h4))]
  · intro x' y' hv' hout
    refine ⟨dest.pix x' y', getPixel_eq dest hd.2.2.2.2.1 hv', ?_⟩
    have hvo : ImageValidPos out x' y' = true := by rw [validPos_congr how hoh]; exact hv'
    rw [getPixel_eq out howf.2.2.2.2.1 hvo]
    refine congrArg some (hframe x' y' hv' (fun i j hvis hc => ?_))
    obtain ⟨h1, h2, h3, h4⟩ := hvis
    simp only at hc
    exact hout ⟨by omega, by omega, by omega, by omega⟩

theorem paste_spec_witness :
    Image.mk 3 3 255 [1, 2, 3, 4, 5, 6, 7, 8, 9] ≠ Image.mk 1 1 255 [77] ∧
    ∃ out, ImagePaste ⟨3, 3, 255, [1, 2, 3, 4, 5, 6, 7, 8, 9]⟩ 1 1 ⟨1, 1, 255, [77]⟩ = some out ∧
      out.width = (Image.mk 3 3 255 [1, 2, 3, 4, 5, 6, 7, 8, 9]).width ∧
      out.height = (Image.mk 3 3 255 [1, 2, 3, 4, 5, 6, 7, 8, 9]).height ∧
      out.maxval = (Image.mk 3 3 255 [1, 2, 3, 4, 5, 6, 7, 8, 9]).maxval ∧
      (∀ i j, 0 ≤ i → i < (Image.mk 1 1 255 [77]).width → 0 ≤ j →
        j < (Image.mk 1 1 255 [77]).height →
        ∃ p, ImageGetPixel ⟨1, 1, 255, [77]⟩ i j = some p ∧
          ImageGetPixel out (1 + i) (1 + j) = some p) ∧
      (∀ x' y', ImageValidPos ⟨3, 3, 255, [1, 2, 3, 4, 5, 6, 7, 8, 9]⟩ x' y' = true →
        ¬ (1 ≤ x' ∧ x' < 1 + (Image.mk 1 1 255 [77]).width ∧ 1 ≤ y' ∧
          y' < 1 + (Image.mk 1 1 255 [77]).height) →
        ∃ p, ImageGetPixel ⟨3, 3, 255, [1, 2, 3, 4, 5, 6, 7, 8, 9]⟩ x' y' = some p ∧
          ImageGetPixel out x' y' = some p) :=
  paste_spec ⟨3, 3, 255, [1, 2, 3, 4, 5, 6, 7, 8, 9]⟩ ⟨1, 1, 255, [77]⟩ (by decide) (by decide)
    1 1 (by decide)

/-! ## Rotation (C10) -/

/-- C10: when allocation succeeds, `ImageRotate` of an image of width `W` and height `H`
runs without a failed assertion (every access is at a valid position) and returns an image
of width `H`, height `W` and the same `maxval` whose pixel `(i, W-1-y)` is the pixel
`(y, i)` of `img`, for `0 <= i < H` and `0 <= y < W`. -/
theorem rotate_spec (img : Image) (hwf : img.WF) :
    ∃ out, ImageRotate true img = some (some out) ∧
      out.width = img.height ∧ out.height = img.width ∧ out.maxval = img.maxval ∧
      ∀ i y, 0 ≤ i → i < img.height → 0 ≤ y → y < img.width →
        ∃ p, ImageGetPixel img y i = some p ∧
          ImageGetPixel out i (img.width - 1 - y) = some p := by
  obtain ⟨nImg, hcr, hnwf, hnw, hnh, hnm⟩ :=
    create_ok img.height img.width hwf.2.1 hwf.1 img.maxval hwf.2.2.1 hwf.2.2.2.1
  have hsrc : ∀ i y, 0 ≤ i → i < img.height → 0 ≤ y → y < img.width →
      ImageValidPos img y i = true := fun i y h1 h2 h3 h4 =>
    (validPos_iff img _ _).2 ⟨h3, h4, h1, h2⟩
  have hdst : ∀ i y, 0 ≤ i → i < img.height → 0 ≤ y → y < img.width →
      ImageValidPos nImg i (img.width - 1 - y) = true := fun i y h1 h2 h3 h4 =>
    (validPos_iff nImg _ _).2 ⟨h1, by omega, by omega, by omega⟩
  obtain ⟨out, hloop, howf, how, hoh, hom, hdone, _⟩ :=
    fill_spec nImg hnwf img.height img.width hwf.2.1 hwf.1 (fun i _ => i)
      (fun _ y => img.width - 1 - y) (fun i y => img.pix y i)
      (fun i y s => match ImageGetPixel img y i with
        | none => none
        | some p => ImageSetPixel s i (img.width - 1 - y) p)
      hdst
      (fun i j i' j' _ _ _ _ _ _ _ _ e1 e2 => ⟨e1, by simp only at e2; omega⟩)
      (fun i y s h1 h2 h3 h4 _ => by
        simp only [getPixel_eq img hwf.2.2.2.2.1 (hsrc i y h1 h2 h3 h4)])
  refine ⟨out, ?_, how.trans hnw, hoh.trans hnh, hom.trans hnm, ?_⟩
  · simp only [ImageRotate, hcr]
    rw [hloop]; rfl
  · intro i y h1 h2 h3 h4
    refine ⟨img.pix y i, getPixel_eq img hwf.2.2.2.2.1 (hsrc i y h1 h2 h3 h4), ?_⟩
    have hvo : ImageValidPos out i (img.width - 1 - y) = true := by
      rw [validPos_congr how hoh]; exact hdst i y h1 h2 h3 h4
    rw [getPixel_eq out howf.2.2.2.2.1 hvo]
    have := hdone i y ⟨h1, h3, h4, Or.inl h2⟩
    simp only at this
    rw [this, Nat.mod_eq_of_lt (pix_lt img hwf (hsrc i y h1 h2 h3 h4))]

theorem rotate_spec_witness :
    ∃ out, ImageRotate true ⟨3, 2, 255, [10, 20, 30, 40, 50, 61]⟩ = some (some out) ∧
      out.width = (Image.mk 3 2 255 [10, 20, 30, 40, 50, 61]).height ∧
      out.height = (Image.mk 3 2 255 [10, 20, 30, 40, 50, 61]).width ∧
      out.maxval = (Image.mk 3 2 255 [10, 20, 30, 40, 50, 61]).maxval ∧
      ∀ i y, 0 ≤ i → i < (Image.mk 3 2 255 [10, 20, 30, 40, 50, 61]).height → 0 ≤ y →
        y < (Image.mk 3 2 255 [10, 20, 30, 40, 50, 61]).width →
        ∃ p, ImageGetPixel ⟨3, 2, 255, [10, 20, 30, 40, 50, 61]⟩ y i = some p ∧
          ImageGetPixel out i ((Image.mk 3 2 255 [10, 20, 30, 40, 50, 61]).width - 1 - y) =
            some p :=
  rotate_spec ⟨3, 2, 255, [10, 20, 30, 40, 50, 61]⟩ (by decide)

/-! ## Sub-image search (C4, C5) -/

theorem matchSubImage_cases (img1 img2 : Image) (h1 : img1.WF) (h2 : img2.WF) (x y : Int)
    (hv : ImageValidPos img1 x y = true) (hfx : x + img2.width ≤ img1.width)
    (hfy : y + img2.height ≤ img1.height) :
    (ImageMatchSubImage img1 x y img2 = some 1 ∧ MatchesAt img1 x y img2) ∨
    (ImageMatchSubImage img1 x y img2 = some 0 ∧ ¬ MatchesAt img1 x y img2) := by
  obtain ⟨hx0, hx, hy0, hy⟩ := (validPos_iff img1 x y).1 hv
  have hget1 : ∀ i j, 0 ≤ i → i < img2.width → 0 ≤ j → j < img2.height →
      ImageGetPixel img1 (x + i) (y + j) = some (img1.pix (x + i) (y + j)) :=
    fun i j a b c d => getPixel_eq img1 h1.2.2.2.2.1
      ((validPos_iff img1 _ _).2 ⟨by omega, by omega, by omega, by omega⟩)
  have hget2 : ∀ i j, 0 ≤ i → i < img2.width → 0 ≤ j → j < img2.height →
      ImageGetPixel img2 i j = some (img2.pix i j) :=
    fun i j a b c d => getPixel_eq img2 h2.2.2.2.2.1 ((validPos_iff img2 _ _).2 ⟨a, b, c, d⟩)
  have hinner : ∀ i, 0 ≤ i → i < img2.width →
      (forLoopRet img2.height (fun j =>
          match ImageGetPixel img1 (x + i) (y + j), ImageGetPixel img2 i j with
          | some p1, some p2 => if p1 ≠ p2 then some (some (0 : Int)) else some none
          | _, _ => none) = some none ∧
        ∀ j, 0 ≤ j → j < img2.height → ¬ img1.pix (x + i) (y + j) ≠ img2.pix i j) ∨
      (∃ j r, 0 ≤ j ∧ j < img2.height ∧
        forLoopRet img2.height (fun j =>
          match ImageGetPixel img1 (x + i) (y + j), ImageGetPixel img2 i j with
          | some p1, some p2 => if p1 ≠ p2 then some (some (0 : Int)) else some none
          | _, _ => none) = some (some r) ∧
        img1.pix (x + i) (y + j) ≠ img2.pix i j ∧ r = 0 ∧
        ∀ j', 0 ≤ j' → j' < j → ¬ img1.pix (x + i) (y + j') ≠ img2.pix i j') := by
    intro i hi0 hi
    apply forLoopRet_first img2.height _
      (fun j => img1.pix (x + i) (y + j) ≠ img2.pix i j) (fun _ r => r = 0)
    intro j hj0 hj _
    simp only [hget1 i j hi0 hi hj0 hj, hget2 i j hi0 hi hj0 hj]
    constructor
    · intro hP
      exact ⟨0, by simp [hP], rfl⟩
    · intro hP
      simp [not_not.1 hP]
  have houter := forLoopRet_first img2.width (fun i =>
      forLoopRet img2.height (fun j =>
        match ImageGetPixel img1 (x + i) (y + j), ImageGetPixel img2 i j with
        | some p1, some p2 => if p1 ≠ p2 then some (some (0 : Int)) else some none
        | _, _ => none))
    (fun i => ∃ j, 0 ≤ j ∧ j < img2.height ∧ img1.pix (x + i) (y + j) ≠ img2.pix i j)
    (fun _ r => r = 0)
    (fun i hi0 hi _ => by
      rcases hinner i hi0 hi with ⟨hl, hall⟩ | ⟨j, r, hj0, hj, hl, hP, hr, _⟩
      · exact ⟨fun ⟨j, hj0, hj, hP⟩ => absurd hP (hall j hj0 hj), fun _ => hl⟩
      · exact ⟨fun _ => ⟨r, hl, hr⟩, fun hn => absurd ⟨j, hj0, hj, hP⟩ hn⟩)
  rcases houter with ⟨hl, hall⟩ | ⟨i, r, hi0, hi, hl, ⟨j, hj0, hj, hP⟩, hr, _⟩
  · left
    refine ⟨by simp only [ImageMatchSubImage, hv, if_true, hl], ?_⟩
    intro i j hi0 hi hj0 hj
    by_contra hne
    exact hall i hi0 hi ⟨j, hj0, hj, hne⟩
  · right
    refine ⟨by simp only [ImageMatchSubImage, hv, if_true, hl, hr], ?_⟩
    intro hm
    exact hP (hm i j hi0 hi hj0 hj)

/-- C5: at a valid position `(x, y)` of `img1` where `img2` fits entirely,
`ImageMatchSubImage` runs without a failed assertion and returns 1 when the pixel
`(x+i, y+j)` of `img1` equals the pixel `(i, j)` of `img2` for every position `(i, j)` of
`img2`, and 0 otherwise. -/
theorem matchSubImage_spec (img1 img2 : Image) (h1 : img1.WF) (h2 : img2.WF) (x y : Int)
    (hv : ImageValidPos img1 x y = true) (hfx : x + img2.width ≤ img1.width)
    (hfy : y + img2.height ≤ img1.height) :
    ∃ r, ImageMatchSubImage img1 x y img2 = some r ∧ (r = 1 ∨ r = 0) ∧
      (r = 1 ↔ ∀ i j : Int, 0 ≤ i → i < img2.width → 0 ≤ j → j < img2.height →
        img1.pix (x + i) (y + j) = img2.pix i j) := by
  rcases matchSubImage_cases img1 img2 h1 h2 x y hv hfx hfy with ⟨hr, hm⟩ | ⟨hr, hm⟩
  · exact ⟨1, hr, Or.inl rfl, fun _ => hm, fun _ => rfl⟩
  · exact ⟨0, hr, Or.inr rfl, fun h => absurd h (by decide), fun h => absurd h hm⟩

theorem matchSubImage_spec_witness :
    ∃ r, ImageMatchSubImage ⟨3, 2, 255, [10, 20, 30, 40, 50, 61]⟩ 1 0 ⟨2, 1, 255, [20, 30]⟩ =
        some r ∧ (r = 1 ∨ r = 0) ∧
      (r = 1 ↔ ∀ i j : Int, 0 ≤ i → i < (Image.mk 2 1 255 [20, 30]).width → 0 ≤ j →
        j < (Image.mk 2 1 255 [20, 30]).height →
        (Image.mk 3 2 255 [10, 20, 30, 40, 50, 61]).pix (1 + i) (0 + j) =
          (Image.mk 2 1 255 [20, 30]).pix i j) :=
  matchSubImage_spec ⟨3, 2, 255, [10, 20, 30, 40, 50, 61]⟩ ⟨2, 1, 255, [20, 30]⟩ (by decide)
    (by decide) 1 0 (by decide) (by decide) (by decide)

theorem matchesAt_of_empty (img1 img2 : Image) (x y : Int)
    (he : img2.width ≤ 0 ∨ img2.height ≤ 0) : MatchesAt img1 x y img2 := by
  intro i j hi0 hi hj0 hj
  omega

theorem locateSubImage_cases (img1 img2 : Image) (h1 : img1.WF) (h2 : img2.WF)
    (hw : 0 < img1.width) (hh : 0 < img1.height) (px py : Int) :
    (ImageLocateSubImage img1 px py img2 = some (0, px, py) ∧
      ∀ x y, 0 ≤ x → x ≤ img1.width - img2.width → 0 ≤ y → y ≤ img1.height - img2.height →
        ¬ MatchesAt img1 x y img2) ∨
    (∃ x y, ImageLocateSubImage img1 px py img2 = some (1, x, y) ∧
      0 ≤ x ∧ x ≤ img1.width - img2.width ∧ 0 ≤ y ∧ y ≤ img1.height - img2.height ∧
      MatchesAt img1 x y img2 ∧
      ∀ x' y', 0 ≤ x' → x' ≤ img1.width - img2.width → 0 ≤ y' →
        y' ≤ img1.height - img2.height → (x' < x ∨ (x' = x ∧ y' < y)) →
        ¬ MatchesAt img1 x' y' img2) := by
  have hw2 := h2.1
  have hh2 := h2.2.1
  -- the inner loop at column `i`, reached when no earlier column holds a match
  have hinner : ∀ i, 0 ≤ i → i < img1.width - img2.width + 1 →
      (∀ i', 0 ≤ i' → i' < i →
        ¬ ∃ j, 0 ≤ j ∧ j ≤ img1.height - img2.height ∧ MatchesAt img1 i' j img2) →
      (forLoopRet (img1.height - img2.height + 1) (fun j =>
          match ImageMatchSubImage img1 i j img2 with
          | none => none
          | some r => if r ≠ 0 then some (some ((1 : Int), i, j)) else some none) = some none ∧
        ∀ j, 0 ≤ j → j < img1.height - img2.height + 1 → ¬ MatchesAt img1 i j img2) ∨
      (∃ j r, 0 ≤ j ∧ j < img1.height - img2.height + 1 ∧
        forLoopRet (img1.height - img2.height + 1) (fun j =>
          match ImageMatchSubImage img1 i j img2 with
          | none => none
          | some r => if r ≠ 0 then some (some ((1 : Int), i, j)) else some none) =
            some (some r) ∧
        MatchesAt img1 i j img2 ∧ r = (1, i, j) ∧
        ∀ j', 0 ≤ j' → j' < j → ¬ MatchesAt img1 i j' img2) := by
    intro i hi0 hi hprev
    apply forLoopRet_first (img1.height - img2.height + 1) _
      (fun j => MatchesAt img1 i j img2) (fun j r => r = (1, i, j))
    intro j hj0 hj hprevj
    have hvalid : ImageValidPos img1 i j = true := by
      by_cases he : img2.width ≤ 0 ∨ img2.height ≤ 0
      · have hi' : i = 0 := by
          by_contra hne
          exact hprev 0 (le_refl _) (by omega)
            ⟨0, le_refl _, by omega, matchesAt_of_empty img1 img2 0 0 he⟩
        have hj' : j = 0 := by
          by_contra hne
          exact hprevj 0 (le_refl _) (by omega) (matchesAt_of_empty img1 img2 i 0 he)
        rw [hi', hj']
        exact (validPos_iff img1 0 0).2 ⟨le_refl _, hw, le_refl _, hh⟩
      · exact (validPos_iff img1 i j).2 ⟨hi0, by omega, hj0, by omega⟩
    rcases matchSubImage_cases img1 img2 h1 h2 i j hvalid (by omega) (by omega) with
      ⟨hr, hm⟩ | ⟨hr, hm⟩
    · exact ⟨fun _ => ⟨(1, i, j), by simp [hr], rfl⟩, fun hn => absurd hm hn⟩
    · exact ⟨fun hp => absurd hp hm, fun _ => by simp [hr]⟩
  have houter := forLoopRet_first (img1.width - img2.width + 1) (fun i =>
      forLoopRet (img1.height - img2.height + 1) (fun j =>
        match ImageMatchSubImage img1 i j img2 with
        | none => none
        | some r => if r ≠ 0 then some (some ((1 : Int), i, j)) else some none))
    (fun i => ∃ j, 0 ≤ j ∧ j ≤ img1.height - img2.height ∧ MatchesAt img1 i j img2)
    (fun i r => ∃ j, r = (1, i, j) ∧ 0 ≤ j ∧ j ≤ img1.height - img2.height ∧
      MatchesAt img1 i j img2 ∧ ∀ j', 0 ≤ j' → j' < j → ¬ MatchesAt img1 i j' img2)
    (fun i hi0 hi hprev => by
      rcases hinner i hi0 hi hprev with ⟨hl, hall⟩ | ⟨j, r, hj0, hj, hl, hP, hr, hfirst⟩
      · exact ⟨fun ⟨j, hj0, hj, hP⟩ => absurd hP (hall j hj0 (by omega)), fun _ => hl⟩
      · exact ⟨fun _ => ⟨r, hl, j, hr, hj0, by omega, hP, hfirst⟩,
          fun hn => absurd ⟨j, hj0, by omega, hP⟩ hn⟩)
  rcases houter with ⟨hl, hall⟩ |
    ⟨i, r, hi0, hi, hl, _, ⟨j, hr, hj0, hj, hP, hfirstj⟩, hfirsti⟩
  · left
    refine ⟨by simp only [ImageLocateSubImage, hl], ?_⟩
    intro x y hx0 hx hy0 hy hm
    exact hall x hx0 (by omega) ⟨y, hy0, hy, hm⟩
  · right
    refine ⟨i, j, by simp only [ImageLocateSubImage, hl, hr], hi0, by omega, hj0, hj, hP, ?_⟩
    intro x' y' hx0 hx hy0 hy hlt hm
    rcases hlt with hlt | ⟨he, hlt⟩
    · exact hfirsti x' hx0 hlt ⟨y', hy0, hy, hm⟩
    · rw [he] at hm
      exact hfirstj y' hy0 hlt hm

theorem areaSum_zero_left (f : Nat → Nat → Nat) (b : Nat) : areaSum f 0 b = 0 := by
  simp [areaSum]

theorem areaSum_zero_right (f : Nat → Nat → Nat) (a : Nat) : areaSum f a 0 = 0 := by
  simp [areaSum]

theorem areaSum_succ (f : Nat → Nat → Nat) (a b : Nat) :
    areaSum f (a + 1) (b + 1) + areaSum f a b =
      f a b + areaSum f (a + 1) b + areaSum f a (b + 1) := by
  simp only [areaSum, Finset.sum_range_succ, Finset.sum_add_distrib]
  ring

theorem areaSum_eq_rectSum (f : Nat → Nat → Nat) (a b : Nat) :
    areaSum f a b = rectSum f 0 a 0 b := by
  simp only [areaSum, rectSum, Finset.range_eq_Ico]

theorem rectSum_split_cols (f : Nat → Nat → Nat) {a m b : Nat} (h1 : a ≤ m) (h2 : m ≤ b)
    (c d : Nat) : rectSum f a b c d = rectSum f a m c d + rectSum f m b c d := by
  simp only [rectSum]
  exact (Finset.sum_Ico_consecutive _ h1 h2).symm

theorem rectSum_split_rows (f : Nat → Nat → Nat) (a b : Nat) {c m d : Nat} (h1 : c ≤ m)
    (h2 : m ≤ d) : rectSum f a b c d = rectSum f a b c m + rectSum f a b m d := by
  simp only [rectSum, ← Finset.sum_add_distrib]
  exact Finset.sum_congr rfl (fun k _ => (Finset.sum_Ico_consecutive _ h1 h2).symm)

theorem rectSum_incl_excl (f : Nat → Nat → Nat) {a b c d : Nat} (hab : a ≤ b) (hcd : c ≤ d) :
    rectSum f a b c d + areaSum f a d + areaSum f b c = areaSum f b d + areaSum f a c := by
  simp only [areaSum_eq_rectSum]
  have e1 := rectSum_split_cols f (Nat.zero_le a) hab 0 d
  have e2 := rectSum_split_rows f a b (Nat.zero_le c) hcd
  have e3 := rectSum_split_cols f (Nat.zero_le a) hab 0 c
  omega

theorem rectSum_le (f : Nat → Nat → Nat) (a b c d M : Nat)
    (hf : ∀ k l, a ≤ k → k < b → c ≤ l → l < d → f k l ≤ M) :
    rectSum f a b c d ≤ M * ((b - a) * (d - c)) := by
  have hin : ∀ k, k ∈ Finset.Ico a b → (∑ l in Finset.Ico c d, f k l) ≤ M * (d - c) := by
    intro k hk
    have hk' := Finset.mem_Ico.1 hk
    have := Finset.sum_le_card_nsmul (Finset.Ico c d) (fun l => f k l) M (fun l hl => by
      have hl' := Finset.mem_Ico.1 hl
      exact hf k l hk'.1 hk'.2 hl'.1 hl'.2)
    simpa [mul_comm] using this
  have := Finset.sum_le_card_nsmul (Finset.Ico a b) (fun k => ∑ l in Finset.Ico c d, f k l)
    (M * (d - c)) hin
  simp only [Nat.card_Ico, smul_eq_mul] at this
  calc rectSum f a b c d ≤ (b - a) * (M * (d - c)) := this
    _ = M * ((b - a) * (d - c)) := by ring

theorem wrap32_of_lt (n : Nat) (h : n < 2 ^ 32) : wrap32 (n : Int) = n := by
  unfold wrap32
  have h' : n < 4294967296 := by simpa using h
  norm_num
  omega

theorem areaSum_pix_le (img : Image) (hwf : img.WF) (a b : Nat) (ha : (a : Int) ≤ img.width)
    (hb : (b : Int) ≤ img.height) :
    areaSum (fun k l => img.pix k l) a b ≤ 255 * (a * b) := by
  rw [areaSum_eq_rectSum]
  have := rectSum_le (fun k l => img.pix k l) 0 a 0 b 255 (fun k l _ hk _ hl => by
    have hv : ImageValidPos img k l = true :=
      (validPos_iff img _ _).2 ⟨by omega, by omega, by omega, by omega⟩
    have := pix_lt img hwf hv
    show img.pix k l ≤ 255
    omega)
  simpa using this

theorem areaSum_pix_lt (img : Image) (hwf : img.WF)
    (hbound : img.width * img.height * 255 < 2 ^ 32) (a b : Nat)
    (ha : (a : Int) ≤ img.width) (hb : (b : Int) ≤ img.height) :
    areaSum (fun k l => img.pix k l) a b < 2 ^ 32 := by
  have h1 := areaSum_pix_le img hwf a b ha hb
  have h2 : ((a * b : Nat) : Int) ≤ img.width * img.height := by
    push_cast
    exact mul_le_mul ha hb (by omega) hwf.1
  have h3 : ((areaSum (fun k l => img.pix k l) a b : Nat) : Int) < 2 ^ 32 := by
    have : ((areaSum (fun k l => img.pix k l) a b : Nat) : Int) ≤ 255 * ((a * b : Nat) : Int) := by
      exact_mod_cast h1
    omega
  exact_mod_cast h3

theorem blurTableStep_eq (img : Image) (hwf : img.WF)
    (hbound : img.width * img.height * 255 < 2 ^ 32) (i j : Int) (hi0 : 0 ≤ i)
    (hi : i < img.width) (hj0 : 0 ≤ j) (hj : j < img.height) (sum : Int → Int → Nat)
    (hI : TableInv img i j sum) :
    blurTableStep img i j sum = some (tabSet sum j i
      (areaSum (fun k l => img.pix k l) (i.toNat + 1) (j.toNat + 1))) := by
  have hv : ImageValidPos img i j = true := (validPos_iff img i j).2 ⟨hi0, hi, hj0, hj⟩
  have hrec := areaSum_succ (fun k l => img.pix k l) i.toNat j.toNat
  have hlt := areaSum_pix_lt img hwf hbound (i.toNat + 1) (j.toNat + 1)
    (by push_cast; omega) (by push_cast; omega)
  have hpix : img.pix (i.toNat : Int) (j.toNat : Int) = img.pix i j := by
    rw [Int.toNat_of_nonneg hi0, Int.toNat_of_nonneg hj0]
  simp only [hpix] at hrec
  have hup : 0 < j → (sum (j - 1) i : Nat) =
      areaSum (fun k l => img.pix k l) (i.toNat + 1) j.toNat := by
    intro hpos
    have := hI i (j - 1) ⟨hi0, by omega, by omega, Or.inr ⟨rfl, by omega⟩⟩
    rw [this]
    congr 1
    omega
  have hleft : 0 < i → (sum j (i - 1) : Nat) =
      areaSum (fun k l => img.pix k l) i.toNat (j.toNat + 1) := by
    intro hpos
    have := hI (i - 1) j ⟨by omega, hj0, hj, Or.inl (by omega)⟩
    rw [this]
    congr 1
    omega
  have hdiag : 0 < i → 0 < j → (sum (j - 1) (i - 1) : Nat) =
      areaSum (fun k l => img.pix k l) i.toNat j.toNat := by
    intro hpi hpj
    have := hI (i - 1) (j - 1) ⟨by omega, by omega, by omega, Or.inl (by omega)⟩
    rw [this]
    congr 1 <;> omega
  unfold blurTableStep
  rw [getPixel_eq img hwf.2.2.2.2.1 hv]
  simp only [Option.map_some']
  have hz_left : i = 0 → ∀ b, areaSum (fun k l => img.pix k l) i.toNat b = 0 := by
    intro h b
    have : i.toNat = 0 := by omega
    rw [this]; exact areaSum_zero_left _ b
  have hz_right : j = 0 → ∀ a, areaSum (fun k l => img.pix k l) a j.toNat = 0 := by
    intro h a
    have : j.toNat = 0 := by omega
    rw [this]; exact areaSum_zero_right _ a
  by_cases h00 : i = 0 ∧ j = 0
  · rw [if_pos h00]
    have z1 := hz_left h00.1 j.toNat
    have z2 := hz_left h00.1 (j.toNat + 1)
    have z3 := hz_right h00.2 (i.toNat + 1)
    have e : ((img.pix i j : Nat) : Int) =
        ((areaSum (fun k l => img.pix k l) (i.toNat + 1) (j.toNat + 1) : Nat) : Int) := by
      omega
    rw [e, wrap32_of_lt _ hlt]
  · rw [if_neg h00]
    by_cases hi1 : i = 0
    · rw [if_pos hi1]
      have hjp : 0 < j := by omega
      have h1 := hup hjp
      have z1 := hz_left hi1 j.toNat
      have z2 := hz_left hi1 (j.toNat + 1)
      have e : ((img.pix i j : Nat) : Int) + ((sum (j - 1) i : Nat) : Int) =
          ((areaSum (fun k l => img.pix k l) (i.toNat + 1) (j.toNat + 1) : Nat) : Int) := by
        rw [h1]; omega
      rw [e, wrap32_of_lt _ hlt]
    · rw [if_neg hi1]
      have hip : 0 < i := by omega
      have h2 := hleft hip
      by_cases hj1 : j = 0
      · rw [if_pos hj1]
        have z1 := hz_right hj1 i.toNat
        have z2 := hz_right hj1 (i.toNat + 1)
        have e : ((img.pix i j : Nat) : Int) + ((sum j (i - 1) : Nat) : Int) =
            ((areaSum (fun k l => img.pix k l) (i.toNat + 1) (j.toNat + 1) : Nat) : Int) := by
          rw [h2]; omega
        rw [e, wrap32_of_lt _ hlt]
      · rw [if_neg hj1]
        have hjp : 0 < j := by omega
        have h1 := hup hjp
        have h3 := hdiag hip hjp
        have e : ((img.pix i j : Nat) : Int) + ((sum j (i - 1) : Nat) : Int) +
            ((sum (j - 1) i : Nat) : Int) - ((sum (j - 1) (i - 1) : Nat) : Int) =
            ((areaSum (fun k l => img.pix k l) (i.toNat + 1) (j.toNat + 1) : Nat) : Int) := by
          rw [h1, h2, h3]; omega
        rw [e, wrap32_of_lt _ hlt]

theorem tableInv_step (img : Image) (i j : Int) (sum : Int → Int → Nat)
    (hI : TableInv img i j sum) :
    TableInv img i (j + 1) (tabSet sum j i
      (areaSum (fun k l => img.pix k l) (i.toNat + 1) (j.toNat + 1))) := by
  intro i' j' hvis
  obtain ⟨h1, h2, h3, h4⟩ := hvis
  by_cases hcur : j' = j ∧ i' = i
  · simp only [tabSet, hcur, and_self, if_true]
  · simp only [tabSet, hcur, if_false]
    exact hI i' j' ⟨h1, h2, h3, by omega⟩

theorem blurTable_spec (img : Image) (hwf : img.WF)
    (hbound : img.width * img.height * 255 < 2 ^ 32) (init : Int → Int → Nat) :
    ∃ sum, blurTable img init = some sum ∧
      ∀ i j, 0 ≤ i → i < img.width → 0 ≤ j → j < img.height →
        sum j i = areaSum (fun k l => img.pix k l) (i.toNat + 1) (j.toNat + 1) := by
  obtain ⟨sum, hl, hI⟩ := forLoop_inv img.width hwf.1
    (fun i sum => forLoop img.height (fun j sum => blurTableStep img i j sum) sum)
    (fun i sum => TableInv img i 0 sum) init
    (fun i' j' hvis => by
      obtain ⟨h1, h2, _, h4⟩ := hvis
      omega)
    (fun i st hi0 hi hIi => by
      obtain ⟨s', hl', hI'⟩ := forLoop_inv img.height hwf.2.1
        (fun j sum => blurTableStep img i j sum) (fun j sum => TableInv img i j sum) st hIi
        (fun j st' hj0 hj hIj =>
          ⟨_, blurTableStep_eq img hwf hbound i j hi0 hi hj0 hj st' hIj,
            tableInv_step img i j st' hIj⟩)
      refine ⟨s', hl', fun i' j' hvis => ?_⟩
      obtain ⟨h1, h2, h3, h4⟩ := hvis
      exact hI' i' j' ⟨h1, h2, h3, by omega⟩)
  refine ⟨sum, hl, fun i j hi0 hi hj0 hj => ?_⟩
  exact hI i j ⟨hi0, hj0, hj, Or.inl hi⟩

/-! ## The table modulo `2^32`, and loops that abort -/

theorem wrap32_congr (z : Int) (D : Nat) (h : z % 4294967296 = (D : Int) % 4294967296) :
    wrap32 z = D % 2 ^ 32 := by
  unfold wrap32
  norm_num
  omega

theorem blurTableStep_mod (img : Image) (hwf : img.WF) (i j : Int) (hi0 : 0 ≤ i)
    (hi : i < img.width) (hj0 : 0 ≤ j) (hj : j < img.height) (sum : Int → Int → Nat)
    (hI : TableInvMod img i j sum) :
    blurTableStep img i j sum = some (tabSet sum j i
      (areaSum (fun k l => img.pix k l) (i.toNat + 1) (j.toNat + 1) % 2 ^ 32)) := by
  have hN : (2 : Nat) ^ 32 = 4294967296 := by norm_num
  have hv : ImageValidPos img i j = true := (validPos_iff img i j).2 ⟨hi0, hi, hj0, hj⟩
  have hrec := areaSum_succ (fun k l => img.pix k l) i.toNat j.toNat
  have hpix : img.pix (i.toNat : Int) (j.toNat : Int) = img.pix i j := by
    rw [Int.toNat_of_nonneg hi0, Int.toNat_of_nonneg hj0]
  simp only [hpix] at hrec
  have hup : 0 < j → (sum (j - 1) i : Nat) =
      areaSum (fun k l => img.pix k l) (i.toNat + 1) j.toNat % 4294967296 := by
    intro hpos
    have := hI i (j - 1) ⟨hi0, by omega, by omega, Or.inr ⟨rfl, by omega⟩⟩
    rw [this, hN]
    congr 2
    omega
  have hleft : 0 < i → (sum j (i - 1) : Nat) =
      areaSum (fun k l => img.pix k l) i.toNat (j.toNat + 1) % 4294967296 := by
    intro hpos
    have := hI (i - 1) j ⟨by omega, hj0, hj, Or.inl (by omega)⟩
    rw [this, hN]
    congr 2
    omega
  have hdiag : 0 < i → 0 < j → (sum (j - 1) (i - 1) : Nat) =
      areaSum (fun k l => img.pix k l) i.toNat j.toNat % 4294967296 := by
    intro hpi hpj
    have := hI (i - 1) (j - 1) ⟨by omega, by omega, by omega, Or.inl (by omega)⟩
    rw [this, hN]
    congr 2 <;> omega
  unfold blurTableStep
  rw [getPixel_eq img hwf.2.2.2.2.1 hv]
  simp only [Option.map_some']
  have hz_left : i = 0 → ∀ b, areaSum (fun k l => img.pix k l) i.toNat b = 0 := by
    intro h b
    have : i.toNat = 0 := by omega
    rw [this]; exact areaSum_zero_left _ b
  have hz_right : j = 0 → ∀ a, areaSum (fun k l => img.pix k l) a j.toNat = 0 := by
    intro h a
    have : j.toNat = 0 := by omega
    rw [this]; exact areaSum_zero_right _ a
  by_cases h00 : i = 0 ∧ j = 0
  · rw [if_pos h00]
    have z1 := hz_left h00.1 j.toNat
    have z2 := hz_left h00.1 (j.toNat + 1)
    have z3 := hz_right h00.2 (i.toNat + 1)
    rw [wrap32_congr _ (areaSum (fun k l => img.pix k l) (i.toNat + 1) (j.toNat + 1))
      (by omega)]
  · rw [if_neg h00]
    by_cases hi1 : i = 0
    · rw [if_pos hi1]
      have hjp : 0 < j := by omega
      have h1 := hup hjp
      have z1 := hz_left hi1 j.toNat
      have z2 := hz_left hi1 (j.toNat + 1)
      rw [wrap32_congr _ (areaSum (fun k l => img.pix k l) (i.toNat + 1) (j.toNat + 1))
        (by rw [h1]; omega)]
    · rw [if_neg hi1]
      have hip : 0 < i := by omega
      have h2 := hleft hip
      by_cases hj1 : j = 0
      · rw [if_pos hj1]
        have z1 := hz_right hj1 i.toNat
        have z2 := hz_right hj1 (i.toNat + 1)
        rw [wrap32_congr _ (areaSum (fun k l => img.pix k l) (i.toNat + 1) (j.toNat + 1))
          (by rw [h2]; omega)]
      · rw [if_neg hj1]
        have hjp : 0 < j := by omega
        have h1 := hup hjp
        have h3 := hdiag hip hjp
        rw [wrap32_congr _ (areaSum (fun k l => img.pix k l) (i.toNat + 1) (j.toNat + 1))
          (by rw [h1, h2, h3]; omega)]

theorem tableInvMod_step (img : Image) (i j : Int) (sum : Int → Int → Nat)
    (hI : TableInvMod img i j sum) :
    TableInvMod img i (j + 1) (tabSet sum j i
      (areaSum (fun k l => img.pix k l) (i.toNat + 1) (j.toNat + 1) % 2 ^ 32)) := by
  intro i' j' hvis
  obtain ⟨h1, h2, h3, h4⟩ := hvis
  by_cases hcur : j' = j ∧ i' = i
  · simp only [tabSet, hcur, and_self, if_true]
  · simp only [tabSet, hcur, if_false]
    exact hI i' j' ⟨h1, h2, h3, by omega⟩

theorem blurTable_mod (img : Image) (hwf : img.WF) (init : Int → Int → Nat) :
    ∃ sum, blurTable img init = some sum ∧
      ∀ i j, 0 ≤ i → i < img.width → 0 ≤ j → j < img.height →
        sum j i = areaSum (fun k l => img.pix k l) (i.toNat + 1) (j.toNat + 1) % 2 ^ 32 := by
  obtain ⟨sum, hl, hI⟩ := forLoop_inv img.width hwf.1
    (fun i sum => forLoop img.height (fun j sum => blurTableStep img i j sum) sum)
    (fun i sum => TableInvMod img i 0 sum) init
    (fun i' j' hvis => by
      obtain ⟨h1, h2, _, h4⟩ := hvis
      omega)
    (fun i st hi0 hi hIi => by
      obtain ⟨s', hl', hI'⟩ := forLoop_inv img.height hwf.2.1
        (fun j sum => blurTableStep img i j sum) (fun j sum => TableInvMod img i j sum) st hIi
        (fun j st' hj0 hj hIj =>
          ⟨_, blurTableStep_mod img hwf i j hi0 hi hj0 hj st' hIj,
            tableInvMod_step img i j st' hIj⟩)
      refine ⟨s', hl', fun i' j' hvis => ?_⟩
      obtain ⟨h1, h2, h3, h4⟩ := hvis
      exact hI' i' j' ⟨h1, h2, h3, by omega⟩)
  refine ⟨sum, hl, fun i j hi0 hi hj0 hj => ?_⟩
  exact hI i j ⟨hi0, hj0, hj, Or.inl hi⟩

theorem loopFrom_abort {σ : Type} (body : Int → σ → Option σ) (k : Int)
    (hk : ∀ s, body k s = none) :
    ∀ (fuel : Nat) (i : Int) (s : σ), i ≤ k → k < i + fuel → loopFrom body fuel i s = none := by
  intro fuel
  induction fuel with
  | zero => intro i s h1 h2; simp at h2; omega
  | succ n ih =>
    intro i s h1 h2
    by_cases hik : i = k
    · simp [loopFrom, hik, hk s]
    · cases hb : body i s with
      | none => simp [loopFrom, hb]
      | some s' =>
        simp only [loopFrom, hb]
        exact ih (i + 1) s' (by omega) (by push_cast at h2; omega)

theorem forLoop_abort {σ : Type} (n : Int) (body : Int → σ → Option σ) (k : Int)
    (hk0 : 0 ≤ k) (hkn : k < n) (hk : ∀ s, body k s = none) (s : σ) :
    forLoop n body s = none :=
  loopFrom_abort body k hk n.toNat 0 s hk0 (by omega)

/-! ## Window sums -/

theorem window_sum_eq (f : Nat → Nat → Nat) (W H : Nat) (x0 x1 y0 y1 : Int) :
    (∑ k in Finset.range W, ∑ l in Finset.range H,
      if x0 ≤ (k : Int) ∧ (k : Int) ≤ x1 ∧ y0 ≤ (l : Int) ∧ (l : Int) ≤ y1 then f k l else 0) =
    rectSum f x0.toNat (min (x1 + 1).toNat W) y0.toNat (min (y1 + 1).toNat H) := by
  have hcols : Finset.Ico x0.toNat (min (x1 + 1).toNat W) =
      (Finset.range W).filter (fun (k : Nat) => x0 ≤ (k : Int) ∧ (k : Int) ≤ x1) := by
    ext k
    simp only [Finset.mem_Ico, Finset.mem_filter, Finset.mem_range]
    omega
  have hrows : Finset.Ico y0.toNat (min (y1 + 1).toNat H) =
      (Finset.range H).filter (fun (l : Nat) => y0 ≤ (l : Int) ∧ (l : Int) ≤ y1) := by
    ext l
    simp only [Finset.mem_Ico, Finset.mem_filter, Finset.mem_range]
    omega
  unfold rectSum
  rw [hcols, Finset.sum_filter]
  refine Finset.sum_congr rfl (fun k _ => ?_)
  by_cases hA : x0 ≤ (k : Int) ∧ (k : Int) ≤ x1
  · rw [if_pos hA, hrows, Finset.sum_filter]
    refine Finset.sum_congr rfl (fun l _ => ?_)
    by_cases hB : y0 ≤ (l : Int) ∧ (l : Int) ≤ y1
    · rw [if_pos hB, if_pos ⟨hA.1, hA.2, hB.1, hB.2⟩]
    · rw [if_neg hB, if_neg (fun h => hB ⟨h.2.2.1, h.2.2.2⟩)]
  · rw [if_neg hA]
    refine Finset.sum_eq_zero (fun l _ => ?_)
    rw [if_neg (fun h => hA ⟨h.1, h.2.1⟩)]

theorem rectSum_one (a b c d : Nat) : rectSum (fun _ _ => 1) a b c d = (b - a) * (d - c) := by
  simp [rectSum]

theorem doubleToUint8_lt (d : ℚ) : doubleToUint8 d < 256 := by
  unfold doubleToUint8
  simp only
  split_ifs
  · omega
  · omega

theorem doubleToUint8_div (n c : Nat) (hle : n / c < 256) :
    doubleToUint8 ((n : ℚ) / (c : ℚ)) = n / c := by
  have hfloor := Rat.floor_natCast_div_natCast n c
  rw [Rat.floor_def] at hfloor
  have hnum : 0 ≤ ((n : ℚ) / (c : ℚ)).num := by
    rw [Rat.num_nonneg]
    positivity
  unfold doubleToUint8
  simp only
  rw [Int.tdiv_eq_ediv hnum (by positivity), hfloor, ← Int.natCast_div]
  generalize n / c = m at hle ⊢
  rw [if_pos (by omega)]
  omega

/-- The conversion on values whose integer part is not a `uint8`: `(uint8) 400.5` is 144,
`(uint8) -179.5` is 77, `(uint8) 390.5` is 134, and a value whose integer part is not an
`int` gives 0. -/
theorem doubleToUint8_wraps :
    doubleToUint8 (200 * 2 + 1 / 2) = 144 ∧
    doubleToUint8 ((1 - (-1)) * 10 + (-1) * 200 + 1 / 2) = 77 ∧
    doubleToUint8 ((1 - 2) * 10 + 2 * 200 + 1 / 2) = 134 ∧
    doubleToUint8 (200 * 1000000000000 + 1 / 2) = 0 ∧
    doubleToUint8 (254 - 4294967295) = 0 := by
  refine ⟨?_, ?_, ?_, ?_, ?_⟩ <;> unfold doubleToUint8 <;> norm_num <;> decide

theorem intOf_eq (z : Int) (h0 : -2 ^ 31 ≤ z) (h1 : z < 2 ^ 31) : intOf z = some z :=
  if_pos ⟨h0, h1⟩

theorem intOf_none (z : Int) (h : 2 ^ 31 ≤ z) : intOf z = none :=
  if_neg (fun hc => absurd hc.2 (not_lt.2 h))

theorem tabGet_eq (sum : Int → Int → Nat) (w h j i : Int) (hj0 : 0 ≤ j) (hj : j < h)
    (hi0 : 0 ≤ i) (hi : i < w) : tabGet sum w h j i = some (sum j i) :=
  if_pos ⟨hj0, hj, hi0, hi⟩

/-- Inside the image and for offsets that keep `x+dx` and `y+dy` representable, the body of
the second pass is the unchecked computation on the clamped window. -/
theorem blurLevel_unfold (sum : Int → Int → Nat) (w h x y dx dy : Int) (hx0 : 0 ≤ x)
    (hx : x < w) (hy0 : 0 ≤ y) (hy : y < h) (hdx : 0 ≤ dx) (hdy : 0 ≤ dy)
    (hfx : x + dx < 2 ^ 31) (hfy : y + dy < 2 ^ 31) (hwh : w * h < 2 ^ 31)
    (xM xm yM ym : Int) (hxM : xM = if x + dx < w - 1 then x + dx else w - 1)
    (hxm : xm = if x - dx > 0 then x - dx else 0)
    (hyM : yM = if y + dy < h - 1 then y + dy else h - 1)
    (hym : ym = if y - dy > 0 then y - dy else 0) :
    blurLevel sum w h x y dx dy =
      some (doubleToUint8 ((((sum yM xM : Nat) : ℚ) -
          (((if ym < 1 then 0 else sum (ym - 1) xM) : Nat) : ℚ) -
          (((if xm < 1 then 0 else sum yM (xm - 1)) : Nat) : ℚ) +
          (((if ym < 1 ∨ xm < 1 then 0 else sum (ym - 1) (xm - 1)) : Nat) : ℚ) +
          ((Int.tdiv ((xM - xm + 1) * (yM - ym + 1)) 2 : Int) : ℚ)) /
        (((xM - xm + 1) * (yM - ym + 1) : Int) : ℚ))) := by
  have cxM : (xM = x + dx ∧ x + dx < w - 1) ∨ (xM = w - 1 ∧ w - 1 ≤ x + dx) := by
    rw [hxM]; split_ifs <;> omega
  have cxm : (xm = x - dx ∧ 0 < x - dx) ∨ (xm = 0 ∧ x - dx ≤ 0) := by
    rw [hxm]; split_ifs <;> omega
  have cyM : (yM = y + dy ∧ y + dy < h - 1) ∨ (yM = h - 1 ∧ h - 1 ≤ y + dy) := by
    rw [hyM]; split_ifs <;> omega
  have cym : (ym = y - dy ∧ 0 < y - dy) ∨ (ym = 0 ∧ y - dy ≤ 0) := by
    rw [hym]; split_ifs <;> omega
  have i1 : intOf (x + dx) = some (x + dx) := intOf_eq _ (by omega) hfx
  have i2 : intOf (x - dx) = some (x - dx) := intOf_eq _ (by omega) (by omega)
  have i3 : intOf (y + dy) = some (y + dy) := intOf_eq _ (by omega) hfy
  have i4 : intOf (y - dy) = some (y - dy) := intOf_eq _ (by omega) (by omega)
  have hcw : 0 ≤ xM - xm + 1 ∧ xM - xm + 1 ≤ w := by omega
  have hch : 0 ≤ yM - ym + 1 ∧ yM - ym + 1 ≤ h := by omega
  have hc0 : 0 ≤ (xM - xm + 1) * (yM - ym + 1) := mul_nonneg hcw.1 hch.1
  have hc1 : (xM - xm + 1) * (yM - ym + 1) ≤ w * h :=
    mul_le_mul hcw.2 hch.2 hch.1 (by omega)
  have i5 : intOf ((xM - xm + 1) * (yM - ym + 1)) = some ((xM - xm + 1) * (yM - ym + 1)) :=
    intOf_eq _ (by omega) (by omega)
  have hA : (if ym < 1 ∨ xm < 1 then some 0 else tabGet sum w h (ym - 1) (xm - 1)) =
      some (if ym < 1 ∨ xm < 1 then 0 else sum (ym - 1) (xm - 1)) := by
    split_ifs with hc
    · rfl
    · exact tabGet_eq sum w h _ _ (by omega) (by omega) (by omega) (by omega)
  have hB : (if ym < 1 then some 0 else tabGet sum w h (ym - 1) xM) =
      some (if ym < 1 then 0 else sum (ym - 1) xM) := by
    split_ifs with hc
    · rfl
    · exact tabGet_eq sum w h _ _ (by omega) (by omega) (by omega) (by omega)
  have hC : (if xm < 1 then some 0 else tabGet sum w h yM (xm - 1)) =
      some (if xm < 1 then 0 else sum yM (xm - 1)) := by
    split_ifs with hc
    · rfl
    · exact tabGet_eq sum w h _ _ (by omega) (by omega) (by omega) (by omega)
  have hD : tabGet sum w h yM xM = some (sum yM xM) :=
    tabGet_eq sum w h _ _ (by omega) (by omega) (by omega) (by omega)
  simp only [blurLevel, i1, i2, i3, i4]
  rw [← hxM, ← hxm, ← hyM, ← hym]
  simp only [i5, hA, hB, hC, hD]

theorem blurLevel_lt (sum : Int → Int → Nat) (w h x y dx dy : Int) (v : Nat)
    (hv : blurLevel sum w h x y dx dy = some v) : v < 256 := by
  unfold blurLevel at hv
  split at hv
  · simp only at hv
    split at hv
    · simp only [Option.some.injEq] at hv
      rw [← hv]
      exact doubleToUint8_lt _
    · exact absurd hv (by simp)
  · exact absurd hv (by simp)

theorem blurLevel_some (sum : Int → Int → Nat) (w h x y dx dy : Int) (hx0 : 0 ≤ x)
    (hx : x < w) (hy0 : 0 ≤ y) (hy : y < h) (hdx : 0 ≤ dx) (hdy : 0 ≤ dy)
    (hfx : x + dx < 2 ^ 31) (hfy : y + dy < 2 ^ 31) (hwh : w * h < 2 ^ 31) :
    ∃ v, blurLevel sum w h x y dx dy = some v :=
  ⟨_, blurLevel_unfold sum w h x y dx dy hx0 hx hy0 hy hdx hdy hfx hfy hwh _ _ _ _
    rfl rfl rfl rfl⟩

/-- The clipped window of a valid position as a rectangle of the image: its sum, its count,
and the bounds that follow. -/
theorem window_rect (img : Image) (hwf : img.WF) (x y dx dy : Int) (hx0 : 0 ≤ x)
    (hx : x < img.width) (hy0 : 0 ≤ y) (hy : y < img.height) (hdx : 0 ≤ dx) (hdy : 0 ≤ dy)
    (xM xm yM ym : Int)
    (hxM : xM = if x + dx < img.width - 1 then x + dx else img.width - 1)
    (hxm : xm = if x - dx > 0 then x - dx else 0)
    (hyM : yM = if y + dy < img.height - 1 then y + dy else img.height - 1)
    (hym : ym = if y - dy > 0 then y - dy else 0) :
    windowSum img x y dx dy =
      rectSum (fun k l => img.pix k l) xm.toNat (xM.toNat + 1) ym.toNat (yM.toNat + 1) ∧
    windowCount img x y dx dy = (xM.toNat + 1 - xm.toNat) * (yM.toNat + 1 - ym.toNat) ∧
    windowSum img x y dx dy ≤ 255 * windowCount img x y dx dy ∧
    0 < windowCount img x y dx dy ∧
    windowCount img x y dx dy ≤ img.width.toNat * img.height.toNat := by
  have cxM : (xM = x + dx ∧ x + dx < img.width - 1) ∨
      (xM = img.width - 1 ∧ img.width - 1 ≤ x + dx) := by
    rw [hxM]; split_ifs <;> omega
  have cxm : (xm = x - dx ∧ 0 < x - dx) ∨ (xm = 0 ∧ x - dx ≤ 0) := by
    rw [hxm]; split_ifs <;> omega
  have cyM : (yM = y + dy ∧ y + dy < img.height - 1) ∨
      (yM = img.height - 1 ∧ img.height - 1 ≤ y + dy) := by
    rw [hyM]; split_ifs <;> omega
  have cym : (ym = y - dy ∧ 0 < y - dy) ∨ (ym = 0 ∧ y - dy ≤ 0) := by
    rw [hym]; split_ifs <;> omega
  have hWS : windowSum img x y dx dy =
      rectSum (fun k l => img.pix k l) xm.toNat (xM.toNat + 1) ym.toNat (yM.toNat + 1) := by
    unfold windowSum
    rw [window_sum_eq (fun k l => img.pix k l)]
    congr 1 <;> omega
  have hWC : windowCount img x y dx dy =
      (xM.toNat + 1 - xm.toNat) * (yM.toNat + 1 - ym.toNat) := by
    have h := window_sum_eq (fun _ _ => 1) img.width.toNat img.height.toNat (x - dx) (x + dx)
      (y - dy) (y + dy)
    unfold windowCount
    rw [h, rectSum_one]
    congr 2 <;> omega
  have hR := rectSum_le (fun k l => img.pix k l) xm.toNat (xM.toNat + 1) ym.toNat
    (yM.toNat + 1) 255 (fun k l _ hk _ hl => by
      have hv : ImageValidPos img k l = true :=
        (validPos_iff img _ _).2 ⟨by omega, by omega, by omega, by omega⟩
      have := pix_lt img hwf hv
      show img.pix k l ≤ 255
      omega)
  have hcpos : 0 < (xM.toNat + 1 - xm.toNat) * (yM.toNat + 1 - ym.toNat) :=
    Nat.mul_pos (by omega) (by omega)
  have hcle : (xM.toNat + 1 - xm.toNat) * (yM.toNat + 1 - ym.toNat) ≤
      img.width.toNat * img.height.toNat :=
    Nat.mul_le_mul (by omega) (by omega)
  refine ⟨hWS, hWC, ?_, ?_, ?_⟩
  · rw [hWS, hWC]
    exact hR
  · rw [hWC]
    exact hcpos
  · rw [hWC]
    exact hcle

theorem window_facts (img : Image) (hwf : img.WF) (x y dx dy : Int)
    (hv : ImageValidPos img x y = true) (hdx : 0 ≤ dx) (hdy : 0 ≤ dy) :
    windowMean img x y dx dy < 256 ∧ 0 < windowCount img x y dx dy ∧
      windowSum img x y dx dy ≤ 255 * windowCount img x y dx dy ∧
      (windowCount img x y dx dy : Int) ≤ img.width * img.height := by
  obtain ⟨hx0, hx, hy0, hy⟩ := (validPos_iff img x y).1 hv
  obtain ⟨_, _, hS, hpos, hle⟩ := window_rect img hwf x y dx dy hx0 hx hy0 hy hdx hdy _ _ _ _
    rfl rfl rfl rfl
  refine ⟨?_, hpos, hS, ?_⟩
  · unfold windowMean
    rw [Nat.div_lt_iff_lt_mul hpos]
    generalize windowCount img x y dx dy = cnt at hS hpos ⊢
    generalize windowSum img x y dx dy = S at hS ⊢
    omega
  · have hc : ((img.width.toNat * img.height.toNat : Nat) : Int) = img.width * img.height := by
      rw [Nat.cast_mul, Int.toNat_of_nonneg hwf.1, Int.toNat_of_nonneg hwf.2.1]
    rw [← hc]
    exact_mod_cast hle

theorem blurLevel_eq (img : Image) (hwf : img.WF) (sum : Int → Int → Nat)
    (hT : ∀ i j, 0 ≤ i → i < img.width → 0 ≤ j → j < img.height →
      sum j i = areaSum (fun k l => img.pix k l) (i.toNat + 1) (j.toNat + 1))
    (x y dx dy : Int) (hx0 : 0 ≤ x) (hx : x < img.width) (hy0 : 0 ≤ y) (hy : y < img.height)
    (hdx : 0 ≤ dx) (hdy : 0 ≤ dy) (hfx : x + dx < 2 ^ 31) (hfy : y + dy < 2 ^ 31)
    (hwh : img.width * img.height < 2 ^ 31) :
    blurLevel sum img.width img.height x y dx dy = some (windowMean img x y dx dy) := by
  obtain ⟨xM, hxM⟩ : ∃ xM, xM = if x + dx < img.width - 1 then x + dx else img.width - 1 :=
    ⟨_, rfl⟩
  obtain ⟨xm, hxm⟩ : ∃ xm, xm = if x - dx > 0 then x - dx else 0 := ⟨_, rfl⟩
  obtain ⟨yM, hyM⟩ : ∃ yM, yM = if y + dy < img.height - 1 then y + dy else img.height - 1 :=
    ⟨_, rfl⟩
  obtain ⟨ym, hym⟩ : ∃ ym, ym = if y - dy > 0 then y - dy else 0 := ⟨_, rfl⟩
  have cxM : (xM = x + dx ∧ x + dx < img.width - 1) ∨
      (xM = img.width - 1 ∧ img.width - 1 ≤ x + dx) := by
    rw [hxM]; split_ifs <;> omega
  have cxm : (xm = x - dx ∧ 0 < x - dx) ∨ (xm = 0 ∧ x - dx ≤ 0) := by
    rw [hxm]; split_ifs <;> omega
  have cyM : (yM = y + dy ∧ y + dy < img.height - 1) ∨
      (yM = img.height - 1 ∧ img.height - 1 ≤ y + dy) := by
    rw [hyM]; split_ifs <;> omega
  have cym : (ym = y - dy ∧ 0 < y - dy) ∨ (ym = 0 ∧ y - dy ≤ 0) := by
    rw [hym]; split_ifs <;> omega
  obtain ⟨hWS, hWC, hR, hcpos, _⟩ := window_rect img hwf x y dx dy hx0 hx hy0 hy hdx hdy
    xM xm yM ym hxM hxm hyM hym
  obtain ⟨hlt, _⟩ := window_facts img hwf x y dx dy
    ((validPos_iff img x y).2 ⟨hx0, hx, hy0, hy⟩) hdx hdy
  have hIE := rectSum_incl_excl (fun k l => img.pix k l)
    (show xm.toNat ≤ xM.toNat + 1 by omega) (show ym.toNat ≤ yM.toNat + 1 by omega)
  have hd : sum yM xM =
      areaSum (fun k l => img.pix k l) (xM.toNat + 1) (yM.toNat + 1) :=
    hT xM yM (by omega) (by omega) (by omega) (by omega)
  have hb : (if ym < 1 then 0 else sum (ym - 1) xM) =
      areaSum (fun k l => img.pix k l) (xM.toNat + 1) ym.toNat := by
    split_ifs with h
    · have : ym.toNat = 0 := by omega
      rw [this, areaSum_zero_right]
    · rw [hT xM (ym - 1) (by omega) (by omega) (by omega) (by omega)]
      congr 1
      omega
  have hc : (if xm < 1 then 0 else sum yM (xm - 1)) =
      areaSum (fun k l => img.pix k l) xm.toNat (yM.toNat + 1) := by
    split_ifs with h
    · have : xm.toNat = 0 := by omega
      rw [this, areaSum_zero_left]
    · rw [hT (xm - 1) yM (by omega) (by omega) (by omega) (by omega)]
      congr 1
      omega
  have ha : (if ym < 1 ∨ xm < 1 then 0 else sum (ym - 1) (xm - 1)) =
      areaSum (fun k l => img.pix k l) xm.toNat ym.toNat := by
    split_ifs with h
    · rcases h with h | h
      · have : ym.toNat = 0 := by omega
        rw [this, areaSum_zero_right]
      · have : xm.toNat = 0 := by omega
        rw [this, areaSum_zero_left]
    · rw [hT (xm - 1) (ym - 1) (by omega) (by omega) (by omega) (by omega)]
      congr 1 <;> omega
  have hcount : (xM - xm + 1) * (yM - ym + 1) =
      (((xM.toNat + 1 - xm.toNat) * (yM.toNat + 1 - ym.toNat) : Nat) : Int) := by
    have e1 : ((xM.toNat + 1 - xm.toNat : Nat) : Int) = xM - xm + 1 := by omega
    have e2 : ((yM.toNat + 1 - ym.toNat : Nat) : Int) = yM - ym + 1 := by omega
    rw [Nat.cast_mul, e1, e2]
  have hle : (rectSum (fun k l => img.pix k l) xm.toNat (xM.toNat + 1) ym.toNat (yM.toNat + 1) +
      (xM.toNat + 1 - xm.toNat) * (yM.toNat + 1 - ym.toNat) / 2) /
      ((xM.toNat + 1 - xm.toNat) * (yM.toNat + 1 - ym.toNat)) < 256 := by
    unfold windowMean at hlt
    rw [hWS, hWC] at hlt
    exact hlt
  rw [blurLevel_unfold sum img.width img.height x y dx dy hx0 hx hy0 hy hdx hdy hfx hfy hwh
    xM xm yM ym hxM hxm hyM hym]
  rw [hd, hb, hc, ha, hcount, Int.tdiv_eq_ediv (Int.natCast_nonneg _) (by norm_num)]
  have hq : ((areaSum (fun k l => img.pix k l) (xM.toNat + 1) (yM.toNat + 1) : Nat) : ℚ) -
      ((areaSum (fun k l => img.pix k l) (xM.toNat + 1) ym.toNat : Nat) : ℚ) -
      ((areaSum (fun k l => img.pix k l) xm.toNat (yM.toNat + 1) : Nat) : ℚ) +
      ((areaSum (fun k l => img.pix k l) xm.toNat ym.toNat : Nat) : ℚ) =
      ((rectSum (fun k l => img.pix k l) xm.toNat (xM.toNat + 1) ym.toNat (yM.toNat + 1) :
        Nat) : ℚ) := by
    have := congrArg (fun n : Nat => (n : ℚ)) hIE
    simp only [Nat.cast_add] at this
    linarith
  have h2 : ((((xM.toNat + 1 - xm.toNat) * (yM.toNat + 1 - ym.toNat) : Nat) : Int) / 2) =
      ((((xM.toNat + 1 - xm.toNat) * (yM.toNat + 1 - ym.toNat) / 2 : Nat)) : Int) := by
    norm_cast
  rw [hq, h2, Int.cast_natCast, Int.cast_natCast, ← Nat.cast_add,
    doubleToUint8_div _ _ hle]
  unfold windowMean
  rw [hWS, hWC]

/-- Every image whose window offsets and pixel count stay within `int`: the second pass of
`ImageBlur` runs to the end on any table, keeps the header, and the pixel left at a position
is the level that the pass computes there from the table. -/
theorem blur_run (img : Image) (hwf : img.WF) (dx dy : Int) (hdx : 0 ≤ dx)
    (hdy : 0 ≤ dy) (hfx : 0 < img.height → img.width + dx ≤ 2 ^ 31)
    (hfy : 0 < img.width → img.height + dy ≤ 2 ^ 31)
    (hwh : img.width * img.height < 2 ^ 31) (sum : Int → Int → Nat)
    (hsum : blurTable img (fun _ _ => 0) = some sum) :
    ∃ out, ImageBlur img dx dy = some out ∧ out.WF ∧ out.width = img.width ∧
      out.height = img.height ∧ out.maxval = img.maxval ∧
      ∀ x y, ImageValidPos img x y = true →
        blurLevel sum img.width img.height x y dx dy = some (out.pix x y) := by
  have hlev : ∀ x y, 0 ≤ x → x < img.width → 0 ≤ y → y < img.height →
      blurLevel sum img.width img.height x y dx dy =
        some ((blurLevel sum img.width img.height x y dx dy).getD 0) := by
    intro x y h1 h2 h3 h4
    have hfx' := hfx (by omega)
    have hfy' := hfy (by omega)
    obtain ⟨v, hv⟩ := blurLevel_some sum img.width img.height x y dx dy h1 h2 h3 h4 hdx hdy
      (by omega) (by omega) hwh
    rw [hv]
    rfl
  obtain ⟨out, hloop, howf, how, hoh, hom, hdone, _⟩ :=
    fill_spec img hwf img.width img.height hwf.1 hwf.2.1 (fun x _ => x) (fun _ y => y)
      (fun x y => (blurLevel sum img.width img.height x y dx dy).getD 0)
      (fun x y s =>
        match blurLevel sum img.width img.height x y dx dy with
        | none => none
        | some level => ImageSetPixel s x y level)
      (fun x y h1 h2 h3 h4 => (validPos_iff img x y).2 ⟨h1, h2, h3, h4⟩)
      (fun i j i' j' _ _ _ _ _ _ _ _ e1 e2 => ⟨e1, e2⟩)
      (fun x y s h1 h2 h3 h4 _ => by
        have hfx' := hfx (by omega)
        have hfy' := hfy (by omega)
        obtain ⟨v, hv⟩ := blurLevel_some sum img.width img.height x y dx dy h1 h2 h3 h4 hdx hdy
          (by omega) (by omega) hwh
        simp only [hv, Option.getD_some])
  refine ⟨out, ?_, howf, how, hoh, hom, ?_⟩
  · simp only [ImageBlur, hsum]
    exact hloop
  · intro x y hv
    obtain ⟨hx0, hx, hy0, hy⟩ := (validPos_iff img x y).1 hv
    have h := hdone x y ⟨hx0, hy0, hy, Or.inl hx⟩
    simp only at h
    have hl := hlev x y hx0 hx hy0 hy
    have hlt := blurLevel_lt _ _ _ _ _ _ _ _ hl
    rw [h, Nat.mod_eq_of_lt hlt]
    exact hl

theorem blur_pixels (img : Image) (hwf : img.WF)
    (hbound : img.width * img.height * 255 < 2 ^ 32) (dx dy : Int) (hdx : 0 ≤ dx)
    (hdy : 0 ≤ dy) (hfx : 0 < img.height → img.width + dx ≤ 2 ^ 31)
    (hfy : 0 < img.width → img.height + dy ≤ 2 ^ 31) :
    ∃ out, ImageBlur img dx dy = some out ∧ out.WF ∧ out.width = img.width ∧
      out.height = img.height ∧ out.maxval = img.maxval ∧
      ∀ x y, ImageValidPos img x y = true → out.pix x y = windowMean img x y dx dy := by
  have hwh : img.width * img.height < 2 ^ 31 := by omega
  obtain ⟨sum, hsum, hT⟩ := blurTable_spec img hwf hbound (fun _ _ => 0)
  obtain ⟨out, hloop, howf, how, hoh, hom, hpx⟩ :=
    blur_run img hwf dx dy hdx hdy hfx hfy hwh sum hsum
  refine ⟨out, hloop, howf, how, hoh, hom, fun x y hv => ?_⟩
  obtain ⟨hx0, hx, hy0, hy⟩ := (validPos_iff img x y).1 hv
  have hfx' := hfx (by omega)
  have hfy' := hfy (by omega)
  have h1 := hpx x y hv
  rw [blurLevel_eq img hwf sum hT x y dx dy hx0 hx hy0 hy hdx hdy (by omega) (by omega) hwh]
    at h1
  exact (Option.some.inj h1).symm

/-! ## The direct mean filter -/

theorem sum_point (g : Int → Int) (W : Nat) (t : Int) :
    (∑ k in Finset.range W, if (k : Int) = t then g k else 0) =
      if 0 ≤ t ∧ t < W then g t else 0 := by
  by_cases ht : 0 ≤ t ∧ t < W
  · rw [if_pos ht, Finset.sum_eq_single t.toNat]
    · have : ((t.toNat : Nat) : Int) = t := by omega
      rw [if_pos this, this]
    · intro k _ hk
      rw [if_neg (by omega)]
    · intro hk
      exact absurd (Finset.mem_range.2 (by omega)) hk
  · rw [if_neg ht]
    refine Finset.sum_eq_zero (fun k hk => ?_)
    have := Finset.mem_range.1 hk
    rw [if_neg (by omega)]

theorem sum_shift_window (g : Int → Int) (lo : Int) (n W : Nat) :
    (∑ u in Finset.range n, if 0 ≤ lo + u ∧ lo + u < W then g (lo + u) else 0) =
      ∑ k in Finset.range W, if lo ≤ (k : Int) ∧ (k : Int) < lo + n then g k else 0 := by
  induction n with
  | zero =>
    simp only [Finset.range_zero, Finset.sum_empty]
    symm
    refine Finset.sum_eq_zero (fun k _ => ?_)
    rw [if_neg (by push_cast; omega)]
  | succ n ih =>
    rw [Finset.sum_range_succ, ih, ← sum_point g W (lo + n), ← Finset.sum_add_distrib]
    refine Finset.sum_congr rfl (fun k _ => ?_)
    by_cases h1 : lo ≤ (k : Int) ∧ (k : Int) < lo + n
    · rw [if_pos h1, if_neg (by omega), if_pos (by push_cast; omega), add_zero]
    · by_cases h2 : (k : Int) = lo + n
      · rw [if_neg h1, if_pos h2, if_pos (by push_cast; omega), zero_add]
      · rw [if_neg h1, if_neg h2, if_neg (by push_cast; omega), add_zero]

theorem direct_sum_eq (img : Image) (hw : 0 ≤ img.width) (hh : 0 ≤ img.height)
    (val : Int → Int → Int) (lo lo2 : Int) (n m : Nat) :
    (∑ u in Finset.range n, ∑ v in Finset.range m,
      if ImageValidPos img (lo + u) (lo2 + v) = true then val (lo + u) (lo2 + v) else 0) =
    ∑ k in Finset.range img.width.toNat, ∑ l in Finset.range img.height.toNat,
      if lo ≤ (k : Int) ∧ (k : Int) < lo + n ∧ lo2 ≤ (l : Int) ∧ (l : Int) < lo2 + m
      then val k l else 0 := by
  have hinner : ∀ kk : Int, (∑ v in Finset.range m,
      if ImageValidPos img kk (lo2 + v) = true then val kk (lo2 + v) else 0) =
      if 0 ≤ kk ∧ kk < img.width.toNat then
        ∑ l in Finset.range img.height.toNat,
          if lo2 ≤ (l : Int) ∧ (l : Int) < lo2 + m then val kk l else 0
      else 0 := by
    intro kk
    by_cases hk : 0 ≤ kk ∧ kk < img.width.toNat
    · rw [if_pos hk, ← sum_shift_window (fun l => val kk l) lo2 m img.height.toNat]
      refine Finset.sum_congr rfl (fun v _ => ?_)
      by_cases hv : 0 ≤ lo2 + v ∧ lo2 + v < img.height.toNat
      · rw [if_pos hv, if_pos ((validPos_iff img _ _).2 ⟨by omega, by omega, by omega, by omega⟩)]
      · rw [if_neg hv, if_neg (fun h => hv (by
          have := (validPos_iff img _ _).1 h
          omega))]
    · rw [if_neg hk]
      refine Finset.sum_eq_zero (fun v _ => ?_)
      rw [if_neg (fun h => hk (by
        have := (validPos_iff img _ _).1 h
        omega))]
  simp only [hinner]
  rw [sum_shift_window (fun kk => ∑ l in Finset.range img.height.toNat,
    if lo2 ≤ (l : Int) ∧ (l : Int) < lo2 + m then val kk l else 0) lo n img.width.toNat]
  refine Finset.sum_congr rfl (fun k _ => ?_)
  by_cases hA : lo ≤ (k : Int) ∧ (k : Int) < lo + n
  · rw [if_pos hA]
    refine Finset.sum_congr rfl (fun l _ => ?_)
    by_cases hB : lo2 ≤ (l : Int) ∧ (l : Int) < lo2 + m
    · rw [if_pos hB, if_pos ⟨hA.1, hA.2, hB.1, hB.2⟩]
    · rw [if_neg hB, if_neg (fun h => hB ⟨h.2.2.1, h.2.2.2⟩)]
  · rw [if_neg hA]
    symm
    refine Finset.sum_eq_zero (fun l _ => ?_)
    rw [if_neg (fun h => hA ⟨h.1, h.2.1⟩)]

theorem loopFrom_acc (a c : Int → Int) (B : Int)
    (body : Int → Int × Int → Option (Int × Int)) :
    ∀ (n : Nat) (lo : Int) (acc : Int × Int),
      (∀ k, lo ≤ k → k < lo + n → 0 ≤ a k ∧ 0 ≤ c k) →
      0 ≤ acc.1 → 0 ≤ acc.2 →
      acc.1 + ∑ u in Finset.range n, a (lo + u) ≤ B →
      acc.2 + ∑ u in Finset.range n, c (lo + u) ≤ B →
      (∀ k acc', lo ≤ k → k < lo + n → 0 ≤ acc'.1 → 0 ≤ acc'.2 → acc'.1 + a k ≤ B →
        acc'.2 + c k ≤ B → body k acc' = some (acc'.1 + a k, acc'.2 + c k)) →
      loopFrom body n lo acc =
        some (acc.1 + ∑ u in Finset.range n, a (lo + u),
          acc.2 + ∑ u in Finset.range n, c (lo + u)) := by
  intro n
  induction n with
  | zero =>
    intro lo acc _ _ _ _ _ _
    simp [loopFrom]
  | succ n ih =>
    intro lo acc hnn h1 h2 hB1 hB2 hbody
    have e : ∀ u : Nat, lo + 1 + (u : Int) = lo + ((u : Int) + 1) := fun u => by ring
    have hra : 0 ≤ ∑ u in Finset.range n, a (lo + ((u : Int) + 1)) :=
      Finset.sum_nonneg (fun u hu => (hnn _ (by omega) (by
        have := Finset.mem_range.1 hu
        push_cast
        omega)).1)
    have hrc : 0 ≤ ∑ u in Finset.range n, c (lo + ((u : Int) + 1)) :=
      Finset.sum_nonneg (fun u hu => (hnn _ (by omega) (by
        have := Finset.mem_range.1 hu
        push_cast
        omega)).2)
    rw [Finset.sum_range_succ'] at hB1 hB2
    simp only [Nat.cast_add, Nat.cast_one, Nat.cast_zero, add_zero] at hB1 hB2
    have hn0 := hnn lo (le_refl _) (by push_cast; omega)
    have h0 := hbody lo acc (le_refl _) (by push_cast; omega) h1 h2 (by omega) (by omega)
    have hrest := ih (lo + 1) (acc.1 + a lo, acc.2 + c lo)
      (fun k hk hk2 => hnn k (by omega) (by push_cast; omega))
      (by show 0 ≤ acc.1 + a lo; omega) (by show 0 ≤ acc.2 + c lo; omega)
      (by
        show acc.1 + a lo + ∑ u in Finset.range n, a (lo + 1 + (u : Int)) ≤ B
        simp only [e]
        omega)
      (by
        show acc.2 + c lo + ∑ u in Finset.range n, c (lo + 1 + (u : Int)) ≤ B
        simp only [e]
        omega)
      (fun k acc' hk hk2 => hbody k acc' (by omega) (by push_cast; omega))
    simp only [loopFrom, h0, hrest, Finset.sum_range_succ', Nat.cast_add, Nat.cast_one,
      Nat.cast_zero, add_zero]
    simp only [e]
    congr 2 <;> ring

theorem forRange_eq {σ : Type} (lo hi : Int) (body : Int → σ → Option σ) (s : σ)
    (h0 : -2 ^ 31 ≤ hi + 1) (h1 : hi + 1 < 2 ^ 31) :
    forRange lo hi body s = loopFrom body (hi - lo + 1).toNat lo s := by
  unfold forRange
  by_cases hle : lo ≤ hi
  · rw [if_pos hle, intOf_eq _ h0 h1]
  · rw [if_neg hle]
    have : (hi - lo + 1).toNat = 0 := by omega
    rw [this]
    rfl

theorem directStep_eq (img s aux : Image) (hsw : s.width = img.width)
    (hsh : s.height = img.height)
    (haux : ∀ k l, ImageValidPos img k l = true → ImageGetPixel aux k l = some (img.pix k l))
    (k l : Int) (acc : Int × Int) (h1 : 0 ≤ acc.1) (h2 : 0 ≤ acc.2)
    (hB1 : acc.1 + (if ImageValidPos img k l = true then (img.pix k l : Int) else 0) ≤
      2 ^ 31 - 1)
    (hB2 : acc.2 + (if ImageValidPos img k l = true then (1 : Int) else 0) ≤ 2 ^ 31 - 1) :
    directStep s aux k l acc =
      some (acc.1 + (if ImageValidPos img k l = true then (img.pix k l : Int) else 0),
        acc.2 + (if ImageValidPos img k l = true then (1 : Int) else 0)) := by
  unfold directStep
  rw [validPos_congr hsw hsh]
  by_cases hv : ImageValidPos img k l = true
  · simp only [hv, if_true] at hB1 hB2 ⊢
    rw [haux k l hv]
    simp only
    rw [intOf_eq _ (by omega) (by omega), intOf_eq _ (by omega) (by omega)]
  · simp [hv]

theorem direct_window (img s aux : Image) (hwf : img.WF) (hsw : s.width = img.width)
    (hsh : s.height = img.height)
    (haux : ∀ k l, ImageValidPos img k l = true → ImageGetPixel aux k l = some (img.pix k l))
    (i j dx dy : Int) (hi0 : 0 ≤ i) (hj0 : 0 ≤ j) (hdx : 0 ≤ dx) (hdy : 0 ≤ dy)
    (hfx : i + dx + 1 < 2 ^ 31) (hfy : j + dy + 1 < 2 ^ 31)
    (hS : (windowSum img i j dx dy : Int) ≤ 2 ^ 31 - 1)
    (hC : (windowCount img i j dx dy : Int) ≤ 2 ^ 31 - 1) :
    forRange (i - dx) (i + dx) (fun k acc => directRow s aux j dy k acc)
        ((0 : Int), (0 : Int)) =
      some ((windowSum img i j dx dy : Int), (windowCount img i j dx dy : Int)) := by
  have j1 : intOf (j - dy) = some (j - dy) := intOf_eq _ (by omega) (by omega)
  have j2 : intOf (j + dy) = some (j + dy) := intOf_eq _ (by omega) (by omega)
  have hApos : ∀ k l : Int,
      0 ≤ (if ImageValidPos img k l = true then (img.pix k l : Int) else 0) ∧
      0 ≤ (if ImageValidPos img k l = true then (1 : Int) else 0) := by
    intro k l
    constructor <;> split_ifs <;> omega
  have hrowpos : ∀ k : Int,
      0 ≤ (∑ v in Finset.range (j + dy - (j - dy) + 1).toNat,
        (if ImageValidPos img k (j - dy + v) = true then (img.pix k (j - dy + v) : Int)
          else 0)) ∧
      0 ≤ (∑ v in Finset.range (j + dy - (j - dy) + 1).toNat,
        (if ImageValidPos img k (j - dy + v) = true then (1 : Int) else 0)) := fun k =>
    ⟨Finset.sum_nonneg (fun v _ => (hApos k _).1), Finset.sum_nonneg (fun v _ => (hApos k _).2)⟩
  have hrow : ∀ k (acc : Int × Int), 0 ≤ acc.1 → 0 ≤ acc.2 →
      acc.1 + (∑ v in Finset.range (j + dy - (j - dy) + 1).toNat,
        (if ImageValidPos img k (j - dy + v) = true then (img.pix k (j - dy + v) : Int)
          else 0)) ≤ 2 ^ 31 - 1 →
      acc.2 + (∑ v in Finset.range (j + dy - (j - dy) + 1).toNat,
        (if ImageValidPos img k (j - dy + v) = true then (1 : Int) else 0)) ≤ 2 ^ 31 - 1 →
      directRow s aux j dy k acc =
      some (acc.1 + ∑ v in Finset.range (j + dy - (j - dy) + 1).toNat,
          (if ImageValidPos img k (j - dy + v) = true then (img.pix k (j - dy + v) : Int) else 0),
        acc.2 + ∑ v in Finset.range (j + dy - (j - dy) + 1).toNat,
          (if ImageValidPos img k (j - dy + v) = true then (1 : Int) else 0)) := by
    intro k acc h1 h2 hB1 hB2
    unfold directRow
    simp only [j1, j2]
    rw [forRange_eq _ _ _ _ (by omega) hfy]
    exact loopFrom_acc
      (fun l => if ImageValidPos img k l = true then (img.pix k l : Int) else 0)
      (fun l => if ImageValidPos img k l = true then (1 : Int) else 0) (2 ^ 31 - 1) _ _ _ acc
      (fun l _ _ => hApos k l) h1 h2 hB1 hB2
      (fun l acc' _ _ g1 g2 g3 g4 => directStep_eq img s aux hsw hsh haux k l acc' g1 g2 g3 g4)
  have h1 := direct_sum_eq img hwf.1 hwf.2.1 (fun k l => (img.pix k l : Int)) (i - dx) (j - dy)
    (i + dx - (i - dx) + 1).toNat (j + dy - (j - dy) + 1).toNat
  have h2 := direct_sum_eq img hwf.1 hwf.2.1 (fun _ _ => (1 : Int)) (i - dx) (j - dy)
    (i + dx - (i - dx) + 1).toNat (j + dy - (j - dy) + 1).toNat
  simp only at h1 h2
  have e1 : (∑ k in Finset.range img.width.toNat, ∑ l in Finset.range img.height.toNat,
      if i - dx ≤ (k : Int) ∧ (k : Int) < i - dx + ((i + dx - (i - dx) + 1).toNat : Int) ∧
        j - dy ≤ (l : Int) ∧ (l : Int) < j - dy + ((j + dy - (j - dy) + 1).toNat : Int)
      then (img.pix k l : Int) else 0) = (windowSum img i j dx dy : Int) := by
    simp only [windowSum, Nat.cast_sum, Nat.cast_ite, Nat.cast_zero]
    refine Finset.sum_congr rfl (fun k _ => Finset.sum_congr rfl (fun l _ => ?_))
    refine if_congr ?_ rfl rfl
    constructor <;> intro h <;> omega
  have e2 : (∑ k in Finset.range img.width.toNat, ∑ l in Finset.range img.height.toNat,
      if i - dx ≤ (k : Int) ∧ (k : Int) < i - dx + ((i + dx - (i - dx) + 1).toNat : Int) ∧
        j - dy ≤ (l : Int) ∧ (l : Int) < j - dy + ((j + dy - (j - dy) + 1).toNat : Int)
      then (1 : Int) else 0) = (windowCount img i j dx dy : Int) := by
    simp only [windowCount, Nat.cast_sum, Nat.cast_ite, Nat.cast_zero, Nat.cast_one]
    refine Finset.sum_congr rfl (fun k _ => Finset.sum_congr rfl (fun l _ => ?_))
    refine if_congr ?_ rfl rfl
    constructor <;> intro h <;> omega
  rw [e1] at h1
  rw [e2] at h2
  rw [forRange_eq _ _ _ _ (by omega) hfx]
  have hmain := loopFrom_acc
    (fun k => ∑ v in Finset.range (j + dy - (j - dy) + 1).toNat,
      (if ImageValidPos img k (j - dy + v) = true then (img.pix k (j - dy + v) : Int) else 0))
    (fun k => ∑ v in Finset.range (j + dy - (j - dy) + 1).toNat,
      (if ImageValidPos img k (j - dy + v) = true then (1 : Int) else 0)) (2 ^ 31 - 1)
    (fun k acc => directRow s aux j dy k acc) (i + dx - (i - dx) + 1).toNat (i - dx)
    ((0 : Int), (0 : Int)) (fun k _ _ => hrowpos k) (le_refl _) (le_refl _)
    (by simp only [zero_add]; rw [h1]; exact hS)
    (by simp only [zero_add]; rw [h2]; exact hC)
    (fun k acc' _ _ g1 g2 g3 g4 => hrow k acc' g1 g2 g3 g4)
  rw [hmain]
  simp only [zero_add]
  rw [h1, h2]

theorem directLevel_eq (img s aux : Image) (hwf : img.WF) (hsw : s.width = img.width)
    (hsh : s.height = img.height)
    (haux : ∀ k l, ImageValidPos img k l = true → ImageGetPixel aux k l = some (img.pix k l))
    (i j dx dy : Int) (hv : ImageValidPos img i j = true) (hdx : 0 ≤ dx) (hdy : 0 ≤ dy)
    (hfx : img.width + dx < 2 ^ 31) (hfy : img.height + dy < 2 ^ 31)
    (hbound : img.width * img.height * 256 ≤ 2 ^ 31) :
    directLevel s aux i j dx dy = some (windowMean img i j dx dy) := by
  obtain ⟨hi0, hi, hj0, hj⟩ := (validPos_iff img i j).1 hv
  obtain ⟨hlt, hpos, hS, hC⟩ := window_facts img hwf i j dx dy hv hdx hdy
  have hS' : (windowSum img i j dx dy : Int) ≤ 255 * (windowCount img i j dx dy : Int) := by
    exact_mod_cast hS
  have hpos' : (0 : Int) < (windowCount img i j dx dy : Int) := by exact_mod_cast hpos
  have i1 : intOf (i - dx) = some (i - dx) := intOf_eq _ (by omega) (by omega)
  have i2 : intOf (i + dx) = some (i + dx) := intOf_eq _ (by omega) (by omega)
  have hwin := direct_window img s aux hwf hsw hsh haux i j dx dy hi0 hj0 hdx hdy (by omega)
    (by omega) (by omega) (by omega)
  have hc : ((windowCount img i j dx dy : Nat) : Int) ≠ 0 := by omega
  have e2 : ((windowCount img i j dx dy : Nat) : Int) / 2 =
      ((windowCount img i j dx dy / 2 : Nat) : Int) := by norm_cast
  have i3 : intOf ((windowSum img i j dx dy : Int) +
      Int.tdiv (windowCount img i j dx dy : Int) 2) =
      some (((windowSum img i j dx dy + windowCount img i j dx dy / 2 : Nat)) : Int) := by
    rw [Int.tdiv_eq_ediv (Int.natCast_nonneg _) (by norm_num), e2, ← Nat.cast_add]
    refine intOf_eq _ (by omega) ?_
    have : ((windowCount img i j dx dy / 2 : Nat) : Int) ≤ (windowCount img i j dx dy : Int) - 1
        ∨ (windowCount img i j dx dy : Int) = 0 := by omega
    push_cast
    omega
  unfold directLevel
  simp only [i1, i2]
  rw [hwin]
  simp only
  rw [if_neg hc, i3]
  simp only
  refine congrArg some ?_
  rw [Int.tdiv_eq_ediv (Int.natCast_nonneg _) (Int.natCast_nonneg _), ← Int.natCast_div]
  unfold windowMean at hlt ⊢
  generalize (windowSum img i j dx dy + windowCount img i j dx dy / 2) /
    windowCount img i j dx dy = q at hlt ⊢
  omega

theorem image_ext (s t : Image) (hs : s.WF) (ht : t.WF) (hw : s.width = t.width)
    (hh : s.height = t.height) (hm : s.maxval = t.maxval)
    (hp : ∀ x y, ImageValidPos s x y = true → s.pix x y = t.pix x y) : s = t := by
  have hls := hs.2.2.2.2.1
  have hlt := ht.2.2.2.2.1
  have hw0 := hs.1
  have hlen : s.pixel.length = t.pixel.length := by
    have : (s.pixel.length : Int) = t.pixel.length := by rw [hls, hlt, hw, hh]
    exact_mod_cast this
  have hpix : s.pixel = t.pixel := by
    refine List.ext_getElem hlen (fun n h1 h2 => ?_)
    have hwpos : 0 < s.width := by
      rcases lt_or_eq_of_le hw0 with h | h
      · exact h
      · rw [← h] at hls
        simp only [zero_mul] at hls
        omega
    have hx0 : 0 ≤ (n : Int) % s.width := Int.emod_nonneg _ (by omega)
    have hx1 : (n : Int) % s.width < s.width := Int.emod_lt_of_pos _ hwpos
    have hy0 : 0 ≤ (n : Int) / s.width := Int.ediv_nonneg (by omega) hw0
    have hy1 : (n : Int) / s.width < s.height := by
      rw [Int.ediv_lt_iff_lt_mul hwpos, mul_comm, ← hls]
      exact_mod_cast h1
    have hidx : (n : Int) % s.width + (n : Int) / s.width * s.width = n := by
      rw [mul_comm]; exact Int.emod_add_ediv _ _
    have hv : ImageValidPos s ((n : Int) % s.width) ((n : Int) / s.width) = true :=
      (validPos_iff s _ _).2 ⟨hx0, hx1, hy0, hy1⟩
    have := hp _ _ hv
    unfold Image.pix at this
    rw [← hw, hidx] at this
    simpa [List.getD_eq_getElem?_getD, List.getElem?_eq_getElem h1,
      List.getElem?_eq_getElem h2] using this
  cases s
  cases t
  simp only at hw hh hm hpix
  rw [hw, hh, hm, hpix]

theorem create_eq (w h : Int) (hw : 0 ≤ w) (hh : 0 ≤ h) (mv : Int) (h0 : 0 < mv)
    (h1 : mv ≤ PixMax) :
    ImageCreate true w h (mv % 256).toNat =
      some (some { width := w, height := h, maxval := mv,
                   pixel := List.replicate (w * h).toNat 0 }) := by
  have hP : (PixMax : Int) = 255 := rfl
  have hmv : ((mv % 256).toNat : Int) = mv := by omega
  have hmv0 : 0 < (mv % 256).toNat := by omega
  have hmv1 : (mv % 256).toNat ≤ PixMax := by
    have : ((mv % 256).toNat : Int) ≤ (PixMax : Int) := by omega
    exact_mod_cast this
  simp [ImageCreate, hw, hh, hmv0, hmv1, hmv]

theorem blurDirect_pixels (img : Image) (hwf : img.WF) (dx dy : Int) (hdx : 0 ≤ dx)
    (hdy : 0 ≤ dy) (hfx : img.width + dx < 2 ^ 31) (hfy : img.height + dy < 2 ^ 31)
    (hbound : img.width * img.height * 256 ≤ 2 ^ 31) :
    ∃ out, ImageBlurDirect true img dx dy = some out ∧ out.WF ∧ out.width = img.width ∧
      out.height = img.height ∧ out.maxval = img.maxval ∧
      ∀ x y, ImageValidPos img x y = true → out.pix x y = windowMean img x y dx dy := by
  have hlen := hwf.2.2.2.2.1
  have hn : (img.width * img.height).toNat = img.pixel.length := by omega
  have hcopy : List.take (img.width * img.height).toNat img.pixel ++
      List.drop (img.width * img.height).toNat
        (List.replicate (img.width * img.height).toNat 0) = img.pixel := by
    rw [hn]
    simp
  have haux : ∀ k l, ImageValidPos img k l = true →
      ImageGetPixel (Image.mk img.width img.height img.maxval img.pixel) k l =
        some (img.pix k l) := fun k l hv =>
    getPixel_eq _ hlen hv
  obtain ⟨out, hloop, howf, how, hoh, hom, hdone, _⟩ :=
    fill_spec_dyn img hwf img.width img.height hwf.1 hwf.2.1 (fun x _ => x) (fun _ y => y)
      (fun x y => windowMean img x y dx dy) (fun s => s.height)
      (fun i j s =>
        match directLevel s (Image.mk img.width img.height img.maxval img.pixel) i j dx dy with
        | none => none
        | some level => ImageSetPixel s i j level)
      (fun x y h1 h2 h3 h4 => (validPos_iff img x y).2 ⟨h1, h2, h3, h4⟩)
      (fun i j i' j' _ _ _ _ _ _ _ _ e1 e2 => ⟨e1, e2⟩)
      (fun _ _ hI => hI.2.2.1)
      (fun i j s h1 h2 h3 h4 hI => by
        have hv : ImageValidPos img i j = true := (validPos_iff img i j).2 ⟨h1, h2, h3, h4⟩
        simp only [directLevel_eq img s _ hwf hI.2.1 hI.2.2.1 haux i j dx dy hv hdx hdy hfx hfy
          hbound])
  refine ⟨out, ?_, howf, how, hoh, hom, ?_⟩
  · simp only [ImageBlurDirect, create_eq img.width img.height hwf.1 hwf.2.1 img.maxval
      hwf.2.2.1 hwf.2.2.2.1, hcopy]
    exact hloop
  · intro x y hv
    obtain ⟨hx0, hx, hy0, hy⟩ := (validPos_iff img x y).1 hv
    have h := hdone x y ⟨hx0, hy0, hy, Or.inl hx⟩
    simp only at h
    rw [h, Nat.mod_eq_of_lt (window_facts img hwf x y dx dy hv hdx hdy).1]

/-! ## The window that covers the whole image -/

theorem sum_range_mul (g : Nat → Nat) (W : Nat) :
    ∀ H : Nat, ∑ i in Finset.range (W * H), g i =
      ∑ l in Finset.range H, ∑ k in Finset.range W, g (k + l * W) := by
  intro H
  induction H with
  | zero => simp
  | succ n ih =>
    rw [Nat.mul_succ, Finset.sum_range_add, ih, Finset.sum_range_succ]
    congr 1
    refine Finset.sum_congr rfl (fun k _ => ?_)
    congr 1
    ring

theorem list_sum_eq_range (l : List Nat) :
    l.sum = ∑ i in Finset.range l.length, l.getD i 0 := by
  rw [← Fin.sum_univ_get l, Finset.sum_range]
  refine Finset.sum_congr rfl (fun i _ => ?_)
  simp [List.getD_eq_getElem?_getD, List.getElem?_eq_getElem i.2]

theorem pixel_sum_eq (img : Image) (hwf : img.WF) :
    img.pixel.sum =
      areaSum (fun k l => img.pix k l) img.width.toNat img.height.toNat := by
  obtain ⟨W, hW⟩ := Int.eq_ofNat_of_zero_le hwf.1
  obtain ⟨H, hH⟩ := Int.eq_ofNat_of_zero_le hwf.2.1
  have hlen : img.pixel.length = W * H := by
    have h := hwf.2.2.2.2.1
    rw [hW, hH] at h
    exact_mod_cast h
  rw [list_sum_eq_range, hlen, sum_range_mul, areaSum, hW, hH, Int.toNat_ofNat, Int.toNat_ofNat,
    Finset.sum_comm]
  refine Finset.sum_congr rfl (fun l _ => Finset.sum_congr rfl (fun k _ => ?_))
  unfold Image.pix
  rw [hW]
  congr 1

theorem windowSum_full (img : Image) (x y dx dy : Int)
    (hv : ImageValidPos img x y = true) (hdx : img.width ≤ dx) (hdy : img.height ≤ dy) :
    windowSum img x y dx dy =
      areaSum (fun k l => img.pix k l) img.width.toNat img.height.toNat ∧
    windowCount img x y dx dy = img.width.toNat * img.height.toNat := by
  obtain ⟨hx0, hx, hy0, hy⟩ := (validPos_iff img x y).1 hv
  have hin : ∀ k ∈ Finset.range img.width.toNat, ∀ l ∈ Finset.range img.height.toNat,
      (x - dx ≤ (k : Int) ∧ (k : Int) ≤ x + dx ∧ y - dy ≤ (l : Int) ∧ (l : Int) ≤ y + dy) := by
    intro k hk l hl
    have hk' := Finset.mem_range.1 hk
    have hl' := Finset.mem_range.1 hl
    omega
  constructor
  · unfold windowSum areaSum
    exact Finset.sum_congr rfl (fun k hk => Finset.sum_congr rfl (fun l hl =>
      if_pos (hin k hk l hl)))
  · unfold windowCount
    rw [Finset.sum_congr rfl (fun k hk => Finset.sum_congr rfl (fun l hl =>
      if_pos (hin k hk l hl)))]
    simp

/-! ## Blur (C3) -/

theorem forLoop_first_none {σ : Type} (n : Int) (hn : 0 < n) (body : Int → σ → Option σ)
    (s : σ) (h : body 0 s = none) : forLoop n body s = none := by
  obtain ⟨m, hm⟩ : ∃ m, n.toNat = m + 1 := ⟨n.toNat - 1, by omega⟩
  unfold forLoop
  rw [hm]
  simp [loopFrom, h]

theorem blur_abort (img : Image) (dx dy : Int) (sum : Int → Int → Nat)
    (hsum : blurTable img (fun _ _ => 0) = some sum) (x y : Int) (hx0 : 0 ≤ x)
    (hx : x < img.width) (hy0 : 0 ≤ y) (hy : y < img.height)
    (hlevel : blurLevel sum img.width img.height x y dx dy = none) :
    ImageBlur img dx dy = none := by
  simp only [ImageBlur, hsum]
  exact forLoop_abort _ _ x hx0 hx (fun s =>
    forLoop_abort _ _ y hy0 hy (fun s' => by simp only [hlevel]) s) _

theorem blurLevel_overflow (sum : Int → Int → Nat) (w h x y dx dy : Int)
    (hov : 2 ^ 31 ≤ x + dx ∨ 2 ^ 31 ≤ y + dy) : blurLevel sum w h x y dx dy = none := by
  rcases hov with hov | hov
  · simp [blurLevel, intOf_none _ hov]
  · cases h1 : intOf (x + dx) <;> cases h2 : intOf (x - dx) <;>
      simp [blurLevel, h1, h2, intOf_none _ hov]

/-- When `x+dx` or `y+dy` overflows an `int` at some position of the image, `ImageBlur`
does not run to the end. -/
theorem blur_overflow (img : Image) (hwf : img.WF) (dx dy x y : Int)
    (hv : ImageValidPos img x y = true) (hov : 2 ^ 31 ≤ x + dx ∨ 2 ^ 31 ≤ y + dy) :
    ImageBlur img dx dy = none := by
  obtain ⟨sum, hsum, _⟩ := blurTable_mod img hwf (fun _ _ => 0)
  obtain ⟨hx0, hx, hy0, hy⟩ := (validPos_iff img x y).1 hv
  exact blur_abort img dx dy sum hsum x y hx0 hx hy0 hy
    (blurLevel_overflow sum _ _ x y dx dy hov)

/-- When the level of the first pixel cannot be computed, the direct filter does not run to
the end. -/
theorem blurDirect_abort (img : Image) (hwf : img.WF) (hw : 0 < img.width)
    (hh : 0 < img.height) (dx dy : Int)
    (hlevel : directLevel img (Image.mk img.width img.height img.maxval img.pixel) 0 0 dx dy =
      none) :
    ImageBlurDirect true img dx dy = none := by
  have hlen := hwf.2.2.2.2.1
  have hn : (img.width * img.height).toNat = img.pixel.length := by omega
  have hcopy : List.take (img.width * img.height).toNat img.pixel ++
      List.drop (img.width * img.height).toNat
        (List.replicate (img.width * img.height).toNat 0) = img.pixel := by
    rw [hn]
    simp
  simp only [ImageBlurDirect, create_eq img.width img.height hwf.1 hwf.2.1 img.maxval
    hwf.2.2.1 hwf.2.2.2.1, hcopy]
  exact forLoop_first_none _ hw _ _ (forLoop_first_none _ hh _ _ (by simp only [hlevel]))

theorem directLevel_counter (img aux : Image) (i j dx dy : Int) (hdx : 0 ≤ dx) (hi0 : 0 ≤ i)
    (hov : i + dx = 2 ^ 31 - 1) : directLevel img aux i j dx dy = none := by
  have i1 : intOf (i - dx) = some (i - dx) := intOf_eq _ (by omega) (by omega)
  have i2 : intOf (i + dx) = some (i + dx) := intOf_eq _ (by omega) (by omega)
  have i3 : intOf (i + dx + 1) = none := intOf_none _ (by omega)
  unfold directLevel
  simp only [i1, i2]
  unfold forRange
  rw [if_pos (by omega), i3]

theorem brightRow_wf : brightRow.WF := by
  refine ⟨by decide, by decide, by decide, by decide, ?_, ?_⟩
  · show ((List.replicate 8421504 255).length : Int) = 8421504 * 1
    rw [List.length_replicate]
    norm_num
  · intro p hp
    have : p = 255 := List.eq_of_mem_replicate hp
    omega

theorem brightRow_window :
    windowSum brightRow 0 0 8421504 1 = 2147483520 ∧
      windowCount brightRow 0 0 8421504 1 = 8421504 := by
  have hv : ImageValidPos brightRow 0 0 = true :=
    (validPos_iff brightRow 0 0).2 ⟨by decide, by decide, by decide, by decide⟩
  obtain ⟨h1, h2⟩ := windowSum_full brightRow 0 0 8421504 1 hv (by decide) (by decide)
  rw [h1, h2, ← pixel_sum_eq brightRow brightRow_wf]
  constructor
  · show (List.replicate 8421504 255).sum = 2147483520
    rw [List.sum_replicate]
    norm_num
  · show (8421504 : Int).toNat * (1 : Int).toNat = 8421504
    decide

theorem directLevel_acc_overflow (img s aux : Image) (hwf : img.WF)
    (hsw : s.width = img.width) (hsh : s.height = img.height)
    (haux : ∀ k l, ImageValidPos img k l = true → ImageGetPixel aux k l = some (img.pix k l))
    (i j dx dy : Int) (hi0 : 0 ≤ i) (hj0 : 0 ≤ j) (hdx : 0 ≤ dx) (hdy : 0 ≤ dy)
    (hfx : i + dx + 1 < 2 ^ 31) (hfy : j + dy + 1 < 2 ^ 31)
    (hS : (windowSum img i j dx dy : Int) ≤ 2 ^ 31 - 1)
    (hC : (windowCount img i j dx dy : Int) ≤ 2 ^ 31 - 1)
    (hpos : 0 < windowCount img i j dx dy)
    (hov : (2 : Int) ^ 31 ≤ (windowSum img i j dx dy : Int) +
      (windowCount img i j dx dy : Int) / 2) :
    directLevel s aux i j dx dy = none := by
  have i1 : intOf (i - dx) = some (i - dx) := intOf_eq _ (by omega) (by omega)
  have i2 : intOf (i + dx) = some (i + dx) := intOf_eq _ (by omega) (by omega)
  have hwin := direct_window img s aux hwf hsw hsh haux i j dx dy hi0 hj0 hdx hdy hfx hfy hS hC
  have hc : ((windowCount img i j dx dy : Nat) : Int) ≠ 0 := by omega
  have i3 : intOf ((windowSum img i j dx dy : Int) +
      Int.tdiv (windowCount img i j dx dy : Int) 2) = none := by
    rw [Int.tdiv_eq_ediv (Int.natCast_nonneg _) (by norm_num)]
    exact intOf_none _ hov
  unfold directLevel
  simp only [i1, i2]
  rw [hwin]
  simp only
  rw [if_neg hc, i3]

theorem brightRow_level :
    directLevel brightRow (Image.mk brightRow.width brightRow.height brightRow.maxval
      brightRow.pixel) 0 0 8421504 1 = none := by
  have haux : ∀ k l, ImageValidPos brightRow k l = true →
      ImageGetPixel (Image.mk brightRow.width brightRow.height brightRow.maxval
        brightRow.pixel) k l = some (brightRow.pix k l) := fun k l hv =>
    getPixel_eq _ brightRow_wf.2.2.2.2.1 hv
  obtain ⟨hS, hC⟩ := brightRow_window
  exact directLevel_acc_overflow brightRow brightRow _ brightRow_wf rfl rfl haux 0 0 8421504 1
    (le_refl _) (le_refl _) (by norm_num) (by norm_num) (by norm_num) (by norm_num)
    (by rw [hS]; norm_num) (by rw [hC]; norm_num) (by rw [hC]; norm_num)
    (by rw [hS, hC]; norm_num)

/-- C3 (as stated, refuted): on a 2x1 image, `ImageBlur(img, 2147483647, 0)` does not run to
the end, because `x+dx` overflows an `int` at `x = 1`.  The direct filter of the comment
differs from the compiled one on two more inputs of the claim: on a 1x1 image with
`dx = 2147483647` its loop counter `k` overflows, and on the one-row image of 8421504 pixels
255 with `dx = 8421504`, `dy = 1` its `int` expression `sum+count/2` overflows, while the
compiled `ImageBlur` returns an image on both. -/
theorem blur_offset_overflow :
    ((Image.mk 2 1 255 [10, 20]).WF ∧ ImageBlur ⟨2, 1, 255, [10, 20]⟩ 2147483647 0 = none) ∧
    ((∃ out, ImageBlur ⟨1, 1, 255, [7]⟩ 2147483647 0 = some out) ∧
      ImageBlurDirect true ⟨1, 1, 255, [7]⟩ 2147483647 0 = none) ∧
    (brightRow.WF ∧ brightRow.width * brightRow.height * 255 < 2 ^ 32 ∧
      (∃ out, ImageBlur brightRow 8421504 1 = some out) ∧
      ImageBlurDirect true brightRow 8421504 1 = none) := by
  have hb : brightRow.width * brightRow.height * 255 < 2 ^ 32 := by
    show (8421504 : Int) * 1 * 255 < 2 ^ 32
    norm_num
  refine ⟨⟨by decide, ?_⟩, ⟨?_, ?_⟩, brightRow_wf, hb, ?_, ?_⟩
  · exact blur_overflow ⟨2, 1, 255, [10, 20]⟩ (by decide) 2147483647 0 1 0 (by decide)
      (Or.inl (by norm_num))
  · obtain ⟨out, h, _⟩ := blur_pixels ⟨1, 1, 255, [7]⟩ (by decide) (by decide) 2147483647 0
      (by decide) (by decide) (fun _ => by decide) (fun _ => by decide)
    exact ⟨out, h⟩
  · exact blurDirect_abort ⟨1, 1, 255, [7]⟩ (by decide) (by decide) (by decide) 2147483647 0
      (directLevel_counter _ _ 0 0 2147483647 0 (by decide) (le_refl _) (by norm_num))
  · obtain ⟨out, h, _⟩ := blur_pixels brightRow brightRow_wf hb 8421504 1
      (by decide) (by decide) (fun _ => by show (8421504 : Int) + 8421504 ≤ 2 ^ 31; norm_num)
      (fun _ => by show (1 : Int) + 1 ≤ 2 ^ 31; norm_num)
    exact ⟨out, h⟩
  · exact blurDirect_abort brightRow brightRow_wf (by decide) (by decide) 8421504 1
      brightRow_level

/-- C3 (amended): for every non-empty image with `width*height*255 < 2^32` and every
`dx >= 0`, `dy >= 0` with `width + dx <= 2^31` and `height + dy <= 2^31` (so that `x+dx` and
`y+dy` are `int` values at every position), the summed-area-table `ImageBlur` runs without a
failed assertion, keeps the header, and leaves at every position `(x, y)` the value
`(sum + count/2) / count` in integer division, `sum` and `count` being the sum and the number
of the original pixels in the window `[x-dx, x+dx] x [y-dy, y+dy]` clipped to the image; and
when moreover `width*height*256 <= 2^31`, `width + dx < 2^31` and `height + dy < 2^31` (so
that the `int` accumulators and loop counters of the direct filter do not overflow), the
direct windowed mean filter that the source keeps in a comment computes the same image. -/
theorem blur_refines_mean (img : Image) (hwf : img.WF) (_hw : 0 < img.width)
    (_hh : 0 < img.height) (hbound : img.width * img.height * 255 < 2 ^ 32) (dx dy : Int)
    (hdx : 0 ≤ dx) (hdy : 0 ≤ dy) (hfx : img.width + dx ≤ 2 ^ 31)
    (hfy : img.height + dy ≤ 2 ^ 31) :
    ∃ out, ImageBlur img dx dy = some out ∧
      out.width = img.width ∧ out.height = img.height ∧ out.maxval = img.maxval ∧
      (∀ x y, ImageValidPos img x y = true →
        ImageGetPixel out x y =
          some ((windowSum img x y dx dy + windowCount img x y dx dy / 2) /
            windowCount img x y dx dy)) ∧
      (img.width * img.height * 256 ≤ 2 ^ 31 → img.width + dx < 2 ^ 31 →
        img.height + dy < 2 ^ 31 → ImageBlurDirect true img dx dy = some out) := by
  obtain ⟨out, hb, howf, how, hoh, hom, hpx⟩ :=
    blur_pixels img hwf hbound dx dy hdx hdy (fun _ => hfx) (fun _ => hfy)
  refine ⟨out, hb, how, hoh, hom, ?_, ?_⟩
  · intro x y hv
    have hvo : ImageValidPos out x y = true := by rw [validPos_congr how hoh]; exact hv
    rw [getPixel_eq out howf.2.2.2.2.1 hvo, hpx x y hv]
    rfl
  · intro hb256 hfx' hfy'
    obtain ⟨out', hb', howf', how', hoh', hom', hpx'⟩ :=
      blurDirect_pixels img hwf dx dy hdx hdy hfx' hfy' hb256
    have heq : out' = out := image_ext out' out howf' howf (how'.trans how.symm)
      (hoh'.trans hoh.symm) (hom'.trans hom.symm) (fun x y hv => by
        have hv' : ImageValidPos img x y = true := by
          rw [← validPos_congr how' hoh']; exact hv
        rw [hpx' x y hv', hpx x y hv'])
    rw [hb', heq]

theorem blur_refines_mean_witness :
    ∃ out, ImageBlur ⟨3, 2, 255, [10, 20, 30, 40, 50, 61]⟩ 1 1 = some out ∧
      out.width = 3 ∧ out.height = 2 ∧ out.maxval = 255 ∧
      (∀ x y, ImageValidPos ⟨3, 2, 255, [10, 20, 30, 40, 50, 61]⟩ x y = true →
        ImageGetPixel out x y =
          some ((windowSum ⟨3, 2, 255, [10, 20, 30, 40, 50, 61]⟩ x y 1 1 +
              windowCount ⟨3, 2, 255, [10, 20, 30, 40, 50, 61]⟩ x y 1 1 / 2) /
            windowCount ⟨3, 2, 255, [10, 20, 30, 40, 50, 61]⟩ x y 1 1)) ∧
      ImageBlurDirect true ⟨3, 2, 255, [10, 20, 30, 40, 50, 61]⟩ 1 1 = some out := by
  obtain ⟨out, h1, h2, h3, h4, h5, h6⟩ :=
    blur_refines_mean ⟨3, 2, 255, [10, 20, 30, 40, 50, 61]⟩ (by decide) (by decide) (by decide)
      (by decide) 1 1 (by decide) (by decide) (by decide) (by decide)
  exact ⟨out, h1, h2, h3, h4, h5, h6 (by decide) (by decide) (by decide)⟩

/-! ## Four rotations (C11) -/

theorem rotate_pixels (img : Image) (hwf : img.WF) :
    ∃ out, ImageRotate true img = some (some out) ∧ out.WF ∧
      out.width = img.height ∧ out.height = img.width ∧ out.maxval = img.maxval ∧
      ∀ a b, 0 ≤ a → a < img.height → 0 ≤ b → b < img.width →
        out.pix a b = img.pix (img.width - 1 - b) a := by
  obtain ⟨nImg, hcr, hnwf, hnw, hnh, hnm⟩ :=
    create_ok img.height img.width hwf.2.1 hwf.1 img.maxval hwf.2.2.1 hwf.2.2.2.1
  have hsrc : ∀ i y, 0 ≤ i → i < img.height → 0 ≤ y → y < img.width →
      ImageValidPos img y i = true := fun i y h1 h2 h3 h4 =>
    (validPos_iff img _ _).2 ⟨h3, h4, h1, h2⟩
  have hdst : ∀ i y, 0 ≤ i → i < img.height → 0 ≤ y → y < img.width →
      ImageValidPos nImg i (img.width - 1 - y) = true := fun i y h1 h2 h3 h4 =>
    (validPos_iff nImg _ _).2 ⟨h1, by omega, by omega, by omega⟩
  obtain ⟨out, hloop, howf, how, hoh, hom, hdone, _⟩ :=
    fill_spec nImg hnwf img.height img.width hwf.2.1 hwf.1 (fun i _ => i)
      (fun _ y => img.width - 1 - y) (fun i y => img.pix y i)
      (fun i y s => match ImageGetPixel img y i with
        | none => none
        | some p => ImageSetPixel s i (img.width - 1 - y) p)
      hdst
      (fun i j i' j' _ _ _ _ _ _ _ _ e1 e2 => ⟨e1, by simp only at e2; omega⟩)
      (fun i y s h1 h2 h3 h4 _ => by
        simp only [getPixel_eq img hwf.2.2.2.2.1 (hsrc i y h1 h2 h3 h4)])
  refine ⟨out, ?_, howf, how.trans hnw, hoh.trans hnh, hom.trans hnm, ?_⟩
  · simp only [ImageRotate, hcr]
    exact congrArg (Option.map some) hloop
  · intro a b h1 h2 h3 h4
    have := hdone a (img.width - 1 - b) ⟨h1, by omega, by omega, Or.inl h2⟩
    simp only at this
    have e : img.width - 1 - (img.width - 1 - b) = b := by omega
    rw [e] at this
    rw [this, Nat.mod_eq_of_lt (pix_lt img hwf (hsrc a _ h1 h2 (by omega) (by omega)))]

/-- C11: for every image, square or not, four successive calls of `ImageRotate` (allocation
succeeding) run without a failed assertion and the fourth result is the original image: same
width, height, maxval and pixels. -/
theorem rotate_four_times (img : Image) (hwf : img.WF) :
    ∃ r1 r2 r3, ImageRotate true img = some (some r1) ∧ ImageRotate true r1 = some (some r2) ∧
      ImageRotate true r2 = some (some r3) ∧ ImageRotate true r3 = some (some img) := by
  obtain ⟨r1, h1, wf1, w1, hh1, m1, p1⟩ := rotate_pixels img hwf
  obtain ⟨r2, h2, wf2, w2, hh2, m2, p2⟩ := rotate_pixels r1 wf1
  obtain ⟨r3, h3, wf3, w3, hh3, m3, p3⟩ := rotate_pixels r2 wf2
  obtain ⟨r4, h4, wf4, w4, hh4, m4, p4⟩ := rotate_pixels r3 wf3
  have heq : r4 = img := by
    refine image_ext r4 img wf4 hwf (by omega) (by omega) (by omega) (fun a b hv => ?_)
    obtain ⟨ha0, ha, hb0, hb⟩ := (validPos_iff r4 a b).1 hv
    rw [p4 a b ha0 (by omega) hb0 (by omega),
      p3 _ _ (by omega) (by omega) ha0 (by omega),
      p2 _ _ (by omega) (by omega) (by omega) (by omega),
      p1 _ _ (by omega) (by omega) (by omega) (by omega)]
    congr 1 <;> omega
  exact ⟨r1, r2, r3, h1, h2, h3, by rw [h4, heq]⟩

theorem rotate_four_times_witness :
    ∃ r1 r2 r3, ImageRotate true ⟨3, 2, 255, [10, 20, 30, 40, 50, 61]⟩ = some (some r1) ∧
      ImageRotate true r1 = some (some r2) ∧ ImageRotate true r2 = some (some r3) ∧
      ImageRotate true r3 = some (some ⟨3, 2, 255, [10, 20, 30, 40, 50, 61]⟩) :=
  rotate_four_times ⟨3, 2, 255, [10, 20, 30, 40, 50, 61]⟩ (by decide)

/-! ## Mirror (C12) -/

theorem mirror_pixels (img : Image) (hwf : img.WF) :
    ∃ out, ImageMirror true img = some (some out) ∧ out.WF ∧
      out.width = img.width ∧ out.height = img.height ∧ out.maxval = img.maxval ∧
      ∀ a b, 0 ≤ a → a < img.width → 0 ≤ b → b < img.height →
        out.pix (img.width - 1 - a) b = img.pix a b := by
  obtain ⟨nImg, hcr, hnwf, hnw, hnh, hnm⟩ :=
    create_ok img.width img.height hwf.1 hwf.2.1 img.maxval hwf.2.2.1 hwf.2.2.2.1
  have hsrc : ∀ i y, 0 ≤ i → i < img.width → 0 ≤ y → y < img.height →
      ImageValidPos img i y = true := fun i y h1 h2 h3 h4 =>
    (validPos_iff img _ _).2 ⟨h1, h2, h3, h4⟩
  have hdst : ∀ i y, 0 ≤ i → i < img.width → 0 ≤ y → y < img.height →
      ImageValidPos nImg (img.width - 1 - i) y = true := fun i y h1 h2 h3 h4 =>
    (validPos_iff nImg _ _).2 ⟨by omega, by omega, h3, by omega⟩
  obtain ⟨out, hloop, howf, how, hoh, hom, hdone, _⟩ :=
    fill_spec nImg hnwf img.width img.height hwf.1 hwf.2.1 (fun i _ => img.width - 1 - i)
      (fun _ y => y) (fun i y => img.pix i y)
      (fun i y s => match ImageGetPixel img i y with
        | none => none
        | some p => ImageSetPixel s (img.width - 1 - i) y p)
      hdst
      (fun i j i' j' _ _ _ _ _ _ _ _ e1 e2 => ⟨by simp only at e1; omega, e2⟩)
      (fun i y s h1 h2 h3 h4 _ => by
        simp only [getPixel_eq img hwf.2.2.2.2.1 (hsrc i y h1 h2 h3 h4)])
  refine ⟨out, ?_, howf, how.trans hnw, hoh.trans hnh, hom.trans hnm, ?_⟩
  · simp only [ImageMirror, hcr]
    exact congrArg (Option.map some) hloop
  · intro a b h1 h2 h3 h4
    have := hdone a b ⟨h1, h3, h4, Or.inl h2⟩
    simp only at this
    rw [this, Nat.mod_eq_of_lt (pix_lt img hwf (hsrc a b h1 h2 h3 h4))]

/-- C12: for every image, `ImageMirror` (allocation succeeding) returns an image of the same
width, height and maxval whose pixel `(width-1-x, y)` is the pixel `(x, y)` of the input, and
`ImageMirror` of that result is the original image. -/
theorem mirror_spec (img : Image) (hwf : img.WF) :
    ∃ out, ImageMirror true img = some (some out) ∧
      out.width = img.width ∧ out.height = img.height ∧ out.maxval = img.maxval ∧
      (∀ x y, 0 ≤ x → x < img.width → 0 ≤ y → y < img.height →
        ∃ p, ImageGetPixel img x y = some p ∧
          ImageGetPixel out (img.width - 1 - x) y = some p) ∧
      ImageMirror true out = some (some img) := by
  obtain ⟨m1, h1, wf1, w1, hh1, mv1, p1⟩ := mirror_pixels img hwf
  obtain ⟨m2, h2, wf2, w2, hh2, mv2, p2⟩ := mirror_pixels m1 wf1
  have heq : m2 = img := by
    refine image_ext m2 img wf2 hwf (by omega) (by omega) (by omega) (fun a b hv => ?_)
    obtain ⟨ha0, ha, hb0, hb⟩ := (validPos_iff m2 a b).1 hv
    have e2 := p2 (m1.width - 1 - a) b (by omega) (by omega) hb0 (by omega)
    have e1 := p1 a b ha0 (by omega) hb0 (by omega)
    have e : m1.width - 1 - (m1.width - 1 - a) = a := by omega
    rw [e] at e2
    rw [e2, w1, e1]
  refine ⟨m1, h1, w1, hh1, mv1, ?_, by rw [h2, heq]⟩
  intro x y hx0 hx hy0 hy
  have hv : ImageValidPos img x y = true := (validPos_iff img x y).2 ⟨hx0, hx, hy0, hy⟩
  have hv1 : ImageValidPos m1 (img.width - 1 - x) y = true :=
    (validPos_iff m1 _ _).2 ⟨by omega, by omega, hy0, by omega⟩
  exact ⟨img.pix x y, getPixel_eq img hwf.2.2.2.2.1 hv, by
    rw [getPixel_eq m1 wf1.2.2.2.2.1 hv1, p1 x y hx0 hx hy0 hy]⟩

theorem mirror_spec_witness :
    ∃ out, ImageMirror true ⟨3, 2, 255, [10, 20, 30, 40, 50, 61]⟩ = some (some out) ∧
      out.width = (Image.mk 3 2 255 [10, 20, 30, 40, 50, 61]).width ∧
      out.height = (Image.mk 3 2 255 [10, 20, 30, 40, 50, 61]).height ∧
      out.maxval = (Image.mk 3 2 255 [10, 20, 30, 40, 50, 61]).maxval ∧
      (∀ x y, 0 ≤ x → x < (Image.mk 3 2 255 [10, 20, 30, 40, 50, 61]).width → 0 ≤ y →
        y < (Image.mk 3 2 255 [10, 20, 30, 40, 50, 61]).height →
        ∃ p, ImageGetPixel ⟨3, 2, 255, [10, 20, 30, 40, 50, 61]⟩ x y = some p ∧
          ImageGetPixel out ((Image.mk 3 2 255 [10, 20, 30, 40, 50, 61]).width - 1 - x) y =
            some p) ∧
      ImageMirror true out = some (some ⟨3, 2, 255, [10, 20, 30, 40, 50, 61]⟩) :=
  mirror_spec ⟨3, 2, 255, [10, 20, 30, 40, 50, 61]⟩ (by decide)

/-! ## Pointwise transformations (C13, C14) -/

theorem fillInv_read (img0 : Image) (m : Int) (f : Int → Int → Nat) (i j : Int) (s : Image)
    (hI : FillInv img0 m (fun i _ => i) (fun _ j => j) f i j s)
    (hv : ImageValidPos img0 i j = true) : ImageGetPixel s i j = some (img0.pix i j) := by
  obtain ⟨hwf, hw, hh, _, _, hframe⟩ := hI
  have hvs : ImageValidPos s i j = true := by rw [validPos_congr hw hh]; exact hv
  rw [getPixel_eq s hwf.2.2.2.2.1 hvs]
  refine congrArg some (hframe i j hv (fun i' j' hvis hc => ?_))
  obtain ⟨_, _, _, h4⟩ := hvis
  simp only at hc
  omega

theorem pointwise_spec (img : Image) (hwf : img.WF) (g : Nat → Nat)
    (body : Int → Int → Image → Option Image)
    (hbody : ∀ x y s p, s.maxval = img.maxval → ImageGetPixel s x y = some p →
      body x y s = ImageSetPixel s x y (g p)) :
    ∃ out, forLoop img.width (fun x s => forLoop s.height (fun y s => body x y s) s) img =
        some out ∧ out.WF ∧ out.width = img.width ∧ out.height = img.height ∧
      out.maxval = img.maxval ∧
      ∀ x y, ImageValidPos img x y = true → out.pix x y = g (img.pix x y) % 256 := by
  obtain ⟨out, hloop, howf, how, hoh, hom, hdone, _⟩ :=
    fill_spec_dyn img hwf img.width img.height hwf.1 hwf.2.1 (fun x _ => x) (fun _ y => y)
      (fun x y => g (img.pix x y)) (fun s => s.height) body
      (fun x y h1 h2 h3 h4 => (validPos_iff img x y).2 ⟨h1, h2, h3, h4⟩)
      (fun i j i' j' _ _ _ _ _ _ _ _ e1 e2 => ⟨e1, e2⟩)
      (fun _ _ hI => hI.2.2.1)
      (fun x y s h1 h2 h3 h4 hI =>
        hbody x y s _ hI.2.2.2.1
          (fillInv_read img img.height _ x y s hI ((validPos_iff img x y).2 ⟨h1, h2, h3, h4⟩)))
  refine ⟨out, hloop, howf, how, hoh, hom, fun x y hv => ?_⟩
  obtain ⟨hx0, hx, hy0, hy⟩ := (validPos_iff img x y).1 hv
  exact hdone x y ⟨hx0, hy0, hy, Or.inl hx⟩

theorem negative_pixels (img : Image) (hwf : img.WF) :
    ∃ out, ImageNegative img = some out ∧ out.WF ∧ out.width = img.width ∧
      out.height = img.height ∧ out.maxval = img.maxval ∧
      ∀ x y, ImageValidPos img x y = true → out.pix x y = 255 - img.pix x y := by
  obtain ⟨out, hloop, howf, how, hoh, hom, hpx⟩ :=
    pointwise_spec img hwf (fun p => (((PixMax : Int) - (p : Int)) % 256).toNat)
      (fun x y s => match ImageGetPixel s x y with
        | none => none
        | some p => ImageSetPixel s x y (((PixMax : Int) - (p : Int)) % 256).toNat)
      (fun x y s p _ hp => by simp only [hp])
  refine ⟨out, hloop, howf, how, hoh, hom, fun x y hv => ?_⟩
  have hlt := pix_lt img hwf hv
  have hP : (PixMax : Int) = 255 := rfl
  rw [hpx x y hv]
  simp only [hP]
  omega

/-- C13: for every image, `ImageNegative` runs without a failed assertion, leaves the width,
height and maxval unchanged, and replaces every pixel `p` by `255 - p` (the constant `PixMax`,
whatever the image's maxval); a 3x3 image of all 100 becomes all 155. -/
theorem negative_spec (img : Image) (hwf : img.WF) :
    (∃ out, ImageNegative img = some out ∧
      out.width = img.width ∧ out.height = img.height ∧ out.maxval = img.maxval ∧
      ∀ x y, ImageValidPos img x y = true →
        ∃ p, ImageGetPixel img x y = some p ∧ ImageGetPixel out x y = some (255 - p)) ∧
    ImageNegative ⟨3, 3, 255, [100, 100, 100, 100, 100, 100, 100, 100, 100]⟩ =
      some ⟨3, 3, 255, [155, 155, 155, 155, 155, 155, 155, 155, 155]⟩ := by
  refine ⟨?_, by decide⟩
  obtain ⟨out, hloop, howf, how, hoh, hom, hpx⟩ := negative_pixels img hwf
  refine ⟨out, hloop, how, hoh, hom, fun x y hv => ?_⟩
  have hvo : ImageValidPos out x y = true := by rw [validPos_congr how hoh]; exact hv
  exact ⟨img.pix x y, getPixel_eq img hwf.2.2.2.2.1 hv, by
    rw [getPixel_eq out howf.2.2.2.2.1 hvo, hpx x y hv]⟩

theorem negative_spec_witness :
    (∃ out, ImageNegative ⟨2, 1, 100, [0, 70]⟩ = some out ∧
      out.width = (Image.mk 2 1 100 [0, 70]).width ∧
      out.height = (Image.mk 2 1 100 [0, 70]).height ∧
      out.maxval = (Image.mk 2 1 100 [0, 70]).maxval ∧
      ∀ x y, ImageValidPos ⟨2, 1, 100, [0, 70]⟩ x y = true →
        ∃ p, ImageGetPixel ⟨2, 1, 100, [0, 70]⟩ x y = some p ∧
          ImageGetPixel out x y = some (255 - p)) ∧
    ImageNegative ⟨3, 3, 255, [100, 100, 100, 100, 100, 100, 100, 100, 100]⟩ =
      some ⟨3, 3, 255, [155, 155, 155, 155, 155, 155, 155, 155, 155]⟩ :=
  negative_spec ⟨2, 1, 100, [0, 70]⟩ (by decide)

theorem threshold_pixels (img : Image) (hwf : img.WF) (thr : Nat) :
    ∃ out, ImageThreshold img thr = some out ∧ out.WF ∧ out.width = img.width ∧
      out.height = img.height ∧ out.maxval = img.maxval ∧
      ∀ x y, ImageValidPos img x y = true →
        out.pix x y = if img.pix x y < thr then 0 else img.maxval.toNat := by
  obtain ⟨out, hloop, howf, how, hoh, hom, hpx⟩ :=
    pointwise_spec img hwf (fun p => if p < thr then 0 else (img.maxval % 256).toNat)
      (fun x y s => match ImageGetPixel s x y with
        | none => none
        | some p =>
          if p < thr then ImageSetPixel s x y 0
          else ImageSetPixel s x y (ImageMaxval s % 256).toNat)
      (fun x y s p hm hp => by
        simp only [hp, ImageMaxval, hm]
        split_ifs <;> rfl)
  refine ⟨out, hloop, howf, how, hoh, hom, fun x y hv => ?_⟩
  have h0 := hwf.2.2.1
  have h1 := hwf.2.2.2.1
  have hP : (PixMax : Int) = 255 := rfl
  rw [hpx x y hv]
  by_cases hlt : img.pix x y < thr
  · simp only [hlt, if_true, Nat.zero_mod]
  · simp only [hlt, if_false]
    omega

/-- C14: for every image and every `thr` in `[0, 255]`, `ImageThreshold` runs without a
failed assertion, keeps the header, sets to 0 every pixel whose level was below `thr` and to
the image's maxval every pixel whose level was `thr` or more; an all-100 image with maxval 255
and `thr = 100` becomes all 255. -/
theorem threshold_spec (img : Image) (hwf : img.WF) (thr : Nat) (_hthr : thr ≤ 255) :
    (∃ out, ImageThreshold img thr = some out ∧
      out.width = img.width ∧ out.height = img.height ∧ out.maxval = img.maxval ∧
      ∀ x y, ImageValidPos img x y = true →
        ∃ p q, ImageGetPixel img x y = some p ∧ ImageGetPixel out x y = some q ∧
          (p < thr → q = 0) ∧ (thr ≤ p → (q : Int) = img.maxval)) ∧
    ImageThreshold ⟨3, 3, 255, [100, 100, 100, 100, 100, 100, 100, 100, 100]⟩ 100 =
      some ⟨3, 3, 255, [255, 255, 255, 255, 255, 255, 255, 255, 255]⟩ := by
  refine ⟨?_, by decide⟩
  obtain ⟨out, hloop, howf, how, hoh, hom, hpx⟩ := threshold_pixels img hwf thr
  refine ⟨out, hloop, how, hoh, hom, fun x y hv => ?_⟩
  have hvo : ImageValidPos out x y = true := by rw [validPos_congr how hoh]; exact hv
  have h0 := hwf.2.2.1
  refine ⟨img.pix x y, out.pix x y, getPixel_eq img hwf.2.2.2.2.1 hv,
    getPixel_eq out howf.2.2.2.2.1 hvo, fun hlt => ?_, fun hge => ?_⟩
  · rw [hpx x y hv, if_pos hlt]
  · rw [hpx x y hv, if_neg (by omega)]
    omega

theorem threshold_spec_witness :
    (∃ out, ImageThreshold ⟨3, 2, 200, [10, 20, 30, 40, 50, 61]⟩ 30 = some out ∧
      out.width = (Image.mk 3 2 200 [10, 20, 30, 40, 50, 61]).width ∧
      out.height = (Image.mk 3 2 200 [10, 20, 30, 40, 50, 61]).height ∧
      out.maxval = (Image.mk 3 2 200 [10, 20, 30, 40, 50, 61]).maxval ∧
      ∀ x y, ImageValidPos ⟨3, 2, 200, [10, 20, 30, 40, 50, 61]⟩ x y = true →
        ∃ p q, ImageGetPixel ⟨3, 2, 200, [10, 20, 30, 40, 50, 61]⟩ x y = some p ∧
          ImageGetPixel out x y = some q ∧
          (p < 30 → q = 0) ∧
          (30 ≤ p → (q : Int) = (Image.mk 3 2 200 [10, 20, 30, 40, 50, 61]).maxval)) ∧
    ImageThreshold ⟨3, 3, 255, [100, 100, 100, 100, 100, 100, 100, 100, 100]⟩ 100 =
      some ⟨3, 3, 255, [255, 255, 255, 255, 255, 255, 255, 255, 255]⟩ :=
  threshold_spec ⟨3, 2, 200, [10, 20, 30, 40, 50, 61]⟩ (by decide) 30 (by decide)

/-! ## Brighten and blend (C15, C16) -/

/-- C15 (failing input): a 1x1 image with maxval 100 and pixel 60 (so every pixel is at most
maxval) brightened by the factor 2 holds the pixel 120: the product is stored as it is and
exceeds the maxval 100 instead of being saturated to it. -/
theorem brighten_exceeds_maxval :
    (Image.mk 1 1 100 [60]).WF ∧ (Image.mk 1 1 100 [60]).Bounded ∧
    ImageBrighten ⟨1, 1, 100, [60]⟩ 2 = some ⟨1, 1, 100, [120]⟩ := by
  refine ⟨by decide, by simp [Image.Bounded], ?_⟩
  simp [ImageBrighten, forLoop, loopFrom, ImageGetPixel, ImageValidPos, G, ImageSetPixel,
    doubleToUint8]
  norm_num
  decide

/-- C16 (failing input): blending a 2x2 all-100 source into a 2x2 all-0 destination at
`(0, 0)` with `alpha = 1/2` fails the assertion on `ImageValidRect` (the source reaches the
right and bottom edges), so no pixel becomes 50. -/
theorem blend_example_aborts :
    ImageBlend ⟨2, 2, 255, [0, 0, 0, 0]⟩ 0 0 ⟨2, 2, 255, [100, 100, 100, 100]⟩ (1 / 2) =
      none := by
  decide

/-! ## Locating an image in itself or a larger image (C18, C19) -/

/-- C18 (as stated, refuted): an image of width 0 and height 3 searched for itself is not
found at `(0, 0)`: `ImageMatchSubImage` is called at `(0, 0)`, which is not a valid position
of an empty image, and its assertion fails. -/
theorem locateSelf_empty_aborts :
    (Image.mk 0 3 255 []).WF ∧
    ImageLocateSubImage ⟨0, 3, 255, []⟩ 7 7 ⟨0, 3, 255, []⟩ = none ∧
    ImageLocateSubImage ⟨0, 3, 255, []⟩ 7 7 ⟨0, 3, 255, []⟩ ≠ some (1, 0, 0) := by
  decide

/-- C18 (amended): for every non-empty image, `ImageLocateSubImage` with the image searched
for itself fails no assertion, returns 1 and sets `(*px, *py) = (0, 0)`. -/
theorem locateSelf_spec (img : Image) (hwf : img.WF) (hw : 0 < img.width)
    (hh : 0 < img.height) (px py : Int) :
    ImageLocateSubImage img px py img = some (1, 0, 0) := by
  have hm : MatchesAt img 0 0 img := by
    intro i j _ _ _ _
    rw [zero_add, zero_add]
  rcases locateSubImage_cases img img hwf hwf hw hh px py with ⟨_, hn⟩ |
    ⟨x, y, hr, hx0, hx, hy0, hy, _, _⟩
  · exact absurd hm (hn 0 0 (le_refl _) (by omega) (le_refl _) (by omega))
  · have ex : x = 0 := by omega
    have ey : y = 0 := by omega
    rw [ex, ey] at hr
    exact hr

theorem locateSelf_spec_witness :
    ImageLocateSubImage ⟨3, 2, 255, [10, 20, 30, 40, 50, 61]⟩ 7 7
      ⟨3, 2, 255, [10, 20, 30, 40, 50, 61]⟩ = some (1, 0, 0) :=
  locateSelf_spec ⟨3, 2, 255, [10, 20, 30, 40, 50, 61]⟩ (by decide) (by decide) (by decide) 7 7

theorem pixel_of_index (img : Image) (hwf : img.WF) (n : Nat) (hn : n < img.pixel.length) :
    ∃ x y, ImageValidPos img x y = true ∧ img.pix x y = img.pixel[n] := by
  have hls := hwf.2.2.2.2.1
  have hw0 := hwf.1
  have hwpos : 0 < img.width := by
    rcases lt_or_eq_of_le hw0 with h | h
    · exact h
    · rw [← h] at hls
      simp only [zero_mul] at hls
      omega
  have hx0 : 0 ≤ (n : Int) % img.width := Int.emod_nonneg _ (by omega)
  have hx1 : (n : Int) % img.width < img.width := Int.emod_lt_of_pos _ hwpos
  have hy0 : 0 ≤ (n : Int) / img.width := Int.ediv_nonneg (by omega) hw0
  have hy1 : (n : Int) / img.width < img.height := by
    rw [Int.ediv_lt_iff_lt_mul hwpos, mul_comm, ← hls]
    exact_mod_cast hn
  have hidx : (n : Int) % img.width + (n : Int) / img.width * img.width = n := by
    rw [mul_comm]; exact Int.emod_add_ediv _ _
  refine ⟨(n : Int) % img.width, (n : Int) / img.width,
    (validPos_iff img _ _).2 ⟨hx0, hx1, hy0, hy1⟩, ?_⟩
  unfold Image.pix
  rw [hidx]
  simp [List.getD_eq_getElem?_getD, List.getElem?_eq_getElem hn]

theorem pix_mem (img : Image) (hwf : img.WF) {x y : Int} (hv : ImageValidPos img x y = true) :
    img.pix x y ∈ img.pixel := by
  have hi := index_lt_length img hwf.2.2.2.2.1 hv
  have : img.pix x y = img.pixel[(x + y * img.width).toNat] := by
    simp [Image.pix, List.getD_eq_getElem?_getD, List.getElem?_eq_getElem hi]
  rw [this]
  exact List.getElem_mem _

theorem bounded_iff (img : Image) (hwf : img.WF) :
    img.Bounded ↔ ∀ x y, ImageValidPos img x y = true → (img.pix x y : Int) ≤ img.maxval := by
  constructor
  · intro hb x y hv
    exact hb _ (pix_mem img hwf hv)
  · intro h p hp
    obtain ⟨n, hn, hpn⟩ := List.getElem_of_mem hp
    obtain ⟨x, y, hv, hxy⟩ := pixel_of_index img hwf n hn
    rw [← hpn, ← hxy]
    exact h x y hv

theorem windowSum_le (img : Image) (M : Nat)
    (hM : ∀ x y, ImageValidPos img x y = true → img.pix x y ≤ M) (x y dx dy : Int) :
    windowSum img x y dx dy ≤ M * windowCount img x y dx dy := by
  unfold windowSum windowCount
  rw [Finset.mul_sum]
  refine Finset.sum_le_sum (fun k hk => ?_)
  rw [Finset.mul_sum]
  refine Finset.sum_le_sum (fun l hl => ?_)
  have hk' := Finset.mem_range.1 hk
  have hl' := Finset.mem_range.1 hl
  split_ifs
  · rw [mul_one]
    exact hM k l ((validPos_iff img _ _).2 ⟨by omega, by omega, by omega, by omega⟩)
  · simp

theorem windowMean_le (img : Image) (M : Nat)
    (hM : ∀ x y, ImageValidPos img x y = true → img.pix x y ≤ M) (x y dx dy : Int) :
    windowMean img x y dx dy ≤ M := by
  have hS := windowSum_le img M hM x y dx dy
  unfold windowMean
  generalize windowSum img x y dx dy = S at hS ⊢
  generalize windowCount img x y dx dy = c at hS ⊢
  rcases Nat.eq_zero_or_pos c with hc | hc
  · rw [hc]; simp
  · apply Nat.le_of_lt_succ
    rw [Nat.div_lt_iff_lt_mul hc, Nat.succ_mul]
    generalize M * c = t at hS ⊢
    omega

theorem threshold_bounded (img : Image) (hwf : img.WF) (thr : Nat) :
    ∃ out, ImageThreshold img thr = some out ∧ out.Bounded := by
  obtain ⟨out, hloop, howf, how, hoh, hom, hpx⟩ := threshold_pixels img hwf thr
  refine ⟨out, hloop, (bounded_iff out howf).2 (fun x y hv => ?_)⟩
  have hv' : ImageValidPos img x y = true := by rw [← validPos_congr how hoh]; exact hv
  have h0 := hwf.2.2.1
  rw [hpx x y hv', hom]
  split_ifs <;> omega

theorem blur_bounded (img : Image) (hwf : img.WF) (hb : img.Bounded) (dx dy : Int)
    (hdx : 0 ≤ dx) (hdy : 0 ≤ dy) (hbound : img.width * img.height * 255 < 2 ^ 32)
    (hfx : img.width + dx ≤ 2 ^ 31) (hfy : img.height + dy ≤ 2 ^ 31) :
    ∃ out, ImageBlur img dx dy = some out ∧ out.Bounded := by
  obtain ⟨out, hloop, howf, how, hoh, hom, hpx⟩ :=
    blur_pixels img hwf hbound dx dy hdx hdy (fun _ => hfx) (fun _ => hfy)
  refine ⟨out, hloop, (bounded_iff out howf).2 (fun x y hv => ?_)⟩
  have hv' : ImageValidPos img x y = true := by rw [← validPos_congr how hoh]; exact hv
  have h0 := hwf.2.2.1
  have hM : ∀ x y, ImageValidPos img x y = true → img.pix x y ≤ img.maxval.toNat :=
    fun x y hv => by
      have := (bounded_iff img hwf).1 hb x y hv
      omega
  have := windowMean_le img img.maxval.toNat hM x y dx dy
  rw [hpx x y hv', hom]
  omega

theorem negative_bounded (img : Image) (hwf : img.WF) (hm : img.maxval = 255) :
    ∃ out, ImageNegative img = some out ∧ out.Bounded := by
  obtain ⟨out, hloop, howf, how, hoh, hom, hpx⟩ := negative_pixels img hwf
  refine ⟨out, hloop, (bounded_iff out howf).2 (fun x y hv => ?_)⟩
  have hv' : ImageValidPos img x y = true := by rw [← validPos_congr how hoh]; exact hv
  rw [hpx x y hv', hom, hm]
  omega

/-! ## Blur with a 1x1 window (C20) -/

theorem windowMean_zero (img : Image) (x y : Int) (hv : ImageValidPos img x y = true) :
    windowMean img x y 0 0 = img.pix x y := by
  obtain ⟨hx0, hx, hy0, hy⟩ := (validPos_iff img x y).1 hv
  have e1 : min (x + 0 + 1).toNat img.width.toNat = x.toNat + 1 := by omega
  have e2 : min (y + 0 + 1).toNat img.height.toNat = y.toNat + 1 := by omega
  have e3 : (x - 0).toNat = x.toNat := by omega
  have e4 : (y - 0).toNat = y.toNat := by omega
  have hxc : ((x.toNat : Nat) : Int) = x := by omega
  have hyc : ((y.toNat : Nat) : Int) = y := by omega
  have hS : windowSum img x y 0 0 = img.pix x y := by
    unfold windowSum
    rw [window_sum_eq (fun k l => img.pix k l), e1, e2, e3, e4]
    simp [rectSum, hxc, hyc]
  have hC : windowCount img x y 0 0 = 1 := by
    have h := window_sum_eq (fun _ _ => 1) img.width.toNat img.height.toNat (x - 0) (x + 0)
      (y - 0) (y + 0)
    unfold windowCount
    rw [h, e1, e2, e3, e4, rectSum_one]
    simp
  unfold windowMean
  rw [hS, hC]
  simp

theorem blur_zero (img : Image) (hwf : img.WF)
    (hbound : img.width * img.height * 255 < 2 ^ 32) : ImageBlur img 0 0 = some img := by
  have hw0 := hwf.1
  have hh0 := hwf.2.1
  obtain ⟨out, hloop, howf, how, hoh, hom, hpx⟩ :=
    blur_pixels img hwf hbound 0 0 (le_refl _) (le_refl _)
      (fun hpos => by
        have : img.width * 1 ≤ img.width * img.height :=
          mul_le_mul_of_nonneg_left (by omega) hw0
        omega)
      (fun hpos => by
        have : 1 * img.height ≤ img.width * img.height :=
          mul_le_mul_of_nonneg_right (by omega) hh0
        omega)
  have heq : out = img := image_ext out img howf hwf how hoh hom (fun x y hv => by
    have hv' : ImageValidPos img x y = true := by rw [← validPos_congr how hoh]; exact hv
    rw [hpx x y hv', windowMean_zero img x y hv'])
  rw [hloop, heq]

/-! ## An image whose pixel sum exceeds `2^32` -/

theorem wideImage_wf : wideImage.WF := by
  refine ⟨by decide, by decide, by decide, by decide, ?_, ?_⟩
  · show ((List.replicate 16843010 255).length : Int) = 16843010 * 1
    rw [List.length_replicate]
    norm_num
  · intro p hp
    have : p = 255 := List.eq_of_mem_replicate hp
    omega

theorem wideImage_bounded : wideImage.Bounded := by
  intro p hp
  have : p = 255 := List.eq_of_mem_replicate hp
  rw [this]
  decide

theorem wideImage_pix (x : Int) (hx0 : 0 ≤ x) (hx : x < 16843010) : wideImage.pix x 0 = 255 := by
  show (List.replicate 16843010 255).getD (x + 0 * 16843010).toNat 0 = 255
  rw [List.getD_eq_getElem?_getD, List.getElem?_replicate_of_lt (by omega)]
  rfl

theorem wideImage_areaSum (a : Nat) (ha : a ≤ 16843010) :
    areaSum (fun k l => wideImage.pix k l) a 1 = 255 * a := by
  unfold areaSum
  rw [Finset.sum_congr rfl (fun k hk => by
    have hk' := Finset.mem_range.1 hk
    simp only [Finset.range_one, Finset.sum_singleton, Nat.cast_zero]
    exact wideImage_pix k (by omega) (by omega))]
  simp [mul_comm]

theorem doubleToUint8_int (z : Int) :
    doubleToUint8 (z : ℚ) = if -2 ^ 31 ≤ z ∧ z < 2 ^ 31 then (z % 256).toNat else 0 := by
  unfold doubleToUint8
  simp only [Rat.num_intCast, Rat.den_intCast, Nat.cast_one, Int.tdiv_one]

theorem wideImage_level (sum : Int → Int → Nat) (hd : sum 0 16843009 = 254)
    (hc : sum 0 16843008 = 4294967295) :
    blurLevel sum 16843010 1 16843009 0 0 0 = some 0 := by
  rw [blurLevel_unfold sum 16843010 1 16843009 0 0 0 (by norm_num) (by norm_num) (by norm_num)
    (by norm_num) (by norm_num) (by norm_num) (by norm_num) (by norm_num) (by norm_num)
    16843009 16843009 0 0 (by norm_num) (by norm_num) (by norm_num) (by norm_num)]
  have e1 : ((16843009 : Int) - 1) = 16843008 := by norm_num
  have ht : Int.tdiv (((16843009 : Int) - 16843009 + 1) * (0 - 0 + 1)) 2 = 0 := by decide
  rw [e1, hd, hc, ht]
  have hval : (((254 : Nat) : ℚ) - (((if (0 : Int) < 1 then 0 else sum (0 - 1) 16843009) : Nat) : ℚ) -
      (((if (16843009 : Int) < 1 then 0 else 4294967295) : Nat) : ℚ) +
      (((if (0 : Int) < 1 ∨ (16843009 : Int) < 1 then 0 else sum (0 - 1) 16843008) : Nat) : ℚ) +
      ((0 : Int) : ℚ)) / (((((16843009 : Int) - 16843009 + 1) * (0 - 0 + 1)) : Int) : ℚ) =
      (((-4294967041 : Int)) : ℚ) := by
    norm_num
  rw [hval, doubleToUint8_int, if_neg (by norm_num)]

/-- On the one-row image of 16843010 pixels 255, `ImageBlur(img, 0, 0)` runs to the end and
leaves 0 in the last pixel. -/
theorem wideImage_blur :
    ∃ out, ImageBlur wideImage 0 0 = some out ∧ ImageGetPixel out 16843009 0 = some 0 := by
  obtain ⟨sum, hsum, hT⟩ := blurTable_mod wideImage wideImage_wf (fun _ _ => 0)
  have hd : sum 0 16843009 = 254 := by
    rw [hT 16843009 0 (by decide) (by decide) (by decide) (by decide)]
    have e : (16843009 : Int).toNat + 1 = 16843010 := by decide
    have e' : (0 : Int).toNat + 1 = 1 := by decide
    rw [e, e', wideImage_areaSum 16843010 (le_refl _)]
    norm_num
  have hc : sum 0 16843008 = 4294967295 := by
    rw [hT 16843008 0 (by decide) (by decide) (by decide) (by decide)]
    have e : (16843008 : Int).toNat + 1 = 16843009 := by decide
    have e' : (0 : Int).toNat + 1 = 1 := by decide
    rw [e, e', wideImage_areaSum 16843009 (by decide)]
    norm_num
  obtain ⟨out, hloop, howf, how, hoh, _, hpx⟩ := blur_run wideImage wideImage_wf 0 0
    (le_refl _) (le_refl _) (fun _ => by show (16843010 : Int) + 0 ≤ 2 ^ 31; norm_num)
    (fun _ => by show (1 : Int) + 0 ≤ 2 ^ 31; norm_num)
    (by show (16843010 : Int) * 1 < 2 ^ 31; norm_num) sum hsum
  have hv : ImageValidPos wideImage 16843009 0 = true :=
    (validPos_iff wideImage _ _).2 ⟨by decide, by decide, by decide, by decide⟩
  have hvo : ImageValidPos out 16843009 0 = true := by rw [validPos_congr how hoh]; exact hv
  have h1 := hpx 16843009 0 hv
  have h2 : blurLevel sum wideImage.width wideImage.height 16843009 0 0 0 = some 0 :=
    wideImage_level sum hd hc
  rw [h2] at h1
  refine ⟨out, hloop, ?_⟩
  rw [getPixel_eq out howf.2.2.2.2.1 hvo, ← Option.some.inj h1]

/-! ## A two-row image on which a window sum comes out `2^32` too large -/

theorem tallImage_mem (p : Nat)
    (hp : p ∈ List.replicate 16909321 254 ++ (List.replicate 16843009 0 ++
      (254 :: List.replicate 33752329 0))) : p = 254 ∨ p = 0 := by
  rcases List.mem_append.1 hp with h | h
  · exact Or.inl (List.eq_of_mem_replicate h)
  · rcases List.mem_append.1 h with h | h
    · exact Or.inr (List.eq_of_mem_replicate h)
    · rcases List.mem_cons.1 h with h | h
      · exact Or.inl h
      · exact Or.inr (List.eq_of_mem_replicate h)

theorem tallImage_wf : tallImage.WF := by
  refine ⟨by decide, by decide, by decide, by decide, ?_, ?_⟩
  · show ((List.replicate 16909321 254 ++ (List.replicate 16843009 0 ++
      (254 :: List.replicate 33752329 0))).length : Int) = 33752330 * 2
    rw [List.length_append, List.length_append, List.length_cons, List.length_replicate,
      List.length_replicate, List.length_replicate]
    norm_num
  · intro p hp
    rcases tallImage_mem p hp with h | h <;> omega

theorem tallImage_bounded : tallImage.Bounded := by
  intro p hp
  show (p : Int) ≤ 254
  rcases tallImage_mem p hp with h | h <;> omega

theorem tallImage_pix (x y : Int) (hx0 : 0 ≤ x) (hx : x < 33752330) (hy0 : 0 ≤ y)
    (hy : y < 2) :
    tallImage.pix x y = if (y = 0 ∧ x ≤ 16909320) ∨ (y = 1 ∧ x = 0) then 254 else 0 := by
  show (List.replicate 16909321 254 ++ (List.replicate 16843009 0 ++
    (254 :: List.replicate 33752329 0))).getD (x + y * 33752330).toNat 0 = _
  generalize hi : (x + y * 33752330).toNat = i
  rw [List.getD_eq_getElem?_getD]
  by_cases h1 : i < 16909321
  · rw [List.getElem?_append_left (by rw [List.length_replicate]; exact h1),
      List.getElem?_replicate_of_lt h1, if_pos (by omega)]
    rfl
  · rw [List.getElem?_append_right (by rw [List.length_replicate]; omega),
      List.length_replicate]
    by_cases h2 : i - 16909321 < 16843009
    · rw [List.getElem?_append_left (by rw [List.length_replicate]; exact h2),
        List.getElem?_replicate_of_lt h2, if_neg (by omega)]
      rfl
    · rw [List.getElem?_append_right (by rw [List.length_replicate]; omega),
        List.length_replicate]
      by_cases h3 : i - 16909321 - 16843009 = 0
      · rw [h3, List.getElem?_cons_zero, if_pos (by omega)]
        rfl
      · obtain ⟨m, hm⟩ : ∃ m, i - 16909321 - 16843009 = m + 1 :=
          ⟨i - 16909321 - 16843009 - 1, by omega⟩
        rw [hm, List.getElem?_cons_succ, List.getElem?_replicate_of_lt (by omega),
          if_neg (by omega)]
        rfl

theorem tallImage_row0 (a : Nat) (ha : a ≤ 33752330) :
    (∑ k in Finset.range a, tallImage.pix (k : Int) 0) = 254 * min a 16909321 := by
  induction a with
  | zero => simp
  | succ n ih =>
    rw [Finset.sum_range_succ, ih (by omega),
      tallImage_pix n 0 (by omega) (by omega) (le_refl _) (by norm_num)]
    split_ifs with h <;> omega

theorem tallImage_row1 (a : Nat) (ha : a ≤ 33752330) :
    (∑ k in Finset.range a, tallImage.pix (k : Int) 1) = if 0 < a then 254 else 0 := by
  induction a with
  | zero => simp
  | succ n ih =>
    rw [Finset.sum_range_succ, ih (by omega),
      tallImage_pix n 1 (by omega) (by omega) (by norm_num) (by norm_num)]
    split_ifs <;> omega

theorem tallImage_areaSum1 (a : Nat) (ha : a ≤ 33752330) :
    areaSum (fun k l => tallImage.pix k l) a 1 = 254 * min a 16909321 := by
  unfold areaSum
  simp only [Finset.range_one, Finset.sum_singleton, Nat.cast_zero]
  exact tallImage_row0 a ha

theorem tallImage_areaSum2 (a : Nat) (ha : a ≤ 33752330) :
    areaSum (fun k l => tallImage.pix k l) a 2 =
      254 * min a 16909321 + (if 0 < a then 254 else 0) := by
  unfold areaSum
  have e : ∀ k : Nat, (∑ l in Finset.range 2, tallImage.pix (k : Int) (l : Int)) =
      tallImage.pix (k : Int) 0 + tallImage.pix (k : Int) 1 := by
    intro k
    rw [Finset.sum_range_succ, Finset.sum_range_one]
    simp only [Nat.cast_zero, Nat.cast_one]
  simp only [e]
  rw [Finset.sum_add_distrib, tallImage_row0 a ha, tallImage_row1 a ha]

theorem tallImage_level (sum : Int → Int → Nat) (ha : sum 0 16909319 = 4294967280)
    (hb : sum 0 33752329 = 238) (hc : sum 1 16909319 = 238) (hd : sum 1 33752329 = 492) :
    blurLevel sum 33752330 2 33752329 1 16843009 0 = some 255 := by
  rw [blurLevel_unfold sum 33752330 2 33752329 1 16843009 0 (by norm_num) (by norm_num)
    (by norm_num) (by norm_num) (by norm_num) (by norm_num) (by norm_num) (by norm_num)
    (by norm_num) 33752329 16909320 1 1 (by norm_num) (by norm_num) (by norm_num)
    (by norm_num)]
  have e1 : ((16909320 : Int) - 1) = 16909319 := by norm_num
  have e2 : ((1 : Int) - 1) = 0 := by norm_num
  have ht : Int.tdiv (((33752329 : Int) - 16909320 + 1) * (1 - 1 + 1)) 2 = 8421505 := by
    decide
  rw [ht, e1, e2, ha, hb, hc, hd]
  have hval : (((492 : Nat) : ℚ) - (((if (1 : Int) < 1 then 0 else 238) : Nat) : ℚ) -
      (((if (16909320 : Int) < 1 then 0 else 238) : Nat) : ℚ) +
      (((if (1 : Int) < 1 ∨ (16909320 : Int) < 1 then 0 else 4294967280) : Nat) : ℚ) +
      ((8421505 : Int) : ℚ)) / (((((33752329 : Int) - 16909320 + 1) * (0 + 1)) : Int) : ℚ) =
      ((4303388801 : Nat) : ℚ) / ((16843010 : Nat) : ℚ) := by
    norm_num
  rw [hval, doubleToUint8_div _ _ (by norm_num)]

/-- On the two-row image, `ImageBlur(img, 16843009, 0)` runs to the end and leaves 255 in
the last pixel of row 1, although every pixel of the image is at most its maxval 254. -/
theorem tallImage_blur :
    ∃ out, ImageBlur tallImage 16843009 0 = some out ∧ out.WF ∧ out.maxval = 254 ∧
      ImageGetPixel out 33752329 1 = some 255 := by
  obtain ⟨sum, hsum, hT⟩ := blurTable_mod tallImage tallImage_wf (fun _ _ => 0)
  have e0 : (0 : Int).toNat + 1 = 1 := by decide
  have e1 : (1 : Int).toNat + 1 = 2 := by decide
  have ha : sum 0 16909319 = 4294967280 := by
    rw [hT 16909319 0 (by decide) (by decide) (by decide) (by decide)]
    have e : (16909319 : Int).toNat + 1 = 16909320 := by decide
    rw [e, e0, tallImage_areaSum1 16909320 (by norm_num)]
    norm_num
  have hb : sum 0 33752329 = 238 := by
    rw [hT 33752329 0 (by decide) (by decide) (by decide) (by decide)]
    have e : (33752329 : Int).toNat + 1 = 33752330 := by decide
    rw [e, e0, tallImage_areaSum1 33752330 (by norm_num)]
    norm_num
  have hc : sum 1 16909319 = 238 := by
    rw [hT 16909319 1 (by decide) (by decide) (by decide) (by decide)]
    have e : (16909319 : Int).toNat + 1 = 16909320 := by decide
    rw [e, e1, tallImage_areaSum2 16909320 (by norm_num)]
    norm_num
  have hd : sum 1 33752329 = 492 := by
    rw [hT 33752329 1 (by decide) (by decide) (by decide) (by decide)]
    have e : (33752329 : Int).toNat + 1 = 33752330 := by decide
    rw [e, e1, tallImage_areaSum2 33752330 (by norm_num)]
    norm_num
  obtain ⟨out, hloop, howf, how, hoh, hom, hpx⟩ := blur_run tallImage tallImage_wf 16843009 0
    (by norm_num) (le_refl _)
    (fun _ => by show (33752330 : Int) + 16843009 ≤ 2 ^ 31; norm_num)
    (fun _ => by show (2 : Int) + 0 ≤ 2 ^ 31; norm_num)
    (by show (33752330 : Int) * 2 < 2 ^ 31; norm_num) sum hsum
  have hv : ImageValidPos tallImage 33752329 1 = true :=
    (validPos_iff tallImage _ _).2 ⟨by decide, by decide, by decide, by decide⟩
  have hvo : ImageValidPos out 33752329 1 = true := by rw [validPos_congr how hoh]; exact hv
  have h1 := hpx 33752329 1 hv
  have h2 : blurLevel sum tallImage.width tallImage.height 33752329 1 16843009 0 = some 255 :=
    tallImage_level sum ha hb hc hd
  rw [h2] at h1
  refine ⟨out, hloop, howf, hom, ?_⟩
  rw [getPixel_eq out howf.2.2.2.2.1 hvo, ← Option.some.inj h1]

/-! ## Claims C17 and C20 -/

/-- C17 (as stated, refuted): a 1x1 image with maxval 100 and pixel 0 satisfies the bound, and
after `ImageNegative` its pixel is 255, above the maxval.  The two-row image of 33752330
columns satisfies the bound with maxval 254, and `ImageBlur(img, 16843009, 0)` runs to the end
and leaves 255 in the last pixel of row 1: the four table entries of that window have wrapped
modulo `2^32` so that the window sum comes out as `2^32`, and the mean `(2^32 + 8421505) /
16843010` is 255.  On a 2x1 image that satisfies the bound, `ImageBlur(img, 2147483647, 0)`
does not run to the end, because `x+dx` overflows an `int`. -/
theorem bounded_not_preserved :
    ((Image.mk 1 1 100 [0]).WF ∧ (Image.mk 1 1 100 [0]).Bounded ∧
      ImageNegative ⟨1, 1, 100, [0]⟩ = some ⟨1, 1, 100, [255]⟩ ∧
      ¬ (Image.mk 1 1 100 [255]).Bounded) ∧
    (tallImage.WF ∧ tallImage.Bounded ∧
      ∃ out, ImageBlur tallImage 16843009 0 = some out ∧ out.maxval = 254 ∧
        ImageGetPixel out 33752329 1 = some 255 ∧ ¬ out.Bounded) ∧
    ((Image.mk 2 1 100 [10, 20]).WF ∧ (Image.mk 2 1 100 [10, 20]).Bounded ∧
      ImageBlur ⟨2, 1, 100, [10, 20]⟩ 2147483647 0 = none) := by
  refine ⟨⟨by decide, by simp [Image.Bounded], by decide, by simp [Image.Bounded]⟩,
    ⟨tallImage_wf, tallImage_bounded, ?_⟩, by decide, by simp [Image.Bounded], ?_⟩
  · obtain ⟨out, hloop, howf, hom, hpx⟩ := tallImage_blur
    refine ⟨out, hloop, hom, hpx, fun hb => ?_⟩
    have hv : ImageValidPos out 33752329 1 = true := by
      cases hg : ImageValidPos out 33752329 1 with
      | true => rfl
      | false => simp [ImageGetPixel, G, hg] at hpx
    have h1 := (bounded_iff out howf).1 hb 33752329 1 hv
    rw [getPixel_eq out howf.2.2.2.2.1 hv] at hpx
    rw [Option.some.inj hpx, hom] at h1
    omega
  · exact blur_overflow ⟨2, 1, 100, [10, 20]⟩ (by decide) 2147483647 0 1 0 (by decide)
      (Or.inl (by norm_num))

/-- C17 (amended): on an image whose stored pixels are all at most its maxval, the same holds
after `ImageThreshold(thr)` for every `thr`; after `ImageBlur(dx, dy)` for every `dx >= 0`,
`dy >= 0` when `width*height*255 < 2^32` (the table holds exact sums), `width + dx <= 2^31`
and `height + dy <= 2^31` (`x+dx` and `y+dy` are `int` values); and after `ImageNegative`
when the maxval is 255. -/
theorem bounded_preserved (img : Image) (hwf : img.WF) (hb : img.Bounded) :
    (∀ thr : Nat, ∃ out, ImageThreshold img thr = some out ∧ out.Bounded) ∧
    (∀ dx dy : Int, 0 ≤ dx → 0 ≤ dy → img.width * img.height * 255 < 2 ^ 32 →
      img.width + dx ≤ 2 ^ 31 → img.height + dy ≤ 2 ^ 31 →
      ∃ out, ImageBlur img dx dy = some out ∧ out.Bounded) ∧
    (img.maxval = 255 → ∃ out, ImageNegative img = some out ∧ out.Bounded) :=
  ⟨fun thr => threshold_bounded img hwf thr,
    fun dx dy hdx hdy hbound hfx hfy => blur_bounded img hwf hb dx dy hdx hdy hbound hfx hfy,
    fun hm => negative_bounded img hwf hm⟩

theorem bounded_preserved_witness :
    ((∀ thr : Nat, ∃ out, ImageThreshold ⟨2, 2, 100, [10, 20, 30, 100]⟩ thr = some out ∧
        out.Bounded) ∧
      ∃ out, ImageBlur ⟨2, 2, 100, [10, 20, 30, 100]⟩ 1 1 = some out ∧ out.Bounded) ∧
    ∃ out, ImageNegative ⟨2, 2, 255, [10, 20, 30, 100]⟩ = some out ∧ out.Bounded :=
  ⟨⟨(bounded_preserved ⟨2, 2, 100, [10, 20, 30, 100]⟩ (by decide) (by simp [Image.Bounded])).1,
      (bounded_preserved ⟨2, 2, 100, [10, 20, 30, 100]⟩ (by decide)
        (by simp [Image.Bounded])).2.1 1 1 (by decide) (by decide) (by decide) (by decide)
        (by decide)⟩,
    (bounded_preserved ⟨2, 2, 255, [10, 20, 30, 100]⟩ (by decide)
      (by simp [Image.Bounded])).2.2 rfl⟩

/-- C20 (as stated, refuted): on the one-row image of 16843010 pixels 255,
`ImageBlur(img, 0, 0)` does not leave the image unchanged: the table entry of the last column
wraps modulo `2^32`, the window sum of that pixel is `254 - 4294967295`, and the pixel, which
was 255, is left at 0. -/
theorem blur_zero_wide_changes :
    wideImage.WF ∧ ImageGetPixel wideImage 16843009 0 = some 255 ∧
    (∃ out, ImageBlur wideImage 0 0 = some out ∧ ImageGetPixel out 16843009 0 = some 0) ∧
    ImageBlur wideImage 0 0 ≠ some wideImage := by
  have hv : ImageValidPos wideImage 16843009 0 = true :=
    (validPos_iff wideImage _ _).2 ⟨by decide, by decide, by decide, by decide⟩
  have hp : ImageGetPixel wideImage 16843009 0 = some 255 := by
    rw [getPixel_eq wideImage wideImage_wf.2.2.2.2.1 hv,
      wideImage_pix 16843009 (by decide) (by decide)]
  obtain ⟨out, hloop, hpx⟩ := wideImage_blur
  refine ⟨wideImage_wf, hp, ⟨out, hloop, hpx⟩, fun h => ?_⟩
  rw [hloop] at h
  rw [Option.some.inj h, hp] at hpx
  exact absurd (Option.some.inj hpx) (by decide)

/-- C20 (amended): for every image with `width*height*255 < 2^32`, `ImageBlur(img, 0, 0)`
runs without a failed assertion and leaves the image as it was: same width, height, maxval
and pixels. -/
theorem blur_zero_identity (img : Image) (hwf : img.WF)
    (hbound : img.width * img.height * 255 < 2 ^ 32) : ImageBlur img 0 0 = some img :=
  blur_zero img hwf hbound

theorem blur_zero_identity_witness :
    ImageBlur ⟨3, 2, 255, [10, 20, 30, 40, 50, 61]⟩ 0 0 =
      some ⟨3, 2, 255, [10, 20, 30, 40, 50, 61]⟩ :=
  blur_zero_identity ⟨3, 2, 255, [10, 20, 30, 40, 50, 61]⟩ (by decide) (by decide)

/-! ## Blend on an accepted rectangle, in exact arithmetic -/

theorem doubleToUint8_floor (q : ℚ) (h0 : 0 ≤ q) (h1 : q < 256) :
    doubleToUint8 q = ⌊q⌋.toNat := by
  have hf0 : 0 ≤ ⌊q⌋ := Int.floor_nonneg.2 h0
  have hf1 : ⌊q⌋ < 256 := Int.floor_lt.2 (by exact_mod_cast h1)
  unfold doubleToUint8
  simp only
  rw [Int.tdiv_eq_ediv (Rat.num_nonneg.2 h0) (by positivity), ← Rat.floor_def,
    if_pos ⟨by omega, by omega⟩]
  omega

theorem blend_level_range (alpha : ℚ) (ha0 : 0 ≤ alpha) (ha1 : alpha ≤ 1) (d s : Nat)
    (hd : d < 256) (hs : s < 256) :
    0 ≤ (1 - alpha) * (d : ℚ) + alpha * (s : ℚ) + 1 / 2 ∧
      (1 - alpha) * (d : ℚ) + alpha * (s : ℚ) + 1 / 2 < 256 := by
  have hd0 : (0 : ℚ) ≤ d := Nat.cast_nonneg d
  have hs0 : (0 : ℚ) ≤ s := Nat.cast_nonneg s
  have hd1 : (d : ℚ) ≤ 255 := by exact_mod_cast Nat.lt_succ_iff.1 hd
  have hs1 : (s : ℚ) ≤ 255 := by exact_mod_cast Nat.lt_succ_iff.1 hs
  have h1a : 0 ≤ 1 - alpha := by linarith
  have p1 : 0 ≤ (1 - alpha) * (d : ℚ) := mul_nonneg h1a hd0
  have p2 : 0 ≤ alpha * (s : ℚ) := mul_nonneg ha0 hs0
  have p3 : (1 - alpha) * (d : ℚ) ≤ (1 - alpha) * 255 := mul_le_mul_of_nonneg_left hd1 h1a
  have p4 : alpha * (s : ℚ) ≤ alpha * 255 := mul_le_mul_of_nonneg_left hs1 ha0
  constructor
  · linarith
  · linarith

/-- On a rectangle that `ImageValidRect` accepts and for `alpha` in `[0, 1]`, `ImageBlend`
(with exact arithmetic for the `double` expression) runs to the end; every covered pixel
becomes the integer part of `(1-alpha)*d + alpha*s + 1/2`, `d` the old pixel of the destination
and `s` the pixel of the source; the other pixels and the header are unchanged. -/
theorem blend_pixels (dest src : Image) (hd : dest.WF) (hs : src.WF) (x y : Int) (alpha : ℚ)
    (ha0 : 0 ≤ alpha) (ha1 : alpha ≤ 1)
    (hr : ImageValidRect dest x y src.width src.height = some true) :
    ∃ out, ImageBlend dest x y src alpha = some out ∧ out.WF ∧
      out.width = dest.width ∧ out.height = dest.height ∧ out.maxval = dest.maxval ∧
      (∀ i j, 0 ≤ i → i < src.width → 0 ≤ j → j < src.height →
        out.pix (i + x) (j + y) =
          ⌊(1 - alpha) * (dest.pix (i + x) (j + y) : ℚ) + alpha * (src.pix i j : ℚ) + 1 / 2⌋.toNat) ∧
      (∀ x' y', ImageValidPos dest x' y' = true →
        ¬ (x ≤ x' ∧ x' < x + src.width ∧ y ≤ y' ∧ y' < y + src.height) →
        out.pix x' y' = dest.pix x' y') := by
  obtain ⟨hv, hw0, hw, hh0, hh⟩ := (validRect_iff dest x y _ _).1 hr
  obtain ⟨hx0, hx, hy0, hy⟩ := (validPos_iff dest x y).1 hv
  have hsrc : ∀ i j, 0 ≤ i → i < src.width → 0 ≤ j → j < src.height →
      ImageValidPos src i j = true := fun i j h1 h2 h3 h4 =>
    (validPos_iff src _ _).2 ⟨h1, h2, h3, h4⟩
  have hdst : ∀ i j, 0 ≤ i → i < src.width → 0 ≤ j → j < src.height →
      ImageValidPos dest (i + x) (j + y) = true := fun i j h1 h2 h3 h4 =>
    (validPos_iff dest _ _).2 ⟨by omega, by omega, by omega, by omega⟩
  have hrange : ∀ i j, 0 ≤ i → i < src.width → 0 ≤ j → j < src.height →
      0 ≤ (1 - alpha) * (dest.pix (i + x) (j + y) : ℚ) + alpha * (src.pix i j : ℚ) + 1 / 2 ∧
      (1 - alpha) * (dest.pix (i + x) (j + y) : ℚ) + alpha * (src.pix i j : ℚ) + 1 / 2 < 256 :=
    fun i j h1 h2 h3 h4 => blend_level_range alpha ha0 ha1 _ _
      (pix_lt dest hd (hdst i j h1 h2 h3 h4)) (pix_lt src hs (hsrc i j h1 h2 h3 h4))
  obtain ⟨out, hloop, howf, how, hoh, hom, hdone, hframe⟩ :=
    fill_spec dest hd src.width src.height hw0 hh0 (fun i _ => i + x) (fun _ j => j + y)
      (fun i j =>
        ⌊(1 - alpha) * (dest.pix (i + x) (j + y) : ℚ) + alpha * (src.pix i j : ℚ) + 1 / 2⌋.toNat)
      (fun i j s =>
        match ImageGetPixel s (i + x) (j + y), ImageGetPixel src i j with
        | some p1, some p2 =>
          ImageSetPixel s (i + x) (j + y)
            (doubleToUint8 ((1 - alpha) * (p1 : ℚ) + alpha * (p2 : ℚ) + 1 / 2))
        | _, _ => none)
      hdst
      (fun i j i' j' _ _ _ _ _ _ _ _ e1 e2 => ⟨by simp only at e1; omega,
        by simp only at e2; omega⟩)
      (fun i j s h1 h2 h3 h4 hI => by
        obtain ⟨hswf, hsw, hsh, _, _, hfr⟩ := hI
        have hvs : ImageValidPos s (i + x) (j + y) = true := by
          rw [validPos_congr hsw hsh]; exact hdst i j h1 h2 h3 h4
        have hcur : s.pix (i + x) (j + y) = dest.pix (i + x) (j + y) :=
          hfr _ _ (hdst i j h1 h2 h3 h4) (fun i' j' hvis hc => by
            obtain ⟨_, _, _, h4'⟩ := hvis
            simp only at hc
            omega)
        have hr := hrange i j h1 h2 h3 h4
        simp only [getPixel_eq s hswf.2.2.2.2.1 hvs, hcur,
          getPixel_eq src hs.2.2.2.2.1 (hsrc i j h1 h2 h3 h4),
          doubleToUint8_floor _ hr.1 hr.2])
  refine ⟨out, ?_, howf, how, hoh, hom, ?_, ?_⟩
  · simp only [ImageBlend, hr]
    exact hloop
  · intro i j h1 h2 h3 h4
    have := hdone i j ⟨h1, h3, h4, Or.inl h2⟩
    simp only at this
    have hr := hrange i j h1 h2 h3 h4
    have hf0 : 0 ≤ ⌊(1 - alpha) * (dest.pix (i + x) (j + y) : ℚ) + alpha * (src.pix i j : ℚ) +
        1 / 2⌋ := Int.floor_nonneg.2 hr.1
    have hf1 : ⌊(1 - alpha) * (dest.pix (i + x) (j + y) : ℚ) + alpha * (src.pix i j : ℚ) +
        1 / 2⌋ < 256 := Int.floor_lt.2 (by exact_mod_cast hr.2)
    rw [this]
    omega
  · intro x' y' hv' hout
    refine hframe x' y' hv' (fun i j hvis hc => ?_)
    obtain ⟨h1, h2, h3, h4⟩ := hvis
    simp only at hc
    exact hout ⟨by omega, by omega, by omega, by omega⟩

/-! ## Blur with a window that covers the image (C21) -/

/-- C21 (as stated, refuted): on a 2x1 image, `ImageBlur(img, 2147483647, 2147483647)`, whose
`dx` and `dy` are at least the width and the height, does not run to the end: `x+dx`
overflows an `int` at `x = 1`, so no pixel is set to the mean of the image. -/
theorem blur_full_window_overflow :
    (Image.mk 2 1 255 [10, 20]).WF ∧
    (Image.mk 2 1 255 [10, 20]).width ≤ 2147483647 ∧
    (Image.mk 2 1 255 [10, 20]).height ≤ 2147483647 ∧
    ImageBlur ⟨2, 1, 255, [10, 20]⟩ 2147483647 2147483647 = none :=
  ⟨by decide, by decide, by decide,
    blur_overflow ⟨2, 1, 255, [10, 20]⟩ (by decide) 2147483647 2147483647 1 0 (by decide)
      (Or.inl (by norm_num))⟩

/-- C21 (amended): for every non-empty image with `width*height*255 < 2^32` and every
`dx >= width`, `dy >= height` with `width + dx <= 2^31` and `height + dy <= 2^31` (so that
`x+dx` and `y+dy` are `int` values at every position), `ImageBlur` runs without a failed
assertion, keeps the header and sets every pixel to the same value
`(T + (width*height)/2) / (width*height)` in integer division, `T` being the sum of all the
original pixels. -/
theorem blur_full_window (img : Image) (hwf : img.WF) (_hw : 0 < img.width)
    (_hh : 0 < img.height) (hbound : img.width * img.height * 255 < 2 ^ 32) (dx dy : Int)
    (hdx : img.width ≤ dx) (hdy : img.height ≤ dy) (hfx : img.width + dx ≤ 2 ^ 31)
    (hfy : img.height + dy ≤ 2 ^ 31) :
    ∃ out, ImageBlur img dx dy = some out ∧
      out.width = img.width ∧ out.height = img.height ∧ out.maxval = img.maxval ∧
      ∀ x y, ImageValidPos img x y = true →
        ImageGetPixel out x y =
          some ((img.pixel.sum + (img.width * img.height).toNat / 2) /
            (img.width * img.height).toNat) := by
  obtain ⟨out, hb, howf, how, hoh, hom, hpx⟩ :=
    blur_pixels img hwf hbound dx dy (by have := hwf.1; omega) (by have := hwf.2.1; omega)
      (fun _ => hfx) (fun _ => hfy)
  refine ⟨out, hb, how, hoh, hom, fun x y hv => ?_⟩
  have hvo : ImageValidPos out x y = true := by rw [validPos_congr how hoh]; exact hv
  obtain ⟨hS, hC⟩ := windowSum_full img x y dx dy hv hdx hdy
  have hn : (img.width * img.height).toNat = img.width.toNat * img.height.toNat := by
    obtain ⟨W, hW⟩ := Int.eq_ofNat_of_zero_le hwf.1
    obtain ⟨H, hH⟩ := Int.eq_ofNat_of_zero_le hwf.2.1
    rw [hW, hH, ← Int.ofNat_mul, Int.toNat_ofNat, Int.toNat_ofNat, Int.toNat_ofNat]
  rw [getPixel_eq out howf.2.2.2.2.1 hvo, hpx x y hv, windowMean, hS, hC, hn,
    pixel_sum_eq img hwf]

theorem blur_full_window_witness :
    ∃ out, ImageBlur ⟨3, 2, 255, [10, 20, 30, 40, 50, 61]⟩ 3 2 = some out ∧
      out.width = (Image.mk 3 2 255 [10, 20, 30, 40, 50, 61]).width ∧
      out.height = (Image.mk 3 2 255 [10, 20, 30, 40, 50, 61]).height ∧
      out.maxval = (Image.mk 3 2 255 [10, 20, 30, 40, 50, 61]).maxval ∧
      ∀ x y, ImageValidPos ⟨3, 2, 255, [10, 20, 30, 40, 50, 61]⟩ x y = true →
        ImageGetPixel out x y =
          some (((Image.mk 3 2 255 [10, 20, 30, 40, 50, 61]).pixel.sum +
              ((Image.mk 3 2 255 [10, 20, 30, 40, 50, 61]).width *
                (Image.mk 3 2 255 [10, 20, 30, 40, 50, 61]).height).toNat / 2) /
            ((Image.mk 3 2 255 [10, 20, 30, 40, 50, 61]).width *
              (Image.mk 3 2 255 [10, 20, 30, 40, 50, 61]).height).toNat) :=
  blur_full_window ⟨3, 2, 255, [10, 20, 30, 40, 50, 61]⟩ (by decide) (by decide) (by decide)
    (by decide) 3 2 (by decide) (by decide) (by decide) (by decide)

/-! ## Pixel statistics (C22) -/

/-- C22 (failing input): on a 1x1 image whose pixel is 100, with `*min = 255` and `*max = 0`
on entry, `ImageStats` returns `*min = 100` and `*max = 0`: the pixel lowers `*min`, and the
`else` keeps it from being compared with `*max`.  With `*min = 0` and `*max = 0` on entry it
returns `*min = 0`: the entry value of `*min` is never replaced by a pixel level. -/
theorem stats_single_pixel :
    ImageStats ⟨1, 1, 255, [100]⟩ 255 0 = some (100, 0) ∧
    ImageStats ⟨1, 1, 255, [100]⟩ 0 0 = some (0, 100) := by
  decide

/-! ## Exactness of the table (C23) -/

/-- C23 (as stated, refuted): on the one-row image of 16843010 pixels 255, the first pass of
`ImageBlur` leaves 254 in the entry `sum[0][16843009]`, while the sum of the pixels with
column at most 16843009 and row at most 0 is 4294967550: the entry has wrapped modulo
`2^32`. -/
theorem table_wraps_wide :
    wideImage.WF ∧ ImageValidPos wideImage 16843009 0 = true ∧
    (∃ sum, blurTable wideImage (fun _ _ => 0) = some sum ∧ sum 0 16843009 = 254) ∧
    areaSum (fun k l => wideImage.pix k l) ((16843009 : Int).toNat + 1) ((0 : Int).toNat + 1) =
      4294967550 := by
  have e : (16843009 : Int).toNat + 1 = 16843010 := by decide
  have e' : (0 : Int).toNat + 1 = 1 := by decide
  refine ⟨wideImage_wf, by decide, ?_, ?_⟩
  · obtain ⟨sum, hsum, hT⟩ := blurTable_mod wideImage wideImage_wf (fun _ _ => 0)
    refine ⟨sum, hsum, ?_⟩
    rw [hT 16843009 0 (by decide) (by decide) (by decide) (by decide), e, e',
      wideImage_areaSum 16843010 (le_refl _)]
    norm_num
  · rw [e, e', wideImage_areaSum 16843010 (le_refl _)]

/-- C23 (amended): for every image with `width*height*255 < 2^32`, whatever the table holds
on entry, the first pass of `ImageBlur` runs without a failed assertion and leaves in every
entry `sum[y][x]` at a valid position the exact sum of the original pixels with column at
most `x` and row at most `y`, which is below `2^32`. -/
theorem table_exact (img : Image) (hwf : img.WF)
    (hbound : img.width * img.height * 255 < 2 ^ 32) (init : Int → Int → Nat) :
    ∃ sum, blurTable img init = some sum ∧
      ∀ x y, ImageValidPos img x y = true →
        sum y x = ∑ k in Finset.range (x.toNat + 1), ∑ l in Finset.range (y.toNat + 1),
          img.pix k l ∧
        sum y x < 2 ^ 32 := by
  obtain ⟨sum, hsum, hT⟩ := blurTable_spec img hwf hbound init
  refine ⟨sum, hsum, fun x y hv => ?_⟩
  obtain ⟨hx0, hx, hy0, hy⟩ := (validPos_iff img x y).1 hv
  have h := hT x y hx0 hx hy0 hy
  refine ⟨h, ?_⟩
  rw [h]
  exact areaSum_pix_lt img hwf hbound _ _ (by push_cast; omega) (by push_cast; omega)

theorem table_exact_witness :
    ∃ sum, blurTable ⟨3, 2, 255, [10, 20, 30, 40, 50, 61]⟩ (fun _ _ => 7) = some sum ∧
      ∀ x y, ImageValidPos ⟨3, 2, 255, [10, 20, 30, 40, 50, 61]⟩ x y = true →
        sum y x = ∑ k in Finset.range (x.toNat + 1), ∑ l in Finset.range (y.toNat + 1),
          (Image.mk 3 2 255 [10, 20, 30, 40, 50, 61]).pix k l ∧
        sum y x < 2 ^ 32 :=
  table_exact ⟨3, 2, 255, [10, 20, 30, 40, 50, 61]⟩ (by decide) (by decide) (fun _ _ => 7)

/-! ## Blurred pixels lie between the window minimum and maximum (C24) -/

theorem windowSum_between (img : Image) (x y dx dy : Int) (lo hi : Nat)
    (h : ∀ k l : Nat, (k : Int) < img.width → (l : Int) < img.height →
      x - dx ≤ (k : Int) → (k : Int) ≤ x + dx → y - dy ≤ (l : Int) → (l : Int) ≤ y + dy →
      lo ≤ img.pix k l ∧ img.pix k l ≤ hi) :
    lo * windowCount img x y dx dy ≤ windowSum img x y dx dy ∧
      windowSum img x y dx dy ≤ hi * windowCount img x y dx dy := by
  unfold windowSum windowCount
  constructor
  · rw [Finset.mul_sum]
    refine Finset.sum_le_sum (fun k hk => ?_)
    rw [Finset.mul_sum]
    refine Finset.sum_le_sum (fun l hl => ?_)
    have hk' := Finset.mem_range.1 hk
    have hl' := Finset.mem_range.1 hl
    split_ifs with hc
    · rw [mul_one]
      exact (h k l (by omega) (by omega) hc.1 hc.2.1 hc.2.2.1 hc.2.2.2).1
    · simp
  · rw [Finset.mul_sum]
    refine Finset.sum_le_sum (fun k hk => ?_)
    rw [Finset.mul_sum]
    refine Finset.sum_le_sum (fun l hl => ?_)
    have hk' := Finset.mem_range.1 hk
    have hl' := Finset.mem_range.1 hl
    split_ifs with hc
    · rw [mul_one]
      exact (h k l (by omega) (by omega) hc.1 hc.2.1 hc.2.2.1 hc.2.2.2).2
    · simp

theorem windowMean_between (img : Image) (x y dx dy : Int) (lo hi : Nat)
    (hc : 0 < windowCount img x y dx dy)
    (h : ∀ k l : Nat, (k : Int) < img.width → (l : Int) < img.height →
      x - dx ≤ (k : Int) → (k : Int) ≤ x + dx → y - dy ≤ (l : Int) → (l : Int) ≤ y + dy →
      lo ≤ img.pix k l ∧ img.pix k l ≤ hi) :
    lo ≤ windowMean img x y dx dy ∧ windowMean img x y dx dy ≤ hi := by
  obtain ⟨h1, h2⟩ := windowSum_between img x y dx dy lo hi h
  unfold windowMean
  generalize windowSum img x y dx dy = S at h1 h2 ⊢
  generalize windowCount img x y dx dy = c at h1 h2 hc ⊢
  constructor
  · rw [Nat.le_div_iff_mul_le hc]
    omega
  · apply Nat.le_of_lt_succ
    rw [Nat.div_lt_iff_lt_mul hc, Nat.succ_mul]
    generalize hi * c = t at h2 ⊢
    omega

theorem mem_windowVals (img : Image) (x y dx dy : Int) (k l : Nat)
    (hk : (k : Int) < img.width) (hl : (l : Int) < img.height)
    (h1 : x - dx ≤ (k : Int)) (h2 : (k : Int) ≤ x + dx) (h3 : y - dy ≤ (l : Int))
    (h4 : (l : Int) ≤ y + dy) : img.pix k l ∈ windowVals img x y dx dy := by
  unfold windowVals
  refine Finset.mem_image.2 ⟨(k, l), ?_, rfl⟩
  refine Finset.mem_filter.2 ⟨Finset.mem_product.2 ⟨Finset.mem_range.2 (by omega),
    Finset.mem_range.2 (by omega)⟩, h1, h2, h3, h4⟩

/-- C24 (as stated, refuted): on a 1x2 image, `ImageBlur(img, 0, 2147483647)` does not run to
the end: `y+dy` overflows an `int` at `y = 1`, so the pixel of that position is not written
with a value of its window. -/
theorem blur_between_overflow :
    (Image.mk 1 2 255 [10, 20]).WF ∧
    ImageBlur ⟨1, 2, 255, [10, 20]⟩ 0 2147483647 = none :=
  ⟨by decide,
    blur_overflow ⟨1, 2, 255, [10, 20]⟩ (by decide) 0 2147483647 0 1 (by decide)
      (Or.inr (by norm_num))⟩

/-- C24 (amended): for every non-empty image with `width*height*255 < 2^32` and every
`dx >= 0`, `dy >= 0` with `width + dx <= 2^31` and `height + dy <= 2^31` (so that `x+dx` and
`y+dy` are `int` values at every position), `ImageBlur` runs to the end and the level `v` it
writes at each position is the rounded mean of the window itself (the conversion to `uint8`
does not change it), lies between the minimum and the maximum of the original pixels in the
window `[x-dx, x+dx] x [y-dy, y+dy]` clipped to the image, and is at most 255. -/
theorem blur_between_min_max (img : Image) (hwf : img.WF) (_hw : 0 < img.width)
    (_hh : 0 < img.height) (hbound : img.width * img.height * 255 < 2 ^ 32) (dx dy : Int)
    (hdx : 0 ≤ dx) (hdy : 0 ≤ dy) (hfx : img.width + dx ≤ 2 ^ 31)
    (hfy : img.height + dy ≤ 2 ^ 31) :
    ∃ out, ImageBlur img dx dy = some out ∧
      ∀ x y, ImageValidPos img x y = true →
        ∃ (v : Nat) (hne : (windowVals img x y dx dy).Nonempty),
          ImageGetPixel out x y = some v ∧ v = windowMean img x y dx dy ∧
          (windowVals img x y dx dy).min' hne ≤ v ∧
          v ≤ (windowVals img x y dx dy).max' hne ∧ v ≤ 255 := by
  obtain ⟨out, hb, howf, how, hoh, _, hpx⟩ :=
    blur_pixels img hwf hbound dx dy hdx hdy (fun _ => hfx) (fun _ => hfy)
  refine ⟨out, hb, fun x y hv => ?_⟩
  obtain ⟨hx0, hx, hy0, hy⟩ := (validPos_iff img x y).1 hv
  have hvo : ImageValidPos out x y = true := by rw [validPos_congr how hoh]; exact hv
  obtain ⟨hlt, hpos, _⟩ := window_facts img hwf x y dx dy hv hdx hdy
  have hne : (windowVals img x y dx dy).Nonempty :=
    ⟨_, mem_windowVals img x y dx dy x.toNat y.toNat (by omega) (by omega) (by omega) (by omega)
      (by omega) (by omega)⟩
  obtain ⟨hlo, hhi⟩ := windowMean_between img x y dx dy
    ((windowVals img x y dx dy).min' hne) ((windowVals img x y dx dy).max' hne) hpos
    (fun k l hk hl h1 h2 h3 h4 =>
      ⟨Finset.min'_le _ _ (mem_windowVals img x y dx dy k l hk hl h1 h2 h3 h4),
        Finset.le_max' _ _ (mem_windowVals img x y dx dy k l hk hl h1 h2 h3 h4)⟩)
  refine ⟨windowMean img x y dx dy, hne, ?_, rfl, hlo, hhi, by omega⟩
  rw [getPixel_eq out howf.2.2.2.2.1 hvo, hpx x y hv]

theorem blur_between_min_max_witness :
    ∃ out, ImageBlur ⟨3, 2, 255, [10, 20, 30, 40, 50, 61]⟩ 1 1 = some out ∧
      ∀ x y, ImageValidPos ⟨3, 2, 255, [10, 20, 30, 40, 50, 61]⟩ x y = true →
        ∃ (v : Nat)
          (hne : (windowVals ⟨3, 2, 255, [10, 20, 30, 40, 50, 61]⟩ x y 1 1).Nonempty),
          ImageGetPixel out x y = some v ∧
          v = windowMean ⟨3, 2, 255, [10, 20, 30, 40, 50, 61]⟩ x y 1 1 ∧
          (windowVals ⟨3, 2, 255, [10, 20, 30, 40, 50, 61]⟩ x y 1 1).min' hne ≤ v ∧
          v ≤ (windowVals ⟨3, 2, 255, [10, 20, 30, 40, 50, 61]⟩ x y 1 1).max' hne ∧ v ≤ 255 :=
  blur_between_min_max ⟨3, 2, 255, [10, 20, 30, 40, 50, 61]⟩ (by decide) (by decide)
    (by decide) (by decide) 1 1 (by decide) (by decide) (by decide) (by decide)

end Image8bit
